import Mathlib

/-!
# Polyfit.cpp: weighted polynomial least squares

A shallow embedding of the numerical core of `src/Polyfit.cpp` in exact
arithmetic: the `double` values of the program are elements of a linearly
ordered field `K` (the rationals when a definition is evaluated), a
`double**` matrix is a function from row and column index to `K`, and every
`for` loop is the iteration `forLoop` of its body over its index range.
A quotient of the program is the quotient of the field; a statement about a
value that the program obtains by dividing assumes that the divisor is not
zero. `size_t` values are natural numbers below `2 ^ 64`, and a subtraction
of `size_t` values wraps modulo `2 ^ 64`.

The rounding of `double` arithmetic decides the control flow of `incbeta`:
`incbetaRounded` and `cdfStudentRounded` take the rounding function as a
parameter, and `binary64` is the rounding of the program (IEEE 754
binary64, round to nearest, ties to even).
-/

namespace Polyfit

set_option linter.unusedSectionVars false
set_option linter.unusedVariables false

/-! ## Loops, matrices and `size_t` -/

/-- The iteration `for (i = start; ...; i++) s = body i s`, run `count` times. -/
def loopFrom {σ : Type} (body : Nat → σ → σ) : Nat → Nat → σ → σ
  | _, 0, s => s
  | i, c + 1, s => loopFrom body (i + 1) c (body i s)

/-- The loop `for (size_t i = lo; i < hi; i++) s = body i s`. -/
def forLoop {σ : Type} (lo hi : Nat) (body : Nat → σ → σ) (s : σ) : σ :=
  loopFrom body lo (hi - lo) s

/-- A `double**` matrix: entry `a i j` is `a[i][j]`. -/
abbrev Mat (K : Type) := Nat → Nat → K

/-- A `double*` vector. -/
abbrev Vec (K : Type) := Nat → K

/-- The assignment `a[i][j] = v`. -/
def setEntry {K : Type} (a : Mat K) (i j : Nat) (v : K) : Mat K :=
  fun r c => if r = i ∧ c = j then v else a r c

/-- The assignment `v[i] = x`. -/
def setVec {K : Type} (v : Vec K) (i : Nat) (x : K) : Vec K :=
  fun r => if r = i then x else v r

/-- The row-pointer exchange `swap(a[i], a[p])`. -/
def swapRows {K : Type} (a : Mat K) (i p : Nat) : Mat K :=
  fun r => if r = i then a p else if r = p then a i else a r

/-- The number of `size_t` values. -/
def sizeMod : Nat := 2 ^ 64

/-- Subtraction of `size_t` values: `a - b` modulo `2 ^ 64`. -/
def subSize (a b : Nat) : Nat := (a + sizeMod - b % sizeMod) % sizeMod

/-- `Make2DArray(rows, cols)`: a matrix with every entry `0.`. -/
def Make2DArray {K : Type} [Zero K] (_rows _cols : Nat) : Mat K := fun _ _ => 0

/-- A `double` in exact arithmetic: a number of the field, or one of the
special values `+inf`, `-inf`, NaN of IEEE 754 (there is a single zero and
no rounding). -/
inductive Dbl (K : Type) where
  /-- A finite value. -/
  | fin : K → Dbl K
  /-- The value `+inf`, as produced by `1.0 / 0.0`. -/
  | pinf : Dbl K
  /-- The value `-inf`, as produced by `log(0.)`. -/
  | ninf : Dbl K
  /-- Not a number. -/
  | nan : Dbl K

section Field

variable {K : Type} [LinearOrderedField K]

/-! ## Dense matrix utilities -/

/-- `MatTrans(array, rows, cols)`: `arrayT[j][i] = array[i][j]`. -/
def MatTrans (array : Mat K) (rows cols : Nat) : Mat K :=
  forLoop 0 rows (fun i arrayT =>
    forLoop 0 cols (fun j arrayT => setEntry arrayT j i (array i j)) arrayT)
    (Make2DArray cols rows)

/-- `MatMul(m1, m2, m3, A, B)`: the product of `A[m1,m2]` by `B[m2,m3]`. -/
def MatMul (m1 m2 m3 : Nat) (A B : Mat K) : Mat K :=
  forLoop 0 m1 (fun i array =>
    forLoop 0 m3 (fun j array =>
      forLoop 0 m2 (fun m array => setEntry array i j (array i j + A i m * B m j))
        (setEntry array i j 0)) array)
    (Make2DArray m1 m3)

/-- `MatVectMul(m1, m2, A, v, Av)`: the product of `A[m1,m2]` by `v[m2]`,
written into `Av`. -/
def MatVectMul (m1 m2 : Nat) (A : Mat K) (v Av : Vec K) : Vec K :=
  forLoop 0 m1 (fun i Av =>
    forLoop 0 m2 (fun j Av => setVec Av i (Av i + A i j * v j)) (setVec Av i 0)) Av

/-- The pivot search of `determinant`: the row `j > i` taken whenever
`abs(a[j][i]) > abs(a[pivot][i])`, starting from `pivot = i`. -/
def pivotSearch (a : Mat K) (i n : Nat) : Nat :=
  forLoop (i + 1) n (fun j pivot => if |a j i| > |a pivot i| then j else pivot) i

/-- The elimination of `determinant` below row `i`:
`a[j][k] -= a[j][i] / a[i][i] * a[i][k]` for `j, k` in `i+1 .. n-1`. -/
def eliminate (a : Mat K) (i n : Nat) : Mat K :=
  forLoop (i + 1) n (fun j a =>
    let factor := a j i / a i i
    forLoop (i + 1) n (fun k a => setEntry a j k (a j k - factor * a i k)) a) a

/-- The outer loop of `determinant` from index `i`, with `fuel` iterations
left, the running value `det` and the matrix `a` as modified so far. -/
def detLoop (n : Nat) : Nat → Nat → K → Mat K → K × Mat K
  | 0, _, det, a => (det, a)
  | fuel + 1, i, det, a =>
    let pivot := pivotSearch a i n
    let a1 := if pivot ≠ i then swapRows a i pivot else a
    let det1 := if pivot ≠ i then det * -1 else det
    if a1 i i = 0 then (0, a1)
    else detLoop n fuel (i + 1) (det1 * a1 i i) (eliminate a1 i n)

/-- `determinant(a, n)`: the returned value and the matrix `a` as the call
leaves it (the function works in place). -/
def determinant (a : Mat K) (n : Nat) : K × Mat K :=
  detLoop n n 0 1 a

/-- The function `transpose(num, fac, inverse, r)`: the transposed cofactor
matrix `fac` divided by `determinant(num, r)`, written into `inverse`.
Returns `inverse` and `num` as the call leaves them. -/
def transpose (num fac inverse : Mat K) (r : Nat) : Mat K × Mat K :=
  let b := forLoop 0 r (fun i b =>
    forLoop 0 r (fun j b => setEntry b i j (fac j i)) b) (Make2DArray r r)
  let dn := determinant num r
  let deter := dn.1
  (forLoop 0 r (fun i inverse =>
    forLoop 0 r (fun j inverse => setEntry inverse i j (b i j / deter)) inverse) inverse, dn.2)

/-- The body of the two inner loops of `cofactor` on the state `(b, m, n)`:
`if (i != q && j != p) { b[m][n] = num[i][j]; if (n < (f - 2)) n++; else { n = 0; m++; } }`. -/
def minorStep (num : Mat K) (f q p i j : Nat) (st : Mat K × Nat × Nat) : Mat K × Nat × Nat :=
  if i ≠ q ∧ j ≠ p then
    if st.2.2 < subSize f 2
      then (setEntry st.1 st.2.1 st.2.2 (num i j), st.2.1, st.2.2 + 1)
      else (setEntry st.1 st.2.1 st.2.2 (num i j), st.2.1 + 1, 0)
  else st

/-- The two inner loops of `cofactor` for one `(q, p)`, started with
`m = 0; n = 0`: the entries of `num` outside row `q` and column `p` are
copied into `b`. -/
def minorFill (num b : Mat K) (f q p : Nat) : Mat K × Nat × Nat :=
  forLoop 0 f (fun i st => forLoop 0 f (fun j st => minorStep num f q p i j st) st) (b, 0, 0)

/-- The loops of `cofactor` over `q` and `p`; the state is `(b, fac)`, and
`determinant(b, f - 1)` works on `b` in place. -/
def cofactorLoop (num : Mat K) (f : Nat) : Mat K × Mat K :=
  forLoop 0 f (fun q st =>
    forLoop 0 f (fun p st =>
      let db := determinant (minorFill num st.1 f q p).1 (subSize f 1)
      (db.2, setEntry st.2 q p ((-1) ^ (q + p) * db.1))) st)
    (Make2DArray f f, Make2DArray f f)

/-- The function `cofactor(num, inverse, f)`: the inverse of `num` by the
cofactor method. Returns `inverse` and `num` as the call leaves them. -/
def cofactor (num inverse : Mat K) (f : Nat) : Mat K × Mat K :=
  transpose num (cofactorLoop num f).2 inverse f

/-! ## Fit and statistics -/

/-- `CalculateRSS(x, y, a, Weights, N, n)`: the residual sum of squares. -/
def CalculateRSS (x y a : Vec K) (Weights : Mat K) (N n : Nat) : K :=
  forLoop 0 N (fun i r2 =>
    let ri := forLoop 0 n (fun j ri => ri - a j * x i ^ j) (y i)
    r2 + ri * ri * Weights i i) 0

/-- `CalculateTSS(y, Weights, fixed, N)`: the total sum of squares. -/
def CalculateTSS (y : Vec K) (Weights : Mat K) (fixed : Bool) (N : Nat) : K :=
  if fixed then
    forLoop 0 N (fun i r2 => r2 + y i * y i * Weights i i) 0
  else
    let s := forLoop 0 N (fun i (s : K × K) => (s.1 + y i * Weights i i, s.2 + Weights i i))
      (0, 0)
    let sumwy := s.1
    let sumweights := s.2
    forLoop 0 N (fun i r2 =>
      let ri := y i - sumwy / sumweights
      r2 + ri * ri * Weights i i) 0

/-- `CalculateR2COD(x, y, a, Weights, fixed, N, n)`: `1 - RSS / TSS`. -/
def CalculateR2COD (x y a : Vec K) (Weights : Mat K) (fixed : Bool) (N n : Nat) : K :=
  let RSS := CalculateRSS x y a Weights N n
  let TSS := CalculateTSS y Weights fixed N
  1 - RSS / TSS

/-- The design matrix of `PolyFit`: `X[i][j] = pow(x[i], j)` for `j` from
`begin` to `k`, in a zero matrix. -/
def designMatrix (x : Vec K) (n k : Nat) (fixedinter : Bool) : Mat K :=
  let begin := if fixedinter then 1 else 0
  forLoop 0 n (fun i X =>
    forLoop begin (k + 1) (fun j X => setEntry X i j (x i ^ j)) X) (Make2DArray n (k + 1))

/-- The matrix `XTWX` that `PolyFit` passes to `cofactor`, with `XTW`. -/
def gramMatrix (x : Vec K) (n k : Nat) (fixedinter : Bool) (Weights : Mat K) :
    Mat K × Mat K :=
  let X := designMatrix x n k fixedinter
  let XT := MatTrans X n (k + 1)
  let XTW := MatMul (k + 1) n n XT Weights
  let XTWX := MatMul (k + 1) n (k + 1) XTW X
  (if fixedinter then setEntry XTWX 0 0 1 else XTWX, XTW)

/-- `PolyFit(x, y, n, k, fixedinter, fixedinterval, beta, Weights, XTWXInv)`:
returns `beta` and `XTWXInv` as written by the call. The arrays `XTWY` and
`Y`, allocated with `new`, are written before they are read and start here
as zero vectors. -/
def PolyFit (x y : Vec K) (n k : Nat) (fixedinter : Bool) (fixedinterval : K)
    (beta : Vec K) (Weights XTWXInv : Mat K) : Vec K × Mat K :=
  let g := gramMatrix x n k fixedinter Weights
  let XTWX := g.1
  let XTW := g.2
  let XTWXInv := (cofactor XTWX XTWXInv (k + 1)).1
  let Y := forLoop 0 n (fun m Y =>
    if fixedinter then setVec Y m (y m - fixedinterval) else setVec Y m (y m)) (fun _ => 0)
  let XTWY := MatVectMul (k + 1) n XTW Y (fun _ => 0)
  let beta := MatVectMul (k + 1) (k + 1) XTWXInv XTWY beta
  (if fixedinter then setVec beta 0 fixedinterval else beta, XTWXInv)

/-- `CalculateWeights(erry, Weights, n, type)`: the `switch` on `type` for
every `i < n`; a `type` other than 0, 1, 2 writes nothing. -/
def CalculateWeights (erry : Vec K) (Weights : Mat K) (n : Nat) (type : Int) : Mat K :=
  forLoop 0 n (fun i Weights =>
    if type = 0 then setEntry Weights i i 1
    else if type = 1 then setEntry Weights i i (erry i)
    else if type = 2 then
      if erry i > 0 then setEntry Weights i i (1 / (erry i * erry i))
      else setEntry Weights i i 0
    else Weights) Weights

/-- `CalculateSERRBeta(fixedinter, SE, k, serbeta, XTWXInv)`; the square
root of the program is the parameter `sqrt`. -/
def CalculateSERRBeta (sqrt : K → K) (fixedinter : Bool) (SE : K) (k : Nat)
    (serbeta : Vec K) (XTWXInv : Mat K) : Vec K :=
  let begin := if fixedinter then 1 else 0
  forLoop begin (k + 1) (fun i serbeta => setVec serbeta i (SE * sqrt (XTWXInv i i)))
    (setVec serbeta 0 0)

/-! ## The main program -/

/-- The values `main` has computed when it reaches the display of the fit. -/
structure Report (K : Type) where
  /-- The array `coefbeta`. -/
  coefbeta : Vec K
  /-- The array `serbeta`. -/
  serbeta : Vec K
  /-- The variable `RSS`. -/
  RSS : K
  /-- The variable `TSS`. -/
  TSS : K
  /-- The variable `R2`. -/
  R2 : K
  /-- The variable `SE`. -/
  SE : K
  /-- The variable `tstudentval`. -/
  tstudentval : K
  /-- The matrix `XTWXInv`. -/
  XTWXInv : Mat K

/-- How a run of `main` on readable input ends. -/
inductive Outcome (K : Type) where
  /-- The message "The polynomial order is too high" and `return -1`. -/
  | orderTooHigh : Outcome K
  /-- The message "One or more points have 0 error" and `return -1`. -/
  | singularWeights : Outcome K
  /-- The fit was made and its report computed. -/
  | fitted : Report K → Outcome K

/-- The variable `nstar` of `main`: `n - 1` in `size_t`, or `n` when the
intercept is fixed. -/
def nstarOf (n : Nat) (fixedinter : Bool) : Nat :=
  if fixedinter then n else subSize n 1

/-- The pair `(SE, tstudentval)` of `main` after the test `(nstar - k) > 0`;
`sqrt` and `CalculateTValueStudent` are parameters. -/
def standardError (sqrt : K → K) (tValueStudent : K → K → K) (RSS alphaval : K)
    (nstar k : Nat) : K × K :=
  if subSize nstar k > 0 then
    (sqrt (RSS / (subSize nstar k : Nat)),
      |tValueStudent (subSize nstar k : Nat) (1 - 0.5 * alphaval)|)
  else (0, 0)

/-- The computation of `main` from the point where the `n` samples `x`, `y`
have been read, with the input values `k`, `fixedinter`, `wtype`,
`fixedinterval`, `alphaval` and the array `erry` as arguments. -/
def mainRun (sqrt : K → K) (tValueStudent : K → K → K) (x y erry : Vec K) (n k : Nat)
    (fixedinter : Bool) (wtype : Int) (fixedinterval alphaval : K) : Outcome K :=
  let nstar := nstarOf n fixedinter
  if k > nstar then Outcome.orderTooHigh
  else
    let XTWXInv : Mat K := Make2DArray (k + 1) (k + 1)
    let Weights := CalculateWeights erry (Make2DArray n n) n wtype
    let dw := determinant Weights n
    if dw.1 = 0 then Outcome.singularWeights
    else
      let Weights := dw.2
      let fit := PolyFit x y n k fixedinter fixedinterval (fun _ => 0) Weights XTWXInv
      let coefbeta := fit.1
      let XTWXInv := fit.2
      let RSS := CalculateRSS x y coefbeta Weights n (k + 1)
      let TSS := CalculateTSS y Weights fixedinter n
      let R2 := CalculateR2COD x y coefbeta Weights fixedinter n (k + 1)
      let st := standardError sqrt tValueStudent RSS alphaval nstar k
      let serbeta := CalculateSERRBeta sqrt fixedinter st.1 k (fun _ => 0) XTWXInv
      Outcome.fitted
        { coefbeta := coefbeta, serbeta := serbeta, RSS := RSS, TSS := TSS, R2 := R2,
          SE := st.1, tstudentval := st.2, XTWXInv := XTWXInv }

/-! ## Adjusted R², confidence bands and the response vector -/

/-- `CalculateR2Adj(x, y, a, Weights, fixed, N, n)`: the differences `N - n`
and `N - 1` are taken in `size_t` and then converted to `double`. -/
def CalculateR2Adj (x y a : Vec K) (Weights : Mat K) (fixed : Bool) (N n : Nat) : K :=
  let RSS := CalculateRSS x y a Weights N n
  let TSS := CalculateTSS y Weights fixed N
  let dferr : K := ((subSize N n : Nat) : K)
  let dftot : K := ((subSize N 1 : Nat) : K)
  let dferr := if fixed then dferr + 1 else dferr
  let dftot := if fixed then dftot + 1 else dftot
  1 - dftot / dferr * RSS / TSS

/-- `calculatePoly(x, a, n)`: the sum of `a[i] * pow(x, i)` for `i` from `0`
to `n` included. -/
def calculatePoly (x : K) (a : Vec K) (n : Nat) : K :=
  forLoop 0 (n + 1) (fun i poly => poly + a i * x ^ i) 0

/-- One line of the file written by `WriteCIBands`. -/
structure BandRow (K : Type) where
  /-- The abscissa `x1`. -/
  x : K
  /-- The predicted value `y0`. -/
  y : K
  /-- The lower confidence limit `y1`. -/
  CIlow : K
  /-- The upper confidence limit `y2`. -/
  CIhi : K
  /-- The lower prediction limit `y3`. -/
  PredLo : K
  /-- The upper prediction limit `y4`. -/
  PredHi : K

/-- The leverage `xprod` of `WriteCIBands` at the abscissa `x1`. -/
def leverage (x1 : K) (XTXInv : Mat K) (k : Nat) : K :=
  let xstar := forLoop 0 (k + 1) (fun j (xstar : Vec K) => setVec xstar j (x1 ^ j)) (fun _ => 0)
  forLoop 0 (k + 1) (fun j xprod =>
    forLoop 0 (k + 1) (fun m xprod => xprod + xstar m * xstar j * XTXInv j m) xprod) 0

/-- The body of the loop of `WriteCIBands` for the index `i`: the line written
to the file; `interval` is `x[n - 1] - x[0]`. -/
def bandRow (sqrt : K → K) (x coefbeta : Vec K) (XTXInv : Mat K) (tstudentval SE : K)
    (n k i : Nat) : BandRow K :=
  let interval := x (subSize n 1) - x 0
  let x1 := x 0 + interval / 100 * (i : K)
  let xprod := leverage x1 XTXInv k
  let y0 := calculatePoly x1 coefbeta (k + 1)
  { x := x1, y := y0,
    CIlow := y0 - tstudentval * SE * sqrt xprod,
    CIhi := y0 + tstudentval * SE * sqrt xprod,
    PredLo := y0 - tstudentval * SE * sqrt (1 + xprod),
    PredHi := y0 + tstudentval * SE * sqrt (1 + xprod) }

/-- `WriteCIBands(filename, x, coefbeta, XTXInv, tstudentval, SE, n, k)`: the
lines written after the header, in order. -/
def WriteCIBands (sqrt : K → K) (x coefbeta : Vec K) (XTXInv : Mat K) (tstudentval SE : K)
    (n k : Nat) : List (BandRow K) :=
  forLoop 0 101 (fun i rows => rows ++ [bandRow sqrt x coefbeta XTXInv tstudentval SE n k i]) []

/-- The array `Y` of `PolyFit`: `y[m] - fixedinterval` when the intercept is
fixed, `y[m]` otherwise. -/
def responseVector (y : Vec K) (n : Nat) (fixedinter : Bool) (fixedinterval : K) : Vec K :=
  forLoop 0 n (fun m (Y : Vec K) =>
    if fixedinter then setVec Y m (y m - fixedinterval) else setVec Y m (y m)) (fun _ => 0)

/-! ## Special functions -/

/-- The opposite of a `double`. -/
def Dbl.neg : Dbl K → Dbl K
  | Dbl.fin v => Dbl.fin (-v)
  | Dbl.pinf => Dbl.ninf
  | Dbl.ninf => Dbl.pinf
  | Dbl.nan => Dbl.nan

/-- The sum of two `double`s. -/
def Dbl.add : Dbl K → Dbl K → Dbl K
  | Dbl.fin u, Dbl.fin v => Dbl.fin (u + v)
  | Dbl.fin _, Dbl.pinf => Dbl.pinf
  | Dbl.fin _, Dbl.ninf => Dbl.ninf
  | Dbl.pinf, Dbl.fin _ => Dbl.pinf
  | Dbl.pinf, Dbl.pinf => Dbl.pinf
  | Dbl.ninf, Dbl.fin _ => Dbl.ninf
  | Dbl.ninf, Dbl.ninf => Dbl.ninf
  | _, _ => Dbl.nan

/-- The difference of two `double`s. -/
def Dbl.sub (u v : Dbl K) : Dbl K := Dbl.add u (Dbl.neg v)

/-- An infinity of the sign of `s * v`, NaN when `v` is zero. -/
def Dbl.infTimes (s : Bool) (v : K) : Dbl K :=
  if 0 < v then (if s then Dbl.pinf else Dbl.ninf)
  else if v < 0 then (if s then Dbl.ninf else Dbl.pinf)
  else Dbl.nan

/-- The product of two `double`s. -/
def Dbl.mul : Dbl K → Dbl K → Dbl K
  | Dbl.fin u, Dbl.fin v => Dbl.fin (u * v)
  | Dbl.fin u, Dbl.pinf => Dbl.infTimes true u
  | Dbl.fin u, Dbl.ninf => Dbl.infTimes false u
  | Dbl.pinf, Dbl.fin v => Dbl.infTimes true v
  | Dbl.ninf, Dbl.fin v => Dbl.infTimes false v
  | Dbl.pinf, Dbl.pinf => Dbl.pinf
  | Dbl.pinf, Dbl.ninf => Dbl.ninf
  | Dbl.ninf, Dbl.pinf => Dbl.ninf
  | Dbl.ninf, Dbl.ninf => Dbl.pinf
  | _, _ => Dbl.nan

/-- The quotient of two `double`s; a finite non-zero value divided by zero
is an infinity of its sign. -/
def Dbl.div : Dbl K → Dbl K → Dbl K
  | Dbl.fin u, Dbl.fin v => if v = 0 then Dbl.infTimes true u else Dbl.fin (u / v)
  | Dbl.fin _, Dbl.pinf => Dbl.fin 0
  | Dbl.fin _, Dbl.ninf => Dbl.fin 0
  | Dbl.pinf, Dbl.fin v => if 0 ≤ v then Dbl.pinf else Dbl.ninf
  | Dbl.ninf, Dbl.fin v => if 0 ≤ v then Dbl.ninf else Dbl.pinf
  | _, _ => Dbl.nan

/-- The library function `exp` on a `double`; `exp` is its restriction to
finite arguments. -/
def Dbl.exp (exp : K → K) : Dbl K → Dbl K
  | Dbl.fin v => Dbl.fin (exp v)
  | Dbl.pinf => Dbl.pinf
  | Dbl.ninf => Dbl.fin 0
  | Dbl.nan => Dbl.nan

/-- The library function `log` at a finite argument; `log` is its
restriction to positive arguments. -/
def Dbl.log (log : K → K) (x : K) : Dbl K :=
  if x < 0 then Dbl.nan else if x = 0 then Dbl.ninf else Dbl.fin (log x)

/-- The test `fabs(d) > p` for a finite `p`. -/
def Dbl.absGt : Dbl K → K → Bool
  | Dbl.fin v, p => decide (|v| > p)
  | Dbl.pinf, _ => true
  | Dbl.ninf, _ => true
  | Dbl.nan, _ => false

/-- The test `d < 0`. -/
def Dbl.ltZero : Dbl K → Bool
  | Dbl.fin v => decide (v < 0)
  | Dbl.ninf => true
  | _ => false

/-- The constant `STOP`. -/
def STOP : K := 1 / 10 ^ 8

/-- The constant `TINY`. -/
def TINY : K := 1 / 10 ^ 30

/-- The numerator of step `i` of the continued fraction of `incbeta`. -/
def lentzNumerator (a b x : K) (i : Nat) : K :=
  let m : Nat := i / 2
  if i = 0 then 1
  else if i % 2 = 0 then
    ((m : K) * (b - (m : K)) * x) / ((a + 2 * (m : K) - 1) * (a + 2 * (m : K)))
  else
    -((a + (m : K)) * (a + b + (m : K)) * x) / ((a + 2 * (m : K)) * (a + 2 * (m : K) + 1))

/-- The loop `for (i = 0; i <= 200; ++i)` of `incbeta` from index `i`, with
`rem` iterations left and the variables `f`, `c`, `d`; the loop returns
`front * (f - 1.0)` when `fabs(1.0 - cd) < STOP`, and the function returns
`1.0 / 0.0` when the loop ends. -/
def lentzLoop (a b x : K) (front : Dbl K) : Nat → Nat → K → K → K → Dbl K
  | 0, _, _, _, _ => Dbl.div (Dbl.fin 1) (Dbl.fin 0)
  | rem + 1, i, f, c, d =>
    let numerator := lentzNumerator a b x i
    let d1 := 1 + numerator * d
    let d2 := if |d1| < TINY then TINY else d1
    let d3 := 1 / d2
    let c1 := 1 + numerator / c
    let c2 := if |c1| < TINY then TINY else c1
    let cd := c2 * d3
    let f1 := f * cd
    if |1 - cd| < STOP then Dbl.mul front (Dbl.fin (f1 - 1))
    else lentzLoop a b x front rem (i + 1) f1 c2 d3

/-- The factor `front` of `incbeta`:
`exp(log(x) * a + log(1.0 - x) * b - lbeta_ab) / a` with
`lbeta_ab = lgamma(a) + lgamma(b) - lgamma(a + b)`. -/
def incbetaFront (lgamma exp log : K → K) (a b x : K) : Dbl K :=
  let lbeta_ab := lgamma a + lgamma b - lgamma (a + b)
  Dbl.div
    (Dbl.exp exp
      (Dbl.sub
        (Dbl.add (Dbl.mul (Dbl.log log x) (Dbl.fin a))
          (Dbl.mul (Dbl.log log (1 - x)) (Dbl.fin b)))
        (Dbl.fin lbeta_ab)))
    (Dbl.fin a)

/-- The number of reflections `incbeta(a, b, x)` has before it: `1` when the
call passes its guards with `x > (a + 1) / (a + b + 2)`, else `0`. -/
def reflections (a b x : K) : Nat :=
  if ¬ (x < 0 ∨ x > 1) ∧ ¬ a ≤ 0 ∧ ¬ b ≤ 0 ∧ x > (a + 1) / (a + b + 2) then 1 else 0

/-- `incbeta(a, b, x)` in exact arithmetic: no operation rounds, and the
functions `lgamma`, `exp` and `log` of the C library are parameters. The
rounding of the operations that decide the reflection is in
`incbetaRounded`. -/
def incbeta (lgamma exp log : K → K) (a b x : K) : Dbl K :=
  if h1 : x < 0 ∨ x > 1 then Dbl.div (Dbl.fin 1) (Dbl.fin 0)
  else if h2 : a ≤ 0 then Dbl.fin 0
  else if h3 : b ≤ 0 then Dbl.fin 0
  else if h4 : x > (a + 1) / (a + b + 2) then
    Dbl.sub (Dbl.fin 1) (incbeta lgamma exp log b a (1 - x))
  else
    lentzLoop a b x (incbetaFront lgamma exp log a b x) 201 0 1 1 0
termination_by reflections a b x
decreasing_by
  have ha : 0 < a := not_le.mp h2
  have hb : 0 < b := not_le.mp h3
  have hpos : 0 < a + b + 2 := by linarith
  have e : (b + 1) / (b + a + 2) = 1 - (a + 1) / (a + b + 2) := by
    field_simp
    ring
  have hR : reflections a b x = 1 := if_pos ⟨h1, h2, h3, h4⟩
  have hL : reflections b a (1 - x) = 0 := by
    apply if_neg
    rintro ⟨_, _, _, h⟩
    rw [e] at h
    linarith
  rw [hR, hL]
  exact Nat.zero_lt_one

/-- The `while` loop of `invincbeta`, with `fuel` evaluations of its
condition left: `none` when the fuel runs out before the loop ends. -/
def bisection (incb : K → Dbl K) (binit precision : K) :
    Nat → K → K → K → Dbl K → Option K
  | 0, _, _, _, _ => none
  | fuel + 1, x, a, b, bcur =>
    if Dbl.absGt (Dbl.sub bcur (Dbl.fin binit)) precision then
      let a1 := if Dbl.ltZero (Dbl.sub bcur (Dbl.fin binit)) then x else a
      let b1 := if Dbl.ltZero (Dbl.sub bcur (Dbl.fin binit)) then b else x
      let x1 := (a1 + b1) * 0.5
      bisection incb binit precision fuel x1 a1 b1 (incb x1)
    else some x

/-- `invincbeta(y, alpha, beta)`, with `fuel` evaluations of the condition of
its `while` loop. -/
def invincbeta (lgamma exp log : K → K) (fuel : Nat) (y alpha beta : K) : Option K :=
  if y ≤ 0 then some 0
  else if y ≥ 1 then some 1
  else if alpha ≤ 0 then some 0
  else if beta ≤ 0 then some 0
  else
    bisection (incbeta lgamma exp log alpha beta) y (1 / 10 ^ 8) fuel 0.5 0 1
      (incbeta lgamma exp log alpha beta 0.5)

/-- `cdfStudent(nu, t)`. -/
def cdfStudent (lgamma exp log : K → K) (nu t : K) : Dbl K :=
  let x := nu / (t * t + nu)
  Dbl.sub (Dbl.fin 1) (incbeta lgamma exp log (0.5 * nu) 0.5 x)

/-! ## Checked array reads -/

/-- `calculatePoly(x, a, n)` on an array `a` of known length, every read
`a[i]` being checked: the result is `none` as soon as one index `i` of the
loop `for (i = 0; i < n + 1; i++)` is not below the length of `a`. -/
def calculatePolyChecked (x : K) (a : List K) (n : Nat) : Option K :=
  forLoop 0 (n + 1) (fun i poly =>
    match poly, a[i]? with
    | some p, some ai => some (p + ai * x ^ i)
    | _, _ => none) (some 0)

/-! ## The rounding of `double` in the control flow of `incbeta` -/

/-- `incbeta(a, b, x)` with the rounding of the `double` operations that
decide its control flow made explicit: `fl` rounds the result of each
operation of the test `x > (a + 1.0) / (a + b + 2.0)` and of the argument
`1.0 - x` of the recursive call. With the identity for `fl` this is exact
arithmetic, with `binary64` it is the arithmetic of the program. The
recursion is on `depth`, the number of nested calls allowed: the result is
`none` when the call nests deeper than `depth`. -/
def incbetaRounded (fl : K → K) (lgamma exp log : K → K) :
    Nat → K → K → K → Option (Dbl K)
  | 0, _, _, _ => none
  | depth + 1, a, b, x =>
    if x < 0 ∨ x > 1 then some (Dbl.div (Dbl.fin 1) (Dbl.fin 0))
    else if a ≤ 0 then some (Dbl.fin 0)
    else if b ≤ 0 then some (Dbl.fin 0)
    else if x > fl (fl (a + 1) / fl (fl (a + b) + 2)) then
      Option.map (fun v => Dbl.sub (Dbl.fin 1) v)
        (incbetaRounded fl lgamma exp log depth b a (fl (1 - x)))
    else some (lentzLoop a b x (incbetaFront lgamma exp log a b x) 201 0 1 1 0)

/-- `cdfStudent(nu, t)` with the rounding `fl` of its own operations and of
the control flow of `incbeta`. -/
def cdfStudentRounded (fl : K → K) (lgamma exp log : K → K) (depth : Nat) (nu t : K) :
    Option (Dbl K) :=
  let x := fl (nu / fl (fl (t * t) + nu))
  Option.map (fun v => Dbl.sub (Dbl.fin 1) v)
    (incbetaRounded fl lgamma exp log depth (fl (0.5 * nu)) 0.5 x)

/-- The `double` nearest to the rational number `q` (IEEE 754 binary64, round
to nearest, ties to even, with the subnormal numbers), for `q` of magnitude
below `2 ^ 1024`: the significand `m` has at most 53 bits and the exponent
`e` is at least `-1074`. -/
def binary64 (q : ℚ) : ℚ :=
  if q = 0 then 0
  else
    let e : Int := max (Int.log 2 |q| - 52) (-1074)
    let s : ℚ := |q| / 2 ^ e
    let n : Int := ⌊s⌋
    let m : Int :=
      if s - n < 1 / 2 then n
      else if s - n > 1 / 2 then n + 1
      else if n % 2 = 0 then n else n + 1
    (if q < 0 then -1 else 1) * (m : ℚ) * 2 ^ e

/-- The `double` written `0.1`. -/
def reflA : ℚ := 3602879701896397 / 36028797018963968

/-- The `double` written `2.2`. -/
def reflB : ℚ := 2476979795053773 / 1125899906842624

/-- The `double` written `0.2558139534883721`. -/
def reflX : ℚ := 576041812803203 / 2251799813685248

/-! ## Mathematical counterparts used in the statements -/

/-- The square block of `a` of size `m` whose top left corner is `a[i][i]`. -/
def blk (a : Mat K) (i m : Nat) : Matrix (Fin m) (Fin m) K :=
  Matrix.of fun r c => a (i + r) (i + c)

/-- The index of the row (or column) of a matrix that becomes row (or
column) `r` of its minor when row (or column) `q` is left out. -/
def skipIdx (q r : Nat) : Nat := if r < q then r else r + 1

/-- The design matrix in the words of the specification: `X[i][j] = x_i ^ j`
for `i < n` and `j = 0 .. k`. -/
def vandermondeX (x : Vec K) (n k : Nat) : Matrix (Fin n) (Fin (k + 1)) K :=
  Matrix.of fun i j => x i ^ (j : Nat)

/-- The first `n` entries of a vector. -/
def toVector (v : Vec K) (n : Nat) : Fin n → K := fun i => v i

/-- The array whose entries are the elements of the list `l`. -/
def listVec (l : List K) : Vec K := fun i => l.getD i 0

/-- The matrix with `1.` on the diagonal and `0.` elsewhere. -/
def unitWeights : Mat K := fun i j => if i = j then 1 else 0

/-- The `r` by `c` matrix formed by the entries `a[i][j]`, `i < r`, `j < c`. -/
def toMatrix (a : Mat K) (r c : Nat) : Matrix (Fin r) (Fin c) K :=
  Matrix.of fun i j => a i j

end Field

/-! ## Loop rules -/

theorem loopFrom_snoc {σ : Type} (body : Nat → σ → σ) :
    ∀ (c i : Nat) (s : σ), loopFrom body i (c + 1) s = body (i + c) (loopFrom body i c s)
  | 0, i, s => rfl
  | c + 1, i, s => by
    show loopFrom body (i + 1) (c + 1) (body i s) = _
    rw [loopFrom_snoc body c (i + 1) (body i s)]
    have h : i + 1 + c = i + (c + 1) := by omega
    rw [h]
    rfl

theorem forLoop_of_le {σ : Type} (lo hi : Nat) (body : Nat → σ → σ) (s : σ) (h : hi ≤ lo) :
    forLoop lo hi body s = s := by
  unfold forLoop
  rw [Nat.sub_eq_zero_of_le h]
  rfl

theorem forLoop_succ {σ : Type} (lo hi : Nat) (body : Nat → σ → σ) (s : σ) (h : lo ≤ hi) :
    forLoop lo (hi + 1) body s = body hi (forLoop lo hi body s) := by
  unfold forLoop
  have e : hi + 1 - lo = (hi - lo) + 1 := by omega
  rw [e, loopFrom_snoc]
  have e2 : lo + (hi - lo) = hi := by omega
  rw [e2]

/-- The invariant rule for a `for` loop. -/
theorem forLoop_inv {σ : Type} (P : Nat → σ → Prop) (lo hi : Nat) (body : Nat → σ → σ)
    (s : σ) (hle : lo ≤ hi) (h0 : P lo s)
    (hstep : ∀ i t, lo ≤ i → i < hi → P i t → P (i + 1) (body i t)) :
    P hi (forLoop lo hi body s) := by
  induction hi with
  | zero =>
    have : lo = 0 := by omega
    subst this
    exact h0
  | succ m ih =>
    rcases Nat.eq_or_lt_of_le hle with h | h
    · rw [forLoop_of_le _ _ _ _ (by omega)]
      rw [← h]
      exact h0
    · have hm : lo ≤ m := by omega
      rw [forLoop_succ _ _ _ _ hm]
      apply hstep m _ hm (by omega)
      exact ih hm (fun i t h1 h2 h3 => hstep i t h1 (by omega) h3)

theorem setVec_setVec {K : Type} (v : Vec K) (i : Nat) (a b : K) :
    setVec (setVec v i a) i b = setVec v i b := by
  funext r
  unfold setVec
  by_cases h : r = i <;> simp [h]

theorem setEntry_setEntry {K : Type} (a : Mat K) (i j : Nat) (x y : K) :
    setEntry (setEntry a i j x) i j y = setEntry a i j y := by
  funext r c
  unfold setEntry
  by_cases h : r = i ∧ c = j <;> simp [h]

section FieldLemmas

variable {K : Type} [LinearOrderedField K]

/-! ## What the matrix utilities compute -/

theorem MatTrans_apply (array : Mat K) (rows cols r c : Nat) :
    MatTrans array rows cols r c = if c < rows ∧ r < cols then array c r else 0 := by
  unfold MatTrans
  refine forLoop_inv
    (fun i (t : Mat K) => ∀ r c, t r c = if c < i ∧ r < cols then array c r else 0)
    0 rows _ _ (Nat.zero_le _) ?_ ?_ r c
  · intro r c
    simp [Make2DArray]
  · intro i t _ _ ht
    have h : ∀ r c,
        forLoop 0 cols (fun j (arrayT : Mat K) => setEntry arrayT j i (array i j)) t r c
          = if (c < i ∧ r < cols) ∨ (c = i ∧ r < cols) then array c r else 0 := by
      refine forLoop_inv
        (fun j (u : Mat K) => ∀ r c, u r c =
          if (c < i ∧ r < cols) ∨ (c = i ∧ r < j) then array c r else 0)
        0 cols _ _ (Nat.zero_le _) ?_ ?_
      · intro r c
        rw [ht r c]
        simp
      · intro j u _ _ hu r c
        unfold setEntry
        by_cases h : r = j ∧ c = i
        · obtain ⟨rfl, rfl⟩ := h
          simp
        · rw [if_neg h, hu r c]
          have : ((c < i ∧ r < cols) ∨ (c = i ∧ r < j)) ↔
              ((c < i ∧ r < cols) ∨ (c = i ∧ r < j + 1)) := by
            constructor
            · rintro (h1 | h1)
              · exact Or.inl h1
              · exact Or.inr ⟨h1.1, by omega⟩
            · rintro (h1 | h1)
              · exact Or.inl h1
              · refine Or.inr ⟨h1.1, ?_⟩
                have : r ≠ j := fun e => h ⟨e, h1.1⟩
                omega
          simp only [this]
    intro r c
    rw [h r c]
    have : ((c < i ∧ r < cols) ∨ (c = i ∧ r < cols)) ↔ (c < i + 1 ∧ r < cols) := by
      constructor
      · rintro (h1 | h1)
        · exact ⟨by omega, h1.2⟩
        · exact ⟨by omega, h1.2⟩
      · rintro ⟨h1, h2⟩
        rcases Nat.lt_or_ge c i with h3 | h3
        · exact Or.inl ⟨h3, h2⟩
        · exact Or.inr ⟨by omega, h2⟩
    simp only [this]

/-- The accumulation `Av[i] = 0; for j: Av[i] += f j` leaves the sum in `Av[i]`. -/
theorem accVec_eq (Av : Vec K) (i m2 : Nat) (f : Nat → K) :
    forLoop 0 m2 (fun j Av => setVec Av i (Av i + f j)) (setVec Av i 0)
      = setVec Av i (∑ j in Finset.range m2, f j) := by
  refine forLoop_inv
    (fun j (t : Vec K) => t = setVec Av i (∑ j' in Finset.range j, f j'))
    0 m2 _ _ (Nat.zero_le _) ?_ ?_
  · simp
  · intro j t _ _ ht
    rw [ht, Finset.sum_range_succ]
    have : setVec Av i (∑ j' in Finset.range j, f j') i = ∑ j' in Finset.range j, f j' := by
      simp [setVec]
    rw [this, setVec_setVec]

/-- The accumulation `a[i][j] = 0; for m: a[i][j] += f m` leaves the sum in `a[i][j]`. -/
theorem accEntry_eq (a : Mat K) (i j m2 : Nat) (f : Nat → K) :
    forLoop 0 m2 (fun m a => setEntry a i j (a i j + f m)) (setEntry a i j 0)
      = setEntry a i j (∑ m in Finset.range m2, f m) := by
  refine forLoop_inv
    (fun m (t : Mat K) => t = setEntry a i j (∑ m' in Finset.range m, f m'))
    0 m2 _ _ (Nat.zero_le _) ?_ ?_
  · simp
  · intro m t _ _ ht
    rw [ht, Finset.sum_range_succ]
    have : setEntry a i j (∑ m' in Finset.range m, f m') i j = ∑ m' in Finset.range m, f m' := by
      simp [setEntry]
    rw [this, setEntry_setEntry]

theorem MatVectMul_apply (m1 m2 : Nat) (A : Mat K) (v Av : Vec K) (r : Nat) :
    MatVectMul m1 m2 A v Av r
      = if r < m1 then ∑ j in Finset.range m2, A r j * v j else Av r := by
  unfold MatVectMul
  refine forLoop_inv
    (fun i (t : Vec K) => ∀ r, t r =
      if r < i then ∑ j in Finset.range m2, A r j * v j else Av r)
    0 m1 _ _ (Nat.zero_le _) ?_ ?_ r
  · intro r
    simp
  · intro i t _ _ ht r
    rw [accVec_eq t i m2 (fun j => A i j * v j)]
    unfold setVec
    by_cases h : r = i
    · subst h
      simp
    · rw [if_neg h, ht r]
      have : r < i ↔ r < i + 1 := by omega
      simp only [this]

/-- A doubly nested loop whose body assigns `g i j` to entry `(i, j)` of the
matrix `proj s` of its state `s`. -/
theorem fill2_state {σ K : Type} (proj : σ → Mat K) (m1 m3 : Nat) (g : Nat → Nat → K)
    (step : Nat → Nat → σ → σ)
    (hstep : ∀ i j s, i < m1 → j < m3 → proj (step i j s) = setEntry (proj s) i j (g i j))
    (s0 : σ) (r c : Nat) :
    proj (forLoop 0 m1 (fun i s => forLoop 0 m3 (fun j s => step i j s) s) s0) r c
      = if r < m1 ∧ c < m3 then g r c else proj s0 r c := by
  refine forLoop_inv
    (fun i (t : σ) => ∀ r c, proj t r c = if r < i ∧ c < m3 then g r c else proj s0 r c)
    0 m1 _ _ (Nat.zero_le _) ?_ ?_ r c
  · intro r c
    simp
  · intro i t _ him ht
    have h : ∀ r c, proj (forLoop 0 m3 (fun j s => step i j s) t) r c
          = if (r < i ∧ c < m3) ∨ (r = i ∧ c < m3) then g r c else proj s0 r c := by
      refine forLoop_inv
        (fun j (u : σ) => ∀ r c, proj u r c =
          if (r < i ∧ c < m3) ∨ (r = i ∧ c < j) then g r c else proj s0 r c)
        0 m3 _ _ (Nat.zero_le _) ?_ ?_
      · intro r c
        rw [ht r c]
        simp
      · intro j u _ hjm hu r c
        rw [hstep i j u him hjm]
        unfold setEntry
        by_cases h : r = i ∧ c = j
        · obtain ⟨rfl, rfl⟩ := h
          simp
        · rw [if_neg h, hu r c]
          have : ((r < i ∧ c < m3) ∨ (r = i ∧ c < j)) ↔
              ((r < i ∧ c < m3) ∨ (r = i ∧ c < j + 1)) := by
            constructor
            · rintro (h1 | h1)
              · exact Or.inl h1
              · exact Or.inr ⟨h1.1, by omega⟩
            · rintro (h1 | h1)
              · exact Or.inl h1
              · refine Or.inr ⟨h1.1, ?_⟩
                have : c ≠ j := fun e => h ⟨h1.1, e⟩
                omega
          simp only [this]
    intro r c
    rw [h r c]
    have : ((r < i ∧ c < m3) ∨ (r = i ∧ c < m3)) ↔ (r < i + 1 ∧ c < m3) := by
      constructor
      · rintro (h1 | h1)
        · exact ⟨by omega, h1.2⟩
        · exact ⟨by omega, h1.2⟩
      · rintro ⟨h1, h2⟩
        rcases Nat.lt_or_ge r i with h3 | h3
        · exact Or.inl ⟨h3, h2⟩
        · exact Or.inr ⟨by omega, h2⟩
    simp only [this]

/-- A doubly nested loop that assigns `g i j` to entry `(i, j)`. -/
theorem fill2_apply {K : Type} (m1 m3 : Nat) (g : Nat → Nat → K)
    (step : Nat → Nat → Mat K → Mat K)
    (hstep : ∀ i j a, step i j a = setEntry a i j (g i j)) (a0 : Mat K) (r c : Nat) :
    forLoop 0 m1 (fun i a => forLoop 0 m3 (fun j a => step i j a) a) a0 r c
      = if r < m1 ∧ c < m3 then g r c else a0 r c :=
  fill2_state (fun a => a) m1 m3 g step (fun i j a _ _ => hstep i j a) a0 r c

theorem MatMul_apply (m1 m2 m3 : Nat) (A B : Mat K) (r c : Nat) :
    MatMul m1 m2 m3 A B r c
      = if r < m1 ∧ c < m3 then ∑ m in Finset.range m2, A r m * B m c else 0 := by
  unfold MatMul
  rw [fill2_apply m1 m3 (fun i j => ∑ m in Finset.range m2, A i m * B m j)]
  · rfl
  · intro i j a
    exact accEntry_eq a i j m2 (fun m => A i m * B m j)

/-! ## The determinant -/

theorem pivotSearch_spec (a : Mat K) (i n : Nat) (h : i < n) :
    i ≤ pivotSearch a i n ∧ pivotSearch a i n < n ∧
      ∀ r, i ≤ r → r < n → |a r i| ≤ |a (pivotSearch a i n) i| := by
  unfold pivotSearch
  refine forLoop_inv
    (fun j (p : Nat) => i ≤ p ∧ p < j ∧ ∀ r, i ≤ r → r < j → |a r i| ≤ |a p i|)
    (i + 1) n _ _ h ?_ ?_
  · refine ⟨le_refl _, by omega, ?_⟩
    intro r h1 h2
    have : r = i := by omega
    rw [this]
  · intro j p hj _ ⟨h1, h2, h3⟩
    by_cases hc : |a j i| > |a p i|
    · simp only [hc, if_true]
      refine ⟨by omega, by omega, ?_⟩
      intro r hr1 hr2
      rcases Nat.lt_or_ge r j with h4 | h4
      · exact le_trans (h3 r hr1 h4) (le_of_lt hc)
      · have : r = j := by omega
        rw [this]
    · simp only [hc, if_false]
      refine ⟨h1, by omega, ?_⟩
      intro r hr1 hr2
      rcases Nat.lt_or_ge r j with h4 | h4
      · exact h3 r hr1 h4
      · have : r = j := by omega
        rw [this]
        exact not_lt.mp hc

theorem eliminate_apply (a : Mat K) (i n r c : Nat) :
    eliminate a i n r c
      = if i < r ∧ r < n ∧ i < c ∧ c < n then a r c - a r i / a i i * a i c else a r c := by
  unfold eliminate
  rcases Nat.lt_or_ge i n with hin | hin
  swap
  · rw [forLoop_of_le _ _ _ _ (by omega)]
    rw [if_neg (by omega)]
  refine forLoop_inv
    (fun j (t : Mat K) => ∀ r c, t r c =
      if i < r ∧ r < j ∧ i < c ∧ c < n then a r c - a r i / a i i * a i c else a r c)
    (i + 1) n _ _ hin ?_ ?_ r c
  · intro r c
    rw [if_neg (by omega)]
  · intro j t hj _ ht
    have h : ∀ r c,
        forLoop (i + 1) n (fun k (u : Mat K) =>
          setEntry u j k (u j k - t j i / t i i * u i k)) t r c
          = if (i < r ∧ r < j ∧ i < c ∧ c < n) ∨ (r = j ∧ i < c ∧ c < n)
              then a r c - a r i / a i i * a i c else a r c := by
      refine forLoop_inv
        (fun k (u : Mat K) => ∀ r c, u r c =
          if (i < r ∧ r < j ∧ i < c ∧ c < n) ∨ (r = j ∧ i < c ∧ c < k)
            then a r c - a r i / a i i * a i c else a r c)
        (i + 1) n _ _ hin ?_ ?_
      · intro r c
        rw [ht r c]
        have : ((i < r ∧ r < j ∧ i < c ∧ c < n) ∨ (r = j ∧ i < c ∧ c < i + 1)) ↔
            (i < r ∧ r < j ∧ i < c ∧ c < n) := by
          constructor
          · rintro (h1 | h1)
            · exact h1
            · omega
          · exact Or.inl
        simp only [this]
      · intro k u hk _ hu r c
        unfold setEntry
        by_cases hrc : r = j ∧ c = k
        · obtain ⟨rfl, rfl⟩ := hrc
          rw [if_pos ⟨rfl, rfl⟩, if_pos (Or.inr ⟨rfl, by omega, by omega⟩)]
          rw [hu r c, hu i c, ht r i, ht i i]
          rw [if_neg (by omega), if_neg (by omega), if_neg (by omega), if_neg (by omega)]
        · rw [if_neg hrc, hu r c]
          have : ((i < r ∧ r < j ∧ i < c ∧ c < n) ∨ (r = j ∧ i < c ∧ c < k)) ↔
              ((i < r ∧ r < j ∧ i < c ∧ c < n) ∨ (r = j ∧ i < c ∧ c < k + 1)) := by
            constructor
            · rintro (h1 | h1)
              · exact Or.inl h1
              · exact Or.inr ⟨h1.1, h1.2.1, by omega⟩
            · rintro (h1 | h1)
              · exact Or.inl h1
              · refine Or.inr ⟨h1.1, h1.2.1, ?_⟩
                have : c ≠ k := fun e => hrc ⟨h1.1, e⟩
                omega
          simp only [this]
    intro r c
    show forLoop (i + 1) n (fun k (u : Mat K) =>
          setEntry u j k (u j k - t j i / t i i * u i k)) t r c = _
    rw [h r c]
    have : ((i < r ∧ r < j ∧ i < c ∧ c < n) ∨ (r = j ∧ i < c ∧ c < n)) ↔
        (i < r ∧ r < j + 1 ∧ i < c ∧ c < n) := by
      constructor
      · rintro (h1 | h1)
        · exact ⟨h1.1, by omega, h1.2.2⟩
        · exact ⟨by omega, by omega, h1.2⟩
      · rintro ⟨h1, h2, h3⟩
        rcases Nat.lt_or_ge r j with h4 | h4
        · exact Or.inl ⟨h1, h4, h3⟩
        · exact Or.inr ⟨by omega, h3⟩
    simp only [this]

/-- One step of Gaussian elimination on the first column: the determinant is
the pivot times the determinant of the reduced block. -/
theorem det_eliminate_step {m : Nat} (M : Matrix (Fin (m + 1)) (Fin (m + 1)) K)
    (h : M 0 0 ≠ 0) :
    M.det = M 0 0 *
      (Matrix.of fun r c : Fin m => M r.succ c.succ - M r.succ 0 / M 0 0 * M 0 c.succ).det := by
  let N : Matrix (Fin (m + 1)) (Fin (m + 1)) K :=
    Matrix.of fun r c => M r c + (if r = 0 then 0 else -(M r 0 / M 0 0)) * M 0 c
  have hN : N.det = M.det :=
    Matrix.det_eq_of_forall_row_eq_smul_add_const
      (fun r => if r = 0 then 0 else -(M r 0 / M 0 0)) 0 (by simp) (fun i j => rfl)
  rw [← hN, Matrix.det_succ_column_zero, Fin.sum_univ_succ]
  have hz : ∀ i : Fin m, N i.succ 0 = 0 := by
    intro i
    simp only [N, Matrix.of_apply, Fin.succ_ne_zero, if_false]
    field_simp
  have h0 : N 0 0 = M 0 0 := by simp [N]
  rw [Finset.sum_eq_zero (fun i _ => by rw [hz i]; ring), add_zero, h0]
  simp only [Fin.val_zero, pow_zero, one_mul]
  congr 2
  ext r c
  simp only [N, Matrix.submatrix_apply, Matrix.of_apply, Fin.succAbove_zero, Fin.succ_ne_zero,
    if_false]
  ring

theorem blk_swapRows (a : Mat K) (i m p : Nat) (hp1 : i ≤ p) (hp2 : p < i + (m + 1)) :
    blk (swapRows a i p) i (m + 1)
      = (blk a i (m + 1)).submatrix
          (Equiv.swap (0 : Fin (m + 1)) ⟨p - i, by omega⟩) id := by
  ext r c
  simp only [blk, Matrix.of_apply, Matrix.submatrix_apply, id, swapRows]
  by_cases h1 : i + (r : Nat) = i
  · have hr : r = 0 := by
      apply Fin.ext
      simp only [Fin.val_zero]
      omega
    rw [if_pos h1, hr, Equiv.swap_apply_left]
    congr 1
    simp only []
    omega
  · rw [if_neg h1]
    have hr0 : r ≠ 0 := by
      intro e
      apply h1
      rw [e]
      simp
    by_cases h2 : i + (r : Nat) = p
    · have hr : r = ⟨p - i, by omega⟩ := by
        apply Fin.ext
        simp only []
        omega
      rw [if_pos h2, hr, Equiv.swap_apply_right]
      simp
    · rw [if_neg h2]
      have hr : r ≠ ⟨p - i, by omega⟩ := by
        intro e
        apply h2
        rw [e]
        simp only []
        omega
      rw [Equiv.swap_apply_of_ne_of_ne hr0 hr]

theorem detLoop_fst (n : Nat) : ∀ (m i : Nat) (d : K) (a : Mat K), i + m = n →
    (detLoop n m i d a).1 = d * (blk a i m).det := by
  intro m
  induction m with
  | zero =>
    intro i d a _
    simp [detLoop]
  | succ m ih =>
    intro i d a him
    have hin : i < n := by omega
    obtain ⟨hp1, hp2, hp3⟩ := pivotSearch_spec a i n hin
    rw [detLoop]
    generalize pivotSearch a i n = p at hp1 hp2 hp3
    -- the state after the row exchange
    have key : ∃ (a1 : Mat K) (d1 : K),
        (if p ≠ i then swapRows a i p else a) = a1 ∧ (if p ≠ i then d * -1 else d) = d1 ∧
        d1 * (blk a1 i (m + 1)).det = d * (blk a i (m + 1)).det ∧
        ∀ r, i ≤ r → r < n → |a1 r i| ≤ |a1 i i| := by
      by_cases hpi : p = i
      · refine ⟨a, d, by simp [hpi], by simp [hpi], rfl, ?_⟩
        intro r h1 h2
        have := hp3 r h1 h2
        rwa [hpi] at this
      · refine ⟨swapRows a i p, d * -1, by simp [hpi], by simp [hpi], ?_, ?_⟩
        · rw [blk_swapRows a i m p hp1 (by omega), Matrix.det_permute, Equiv.Perm.sign_swap]
          · simp
          · intro e
            apply hpi
            have := congrArg Fin.val e
            simp only [Fin.val_zero] at this
            omega
        · intro r h1 h2
          have e1 : swapRows a i p i i = a p i := by simp [swapRows]
          rw [e1]
          unfold swapRows
          by_cases h3 : r = i
          · rw [if_pos h3]
          · rw [if_neg h3]
            by_cases h4 : r = p
            · rw [if_pos h4]
              exact hp3 i (le_refl _) hin
            · rw [if_neg h4]
              exact hp3 r h1 h2
    obtain ⟨a1, d1, ea, ed, hdet, hmax⟩ := key
    simp only [ea, ed]
    rw [← hdet]
    by_cases hz : a1 i i = 0
    · rw [if_pos hz]
      have : (blk a1 i (m + 1)).det = 0 := by
        apply Matrix.det_eq_zero_of_column_eq_zero 0
        intro r
        simp only [blk, Matrix.of_apply, Fin.val_zero, Nat.add_zero]
        have := hmax (i + r) (by omega) (by omega)
        rw [hz, abs_zero] at this
        exact abs_eq_zero.mp (le_antisymm this (abs_nonneg _))
      rw [this, mul_zero]
    · rw [if_neg hz, ih (i + 1) _ _ (by omega)]
      have h00 : blk a1 i (m + 1) 0 0 = a1 i i := by simp [blk]
      rw [det_eliminate_step (blk a1 i (m + 1)) (by rw [h00]; exact hz), h00, mul_assoc]
      have e : blk (eliminate a1 i n) (i + 1) m
          = Matrix.of fun r c : Fin m => blk a1 i (m + 1) r.succ c.succ
              - blk a1 i (m + 1) r.succ 0 / a1 i i * blk a1 i (m + 1) 0 c.succ := by
        ext r c
        simp only [blk, Matrix.of_apply, Fin.val_succ, Fin.val_zero, Nat.add_zero]
        rw [eliminate_apply, if_pos (by omega)]
        have e1 : i + 1 + (r : Nat) = i + ((r : Nat) + 1) := by omega
        have e2 : i + 1 + (c : Nat) = i + ((c : Nat) + 1) := by omega
        rw [e1, e2]
      rw [e]

/-- The value returned by `determinant(a, n)` is the determinant of the
matrix formed by the first `n` rows and columns of `a`. -/
theorem determinant_fst (a : Mat K) (n : Nat) :
    (determinant a n).1 = (Matrix.of fun r c : Fin n => a r c).det := by
  unfold determinant
  rw [detLoop_fst n n 0 1 a (by omega), one_mul]
  have e : blk a 0 n = Matrix.of fun r c : Fin n => a r c := by
    ext r c
    simp [blk]
  rw [e]

/-! ## The cofactor method -/

theorem subSize_eq (a b : Nat) (hb : b ≤ a) (ha : a < 2 ^ 64) : subSize a b = a - b := by
  unfold subSize sizeMod
  have h1 : b % 2 ^ 64 = b := Nat.mod_eq_of_lt (by omega)
  rw [h1]
  have h2 : a + 2 ^ 64 - b = (a - b) + 2 ^ 64 := by omega
  rw [h2, Nat.add_mod_right]
  exact Nat.mod_eq_of_lt (by omega)

theorem forLoop_id {σ : Type} (lo hi : Nat) (body : Nat → σ → σ) (s : σ)
    (h : ∀ i t, lo ≤ i → i < hi → body i t = t) : forLoop lo hi body s = s := by
  rcases Nat.lt_or_ge hi lo with hlt | hle
  · exact forLoop_of_le _ _ _ _ (by omega)
  · refine forLoop_inv (fun _ t => t = s) lo hi body s hle rfl ?_
    intro i t h1 h2 ht
    rw [h i t h1 h2, ht]

theorem skipIdx_lt (q r : Nat) (h : r < q) : skipIdx q r = r := by
  unfold skipIdx
  rw [if_pos h]

theorem skipIdx_ge (q r : Nat) (h : q ≤ r) : skipIdx q r = r + 1 := by
  unfold skipIdx
  rw [if_neg (by omega)]

/-- The copy loops of `cofactor` fill `b` with the minor of `num` that
leaves out row `q` and column `p`. -/
theorem minorFill_spec (num b : Mat K) (f q p : Nat) (hf : 2 ≤ f) (hf64 : f < 2 ^ 64)
    (hq : q < f) (hp : p < f) (r c : Nat) (hr : r < f - 1) (hc : c < f - 1) :
    (minorFill num b f q p).1 r c = num (skipIdx q r) (skipIdx p c) := by
  have hsub : subSize f 2 = f - 2 := subSize_eq f 2 hf hf64
  have main : (fun i (st : Mat K × Nat × Nat) =>
      st.2.2 = 0 ∧ ((i ≤ q ∧ st.2.1 = i) ∨ (q < i ∧ st.2.1 + 1 = i)) ∧
      ∀ r c, c < f - 1 → (r < st.2.1 ∨ (r = st.2.1 ∧ c < st.2.2)) →
        st.1 r c = num (skipIdx q r) (skipIdx p c)) f (minorFill num b f q p) := by
    unfold minorFill
    refine forLoop_inv (fun i (st : Mat K × Nat × Nat) =>
      st.2.2 = 0 ∧ ((i ≤ q ∧ st.2.1 = i) ∨ (q < i ∧ st.2.1 + 1 = i)) ∧
      ∀ r c, c < f - 1 → (r < st.2.1 ∨ (r = st.2.1 ∧ c < st.2.2)) →
        st.1 r c = num (skipIdx q r) (skipIdx p c)) 0 f _ _ (Nat.zero_le _) ?_ ?_
    · refine ⟨rfl, Or.inl ⟨Nat.zero_le _, rfl⟩, ?_⟩
      intro r c _ h
      simp only [] at h
      omega
    · rintro i ⟨b0, m0, n0⟩ _ hif ⟨hn0, hm0, hb0⟩
      simp only [] at hn0 hm0 hb0
      subst hn0
      by_cases hiq : i = q
      · rw [forLoop_id]
        · simp only []
          refine ⟨trivial, by omega, hb0⟩
        · intro j t _ _
          unfold minorStep
          rw [if_neg]
          intro h
          exact h.1 hiq
      · have hskm : skipIdx q m0 = i := by
          rcases Nat.lt_or_ge i q with h | h
          · rw [skipIdx_lt q m0 (by omega)]
            omega
          · rw [skipIdx_ge q m0 (by omega)]
            omega
        have inner : (fun j (st : Mat K × Nat × Nat) =>
            ((j ≤ p ∧ j < f - 1 ∧ st.2.1 = m0 ∧ st.2.2 = j) ∨
              (p < j ∧ j < f ∧ st.2.1 = m0 ∧ st.2.2 + 1 = j) ∨
              (st.2.1 = m0 + 1 ∧ st.2.2 = 0 ∧ (j = f ∨ (j = f - 1 ∧ p = f - 1)))) ∧
            ∀ r c, c < f - 1 → (r < st.2.1 ∨ (r = st.2.1 ∧ c < st.2.2)) →
              st.1 r c = num (skipIdx q r) (skipIdx p c)) f
            (forLoop 0 f (fun j st => minorStep num f q p i j st) (b0, m0, 0)) := by
          refine forLoop_inv (fun j (st : Mat K × Nat × Nat) =>
            ((j ≤ p ∧ j < f - 1 ∧ st.2.1 = m0 ∧ st.2.2 = j) ∨
              (p < j ∧ j < f ∧ st.2.1 = m0 ∧ st.2.2 + 1 = j) ∨
              (st.2.1 = m0 + 1 ∧ st.2.2 = 0 ∧ (j = f ∨ (j = f - 1 ∧ p = f - 1)))) ∧
            ∀ r c, c < f - 1 → (r < st.2.1 ∨ (r = st.2.1 ∧ c < st.2.2)) →
              st.1 r c = num (skipIdx q r) (skipIdx p c)) 0 f _ _ (Nat.zero_le _) ?_ ?_
          · refine ⟨Or.inl ⟨Nat.zero_le _, by omega, rfl, rfl⟩, hb0⟩
          · rintro j ⟨b1, m1, n1⟩ _ hjf ⟨hcnt, hb1⟩
            simp only [] at hcnt hb1
            unfold minorStep
            by_cases hjp : j = p
            · rw [if_neg (by intro h; exact h.2 hjp)]
              simp only []
              refine ⟨by omega, hb1⟩
            · rw [if_pos ⟨hiq, hjp⟩, hsub]
              have hm1 : m1 = m0 := by omega
              have hskn : skipIdx p n1 = j := by
                rcases Nat.lt_or_ge j p with h | h
                · rw [skipIdx_lt p n1 (by omega)]
                  omega
                · rw [skipIdx_ge p n1 (by omega)]
                  omega
              by_cases hn : n1 < f - 2
              · rw [if_pos hn]
                simp only []
                refine ⟨by omega, ?_⟩
                intro r c hc hreg
                unfold setEntry
                by_cases hrc : r = m1 ∧ c = n1
                · rw [if_pos hrc, hrc.1, hrc.2, hm1, hskm, hskn]
                · rw [if_neg hrc]
                  exact hb1 r c hc (by omega)
              · rw [if_neg hn]
                simp only []
                refine ⟨Or.inr (Or.inr ⟨by omega, trivial, by omega⟩), ?_⟩
                intro r c hc hreg
                unfold setEntry
                by_cases hrc : r = m1 ∧ c = n1
                · rw [if_pos hrc, hrc.1, hrc.2, hm1, hskm, hskn]
                · rw [if_neg hrc]
                  exact hb1 r c hc (by omega)
        obtain ⟨hcnt, hb⟩ := inner
        refine ⟨by omega, by omega, hb⟩
  obtain ⟨_, hm, hb⟩ := main
  exact hb r c hc (by omega)

theorem transpose_fst (num fac inverse : Mat K) (r i j : Nat) :
    (transpose num fac inverse r).1 i j
      = if i < r ∧ j < r then fac j i / (determinant num r).1 else inverse i j := by
  have hb : ∀ i j,
      forLoop 0 r (fun i b => forLoop 0 r (fun j b => setEntry b i j (fac j i)) b)
        (Make2DArray r r : Mat K) i j = if i < r ∧ j < r then fac j i else 0 :=
    fun i j => fill2_apply r r (fun i j => fac j i) _ (fun _ _ _ => rfl) _ i j
  refine (fill2_apply r r (fun i j =>
    forLoop 0 r (fun i b => forLoop 0 r (fun j b => setEntry b i j (fac j i)) b)
      (Make2DArray r r : Mat K) i j / (determinant num r).1) _
    (fun _ _ _ => rfl) inverse i j).trans ?_
  by_cases h : i < r ∧ j < r
  · rw [if_pos h, if_pos h, hb, if_pos h]
  · rw [if_neg h, if_neg h]

theorem cofactorLoop_snd (num : Mat K) (n : Nat) (hn : n + 1 < 2 ^ 64) (q p : Nat) :
    (cofactorLoop num (n + 1)).2 q p
      = if q < n + 1 ∧ p < n + 1 then
          (-1) ^ (q + p) * (Matrix.of fun r c : Fin n => num (skipIdx q r) (skipIdx p c)).det
        else 0 := by
  unfold cofactorLoop
  rw [fill2_state (fun st : Mat K × Mat K => st.2) (n + 1) (n + 1)
    (fun q p => (-1) ^ (q + p) *
      (Matrix.of fun r c : Fin n => num (skipIdx q r) (skipIdx p c)).det)]
  · rfl
  · intro q p st hq hp
    simp only []
    rw [determinant_fst, subSize_eq (n + 1) 1 (by omega) hn]
    have e : (Matrix.of fun r c : Fin (n + 1 - 1) =>
          (minorFill num st.1 (n + 1) q p).1 r c)
        = Matrix.of fun r c : Fin n => num (skipIdx q r) (skipIdx p c) := by
      ext r c
      simp only [Matrix.of_apply]
      have hr := r.2
      have hc := c.2
      exact minorFill_spec num st.1 (n + 1) q p (by omega) hn hq hp r c (by omega) (by omega)
    rw [e]
    rfl

theorem skipIdx_eq_succAbove (n : Nat) (q : Fin (n + 1)) (r : Fin n) :
    skipIdx q r = ((q.succAbove r : Fin (n + 1)) : Nat) := by
  unfold skipIdx
  by_cases h : (r : Nat) < q
  · rw [if_pos h, Fin.succAbove_of_castSucc_lt _ _ (by simpa [Fin.lt_def] using h)]
    simp
  · rw [if_neg h, Fin.succAbove_of_le_castSucc _ _ (by simpa [Fin.le_def] using h)]
    simp

/-- The matrix written by `cofactor` is the adjugate divided by the determinant. -/
theorem cofactor_fst (num inverse : Mat K) (n : Nat) (hn : n + 1 < 2 ^ 64)
    (i j : Fin (n + 1)) :
    (cofactor num inverse (n + 1)).1 i j
      = (toMatrix num (n + 1) (n + 1)).adjugate i j / (toMatrix num (n + 1) (n + 1)).det := by
  unfold cofactor
  rw [transpose_fst, if_pos ⟨i.2, j.2⟩, determinant_fst, cofactorLoop_snd num n hn,
    if_pos ⟨j.2, i.2⟩, Matrix.adjugate_fin_succ_eq_det_submatrix]
  have e : (Matrix.of fun r c : Fin n => num (skipIdx j r) (skipIdx i c))
      = (toMatrix num (n + 1) (n + 1)).submatrix j.succAbove i.succAbove := by
    ext r c
    simp only [Matrix.of_apply, Matrix.submatrix_apply, toMatrix]
    rw [skipIdx_eq_succAbove, skipIdx_eq_succAbove]
  rw [e]
  rfl

theorem MatMul_toMatrix (m1 m2 m3 : Nat) (A B : Mat K) :
    toMatrix (MatMul m1 m2 m3 A B) m1 m3 = toMatrix A m1 m2 * toMatrix B m2 m3 := by
  ext i j
  simp only [toMatrix, Matrix.of_apply, Matrix.mul_apply]
  rw [MatMul_apply, if_pos ⟨i.2, j.2⟩, Finset.sum_range]

/-- The matrix written by `cofactor` is a left inverse of its argument. -/
theorem cofactor_mul (num inverse : Mat K) (f : Nat) (hf : 1 ≤ f) (hf64 : f < 2 ^ 64)
    (hdet : (toMatrix num f f).det ≠ 0) :
    toMatrix (cofactor num inverse f).1 f f * toMatrix num f f = 1 := by
  obtain ⟨n, rfl⟩ : ∃ n, f = n + 1 := ⟨f - 1, by omega⟩
  have e : toMatrix (cofactor num inverse (n + 1)).1 (n + 1) (n + 1)
      = (toMatrix num (n + 1) (n + 1)).det⁻¹ • (toMatrix num (n + 1) (n + 1)).adjugate := by
    ext i j
    simp only [toMatrix, Matrix.of_apply, Matrix.smul_apply, smul_eq_mul]
    have := cofactor_fst num inverse n hf64 i j
    simp only [toMatrix] at this
    rw [this, div_eq_inv_mul]
  rw [e, Matrix.smul_mul, Matrix.adjugate_mul, smul_smul, inv_mul_cancel₀ hdet, one_smul]

/-! ## The fit -/

/-- A loop that assigns `g i` to entry `i` of a vector. -/
theorem fill1_apply {K : Type} (lo hi : Nat) (g : Nat → K) (step : Nat → Vec K → Vec K)
    (hstep : ∀ i v, step i v = setVec v i (g i)) (v0 : Vec K) (r : Nat) :
    forLoop lo hi (fun i v => step i v) v0 r = if lo ≤ r ∧ r < hi then g r else v0 r := by
  rcases Nat.lt_or_ge hi lo with hlt | hle
  · rw [forLoop_of_le _ _ _ _ (by omega), if_neg (by omega)]
  · refine forLoop_inv
      (fun i (t : Vec K) => ∀ r, t r = if lo ≤ r ∧ r < i then g r else v0 r)
      lo hi _ _ hle ?_ ?_ r
    · intro r
      rw [if_neg (by omega)]
    · intro i t hi1 _ ht r
      rw [hstep]
      unfold setVec
      by_cases h : r = i
      · rw [if_pos h, if_pos (by omega), h]
      · rw [if_neg h, ht r]
        have : (lo ≤ r ∧ r < i) ↔ (lo ≤ r ∧ r < i + 1) := by omega
        simp only [this]

/-- The accumulation `acc += f i` over `i < n`. -/
theorem accAdd_eq (n : Nat) (f : Nat → K) (a0 : K) :
    forLoop 0 n (fun i acc => acc + f i) a0 = a0 + ∑ i in Finset.range n, f i := by
  refine forLoop_inv (fun i (t : K) => t = a0 + ∑ i' in Finset.range i, f i')
    0 n _ _ (Nat.zero_le _) ?_ ?_
  · simp
  · intro i t _ _ ht
    rw [ht, Finset.sum_range_succ, add_assoc]

/-- The accumulation `acc -= f i` over `i < n`. -/
theorem accSub_eq (n : Nat) (f : Nat → K) (a0 : K) :
    forLoop 0 n (fun i acc => acc - f i) a0 = a0 - ∑ i in Finset.range n, f i := by
  refine forLoop_inv (fun i (t : K) => t = a0 - ∑ i' in Finset.range i, f i')
    0 n _ _ (Nat.zero_le _) ?_ ?_
  · simp
  · intro i t _ _ ht
    rw [ht, Finset.sum_range_succ]
    ring

theorem CalculateRSS_eq (x y a : Vec K) (Weights : Mat K) (N n : Nat) :
    CalculateRSS x y a Weights N n
      = ∑ i in Finset.range N,
          (y i - ∑ j in Finset.range n, a j * x i ^ j) *
            (y i - ∑ j in Finset.range n, a j * x i ^ j) * Weights i i := by
  unfold CalculateRSS
  have h : ∀ i, forLoop 0 n (fun j ri => ri - a j * x i ^ j) (y i)
      = y i - ∑ j in Finset.range n, a j * x i ^ j :=
    fun i => accSub_eq n (fun j => a j * x i ^ j) (y i)
  simp only [h]
  rw [accAdd_eq N (fun i => (y i - ∑ j in Finset.range n, a j * x i ^ j) *
    (y i - ∑ j in Finset.range n, a j * x i ^ j) * Weights i i) 0, zero_add]

theorem designMatrix_apply (x : Vec K) (n k : Nat) (fixedinter : Bool) (i j : Nat) :
    designMatrix x n k fixedinter i j
      = if i < n ∧ (if fixedinter then 1 else 0) ≤ j ∧ j < k + 1 then x i ^ j else 0 := by
  unfold designMatrix
  generalize (if fixedinter = true then 1 else 0) = lo
  refine forLoop_inv
    (fun i' (t : Mat K) => ∀ i j, t i j =
      if i < i' ∧ lo ≤ j ∧ j < k + 1 then x i ^ j else 0)
    0 n _ _ (Nat.zero_le _) ?_ ?_ i j
  · intro i j
    rw [if_neg (by omega)]
    rfl
  · intro i' t _ _ ht
    have h : ∀ i j, forLoop lo (k + 1) (fun j (X : Mat K) => setEntry X i' j (x i' ^ j)) t i j
        = if (i < i' ∧ lo ≤ j ∧ j < k + 1) ∨ (i = i' ∧ lo ≤ j ∧ j < k + 1)
            then x i ^ j else 0 := by
      rcases Nat.lt_or_ge (k + 1) lo with hlt | hle
      · intro i j
        rw [forLoop_of_le _ _ _ _ (by omega), ht i j]
        have : ((i < i' ∧ lo ≤ j ∧ j < k + 1) ∨ (i = i' ∧ lo ≤ j ∧ j < k + 1)) ↔
            (i < i' ∧ lo ≤ j ∧ j < k + 1) := by omega
        simp only [this]
      · refine forLoop_inv
          (fun j' (u : Mat K) => ∀ i j, u i j =
            if (i < i' ∧ lo ≤ j ∧ j < k + 1) ∨ (i = i' ∧ lo ≤ j ∧ j < j')
              then x i ^ j else 0)
          lo (k + 1) _ _ hle ?_ ?_
        · intro i j
          rw [ht i j]
          have : ((i < i' ∧ lo ≤ j ∧ j < k + 1) ∨ (i = i' ∧ lo ≤ j ∧ j < lo)) ↔
              (i < i' ∧ lo ≤ j ∧ j < k + 1) := by omega
          simp only [this]
        · intro j' u hj1 hj2 hu i j
          unfold setEntry
          by_cases hij : i = i' ∧ j = j'
          · rw [if_pos hij, if_pos (by omega), hij.1, hij.2]
          · rw [if_neg hij, hu i j]
            have : ((i < i' ∧ lo ≤ j ∧ j < k + 1) ∨ (i = i' ∧ lo ≤ j ∧ j < j')) ↔
                ((i < i' ∧ lo ≤ j ∧ j < k + 1) ∨ (i = i' ∧ lo ≤ j ∧ j < j' + 1)) := by omega
            simp only [this]
    intro i j
    rw [h i j]
    have : ((i < i' ∧ lo ≤ j ∧ j < k + 1) ∨ (i = i' ∧ lo ≤ j ∧ j < k + 1)) ↔
        (i < i' + 1 ∧ lo ≤ j ∧ j < k + 1) := by omega
    simp only [this]

theorem MatTrans_toMatrix (a : Mat K) (rows cols : Nat) :
    toMatrix (MatTrans a rows cols) cols rows = (toMatrix a rows cols).transpose := by
  ext i j
  simp only [toMatrix, Matrix.of_apply, Matrix.transpose_apply]
  rw [MatTrans_apply, if_pos ⟨j.2, i.2⟩]

theorem MatVectMul_toVector (m1 m2 : Nat) (A : Mat K) (v Av : Vec K) :
    toVector (MatVectMul m1 m2 A v Av) m1 = (toMatrix A m1 m2).mulVec (toVector v m2) := by
  funext i
  simp only [toVector, Matrix.mulVec, Matrix.dotProduct, toMatrix, Matrix.of_apply]
  rw [MatVectMul_apply, if_pos i.2, Finset.sum_range]

theorem responseLoop_eq (y : Vec K) (n : Nat) (fixedinter : Bool) (c : K) :
    forLoop 0 n (fun m (Y : Vec K) =>
        if fixedinter then setVec Y m (y m - c) else setVec Y m (y m)) (fun _ => 0)
      = fun m => if m < n then (if fixedinter then y m - c else y m) else 0 := by
  funext m
  rw [fill1_apply 0 n (fun m => if fixedinter then y m - c else y m)]
  · have : (0 ≤ m ∧ m < n) ↔ m < n := by omega
    simp only [this]
  · intro i v
    cases fixedinter <;> simp

theorem PolyFit_snd (x y : Vec K) (n k : Nat) (fixedinter : Bool) (c : K) (beta0 : Vec K)
    (W inv0 : Mat K) :
    (PolyFit x y n k fixedinter c beta0 W inv0).2
      = (cofactor (gramMatrix x n k fixedinter W).1 inv0 (k + 1)).1 := rfl

theorem PolyFit_fst (x y : Vec K) (n k : Nat) (fixedinter : Bool) (c : K) (beta0 : Vec K)
    (W inv0 : Mat K) (j : Nat) :
    (PolyFit x y n k fixedinter c beta0 W inv0).1 j
      = if fixedinter = true ∧ j = 0 then c
        else MatVectMul (k + 1) (k + 1) (cofactor (gramMatrix x n k fixedinter W).1 inv0 (k + 1)).1
          (MatVectMul (k + 1) n (gramMatrix x n k fixedinter W).2
            (fun m => if m < n then (if fixedinter then y m - c else y m) else 0) (fun _ => 0))
          beta0 j := by
  unfold PolyFit
  simp only [responseLoop_eq]
  cases fixedinter
  · simp
  · by_cases hj : j = 0
    · simp [hj, setVec]
    · simp [hj, setVec]

theorem gramMatrix_snd (x : Vec K) (n k : Nat) (fixedinter : Bool) (W : Mat K) :
    toMatrix (gramMatrix x n k fixedinter W).2 (k + 1) n
      = (toMatrix (designMatrix x n k fixedinter) n (k + 1)).transpose * toMatrix W n n := by
  unfold gramMatrix
  simp only []
  rw [MatMul_toMatrix, MatTrans_toMatrix]

theorem gramMatrix_fst_false (x : Vec K) (n k : Nat) (W : Mat K) :
    toMatrix (gramMatrix x n k false W).1 (k + 1) (k + 1)
      = (toMatrix (designMatrix x n k false) n (k + 1)).transpose * toMatrix W n n
          * toMatrix (designMatrix x n k false) n (k + 1) := by
  unfold gramMatrix
  simp only [Bool.false_eq_true, if_false]
  rw [MatMul_toMatrix, MatMul_toMatrix, MatTrans_toMatrix]

theorem designMatrix_false (x : Vec K) (n k : Nat) :
    toMatrix (designMatrix x n k false) n (k + 1) = vandermondeX x n k := by
  ext i j
  simp only [toMatrix, vandermondeX, Matrix.of_apply]
  rw [designMatrix_apply, if_pos ⟨i.2, by simp, j.2⟩]

theorem toMatrix_diagonal (W : Mat K) (n : Nat)
    (hdiag : ∀ i j, i < n → j < n → i ≠ j → W i j = 0) :
    toMatrix W n n = Matrix.diagonal (fun i : Fin n => W i i) := by
  ext i j
  simp only [toMatrix, Matrix.of_apply, Matrix.diagonal_apply]
  by_cases h : i = j
  · rw [if_pos h, h]
  · rw [if_neg h]
    exact hdiag i j i.2 j.2 (fun e => h (Fin.ext e))

theorem CalculateRSS_toVector (x y a : Vec K) (W : Mat K) (n k : Nat) :
    CalculateRSS x y a W n (k + 1)
      = ∑ i : Fin n,
          (toVector y n i - (vandermondeX x n k).mulVec (toVector a (k + 1)) i) *
            (toVector y n i - (vandermondeX x n k).mulVec (toVector a (k + 1)) i) * W i i := by
  rw [CalculateRSS_eq, Finset.sum_range]
  refine Finset.sum_congr rfl (fun i _ => ?_)
  have h : ∑ j in Finset.range (k + 1), a j * x i ^ j
      = (vandermondeX x n k).mulVec (toVector a (k + 1)) i := by
    rw [Finset.sum_range]
    simp only [Matrix.mulVec, Matrix.dotProduct, vandermondeX, Matrix.of_apply, toVector]
    exact Finset.sum_congr rfl (fun j _ => mul_comm _ _)
  rw [h]
  rfl

/-- Weighted least squares: a vector that satisfies the normal equations
minimises the weighted sum of squared residuals. -/
theorem wls_min {n m : Nat} (V : Matrix (Fin n) (Fin m) K) (w : Fin n → K)
    (hw : ∀ i, 0 ≤ w i) (yv : Fin n → K) (β b : Fin m → K)
    (hne : (V.transpose * Matrix.diagonal w).mulVec (yv - V.mulVec β) = 0) :
    ∑ i, (yv i - V.mulVec β i) * (yv i - V.mulVec β i) * w i
      ≤ ∑ i, (yv i - V.mulVec b i) * (yv i - V.mulVec b i) * w i := by
  have hcol : ∀ l, ∑ i, V i l * w i * (yv i - V.mulVec β i) = 0 := by
    intro l
    have h := congrFun hne l
    simp only [Matrix.mulVec, Matrix.dotProduct, Matrix.mul_diagonal, Matrix.transpose_apply,
      Pi.sub_apply, Pi.zero_apply] at h
    exact h
  have hd : ∀ i, V.mulVec b i = V.mulVec β i - ∑ l, V i l * (β l - b l) := by
    intro i
    simp only [Matrix.mulVec, Matrix.dotProduct]
    rw [← Finset.sum_sub_distrib]
    exact Finset.sum_congr rfl (fun l _ => by ring)
  have hcross : ∑ i, (yv i - V.mulVec β i) * (∑ l, V i l * (β l - b l)) * w i = 0 := by
    have e : ∀ i, (yv i - V.mulVec β i) * (∑ l, V i l * (β l - b l)) * w i
        = ∑ l, V i l * w i * (yv i - V.mulVec β i) * (β l - b l) := by
      intro i
      rw [Finset.mul_sum, Finset.sum_mul]
      exact Finset.sum_congr rfl (fun l _ => by ring)
    simp only [e]
    rw [Finset.sum_comm]
    refine Finset.sum_eq_zero (fun l _ => ?_)
    rw [← Finset.sum_mul, hcol l, zero_mul]
  have hexp : ∀ i, (yv i - V.mulVec b i) * (yv i - V.mulVec b i) * w i
      = (yv i - V.mulVec β i) * (yv i - V.mulVec β i) * w i
        + 2 * ((yv i - V.mulVec β i) * (∑ l, V i l * (β l - b l)) * w i)
        + (∑ l, V i l * (β l - b l)) * (∑ l, V i l * (β l - b l)) * w i := by
    intro i
    rw [hd i]
    ring
  simp only [hexp]
  rw [Finset.sum_add_distrib, Finset.sum_add_distrib, ← Finset.mul_sum, hcross, mul_zero,
    add_zero]
  have hnn : 0 ≤ ∑ i, (∑ l, V i l * (β l - b l)) * (∑ l, V i l * (β l - b l)) * w i :=
    Finset.sum_nonneg (fun i _ => mul_nonneg (mul_self_nonneg _) (hw i))
  linarith

/-- The coefficients of `PolyFit` with an adjustable intercept, as a vector
over `Fin (k + 1)`: `XTWXInv * (XTW * y)`. -/
theorem PolyFit_false_toVector (x y : Vec K) (n k : Nat) (c : K) (beta0 : Vec K)
    (W inv0 : Mat K) :
    toVector (PolyFit x y n k false c beta0 W inv0).1 (k + 1)
      = (toMatrix (cofactor (gramMatrix x n k false W).1 inv0 (k + 1)).1 (k + 1) (k + 1)).mulVec
          (((vandermondeX x n k).transpose * toMatrix W n n).mulVec (toVector y n)) := by
  have h1 : toVector (PolyFit x y n k false c beta0 W inv0).1 (k + 1)
      = toVector (MatVectMul (k + 1) (k + 1)
          (cofactor (gramMatrix x n k false W).1 inv0 (k + 1)).1
          (MatVectMul (k + 1) n (gramMatrix x n k false W).2
            (fun m => if m < n then y m else 0) (fun _ => 0)) beta0) (k + 1) := by
    funext j
    simp only [toVector]
    rw [PolyFit_fst, if_neg (by simp)]
    simp
  rw [h1, MatVectMul_toVector, MatVectMul_toVector, gramMatrix_snd, designMatrix_false]
  have h2 : toVector (fun m => if m < n then y m else 0) n = toVector y n := by
    funext i
    simp [toVector, i.2]
  rw [h2]

/-- The matrix that `PolyFit` inverts when the intercept is adjustable is
`XᵗWX`. -/
theorem gram_false_eq (x : Vec K) (n k : Nat) (W : Mat K) :
    toMatrix (gramMatrix x n k false W).1 (k + 1) (k + 1)
      = (vandermondeX x n k).transpose * toMatrix W n n * vandermondeX x n k := by
  rw [gramMatrix_fst_false, designMatrix_false]

/-- Exact data: when `y = X c` and the Gram matrix is not singular, `PolyFit`
with an adjustable intercept returns `c`. -/
theorem exact_recovery_core (x y : Vec K) (n k : Nat) (hk : k + 1 < 2 ^ 64) (c0 : K)
    (beta0 cgen : Vec K) (W inv0 : Mat K)
    (hy : ∀ i, i < n → y i = ∑ j in Finset.range (k + 1), cgen j * x i ^ j)
    (hdet : ((vandermondeX x n k).transpose * toMatrix W n n * vandermondeX x n k).det ≠ 0) :
    toVector (PolyFit x y n k false c0 beta0 W inv0).1 (k + 1) = toVector cgen (k + 1) := by
  have hyv : toVector y n = (vandermondeX x n k).mulVec (toVector cgen (k + 1)) := by
    funext i
    simp only [toVector, Matrix.mulVec, Matrix.dotProduct, vandermondeX, Matrix.of_apply]
    rw [hy i i.2, Finset.sum_range]
    exact Finset.sum_congr rfl (fun j _ => mul_comm _ _)
  have hinv := cofactor_mul (gramMatrix x n k false W).1 inv0 (k + 1) (by omega) hk
    (by rw [gram_false_eq]; exact hdet)
  rw [gram_false_eq] at hinv
  rw [PolyFit_false_toVector, hyv, Matrix.mulVec_mulVec, Matrix.mulVec_mulVec]
  simp only [Matrix.mul_assoc] at hinv ⊢
  rw [hinv, Matrix.one_mulVec]

/-- The residual sum of squares only reads the first `n` coefficients. -/
theorem CalculateRSS_congr (x y a a' : Vec K) (W : Mat K) (N k : Nat)
    (h : toVector a (k + 1) = toVector a' (k + 1)) :
    CalculateRSS x y a W N (k + 1) = CalculateRSS x y a' W N (k + 1) := by
  rw [CalculateRSS_toVector, CalculateRSS_toVector, h]

/-- Exact data have a zero residual sum of squares at the generating
coefficients. -/
theorem CalculateRSS_exact (x y cgen : Vec K) (W : Mat K) (n k : Nat)
    (hy : ∀ i, i < n → y i = ∑ j in Finset.range (k + 1), cgen j * x i ^ j) :
    CalculateRSS x y cgen W n (k + 1) = 0 := by
  rw [CalculateRSS_eq]
  refine Finset.sum_eq_zero (fun i hi => ?_)
  rw [hy i (Finset.mem_range.mp hi), sub_self, zero_mul, zero_mul]

/-- The normal equations hold for the coefficients of `PolyFit` with an
adjustable intercept. -/
theorem normal_equations (x y : Vec K) (n k : Nat) (hk : k + 1 < 2 ^ 64) (c0 : K)
    (beta0 : Vec K) (W inv0 : Mat K)
    (hdet : ((vandermondeX x n k).transpose * toMatrix W n n * vandermondeX x n k).det ≠ 0) :
    ((vandermondeX x n k).transpose * toMatrix W n n).mulVec
      (toVector y n - (vandermondeX x n k).mulVec
        (toVector (PolyFit x y n k false c0 beta0 W inv0).1 (k + 1))) = 0 := by
  have hinv := cofactor_mul (gramMatrix x n k false W).1 inv0 (k + 1) (by omega) hk
    (by rw [gram_false_eq]; exact hdet)
  rw [gram_false_eq] at hinv
  have hinv2 := (Matrix.mul_eq_one_comm).mp hinv
  rw [PolyFit_false_toVector, Matrix.mulVec_sub, Matrix.mulVec_mulVec, Matrix.mulVec_mulVec,
    hinv2, Matrix.one_mulVec, sub_self]

theorem CalculateTSS_false_eq (y : Vec K) (W : Mat K) (N : Nat) :
    CalculateTSS y W false N
      = ∑ i in Finset.range N,
          (y i - (∑ i in Finset.range N, y i * W i i) / (∑ i in Finset.range N, W i i)) *
            (y i - (∑ i in Finset.range N, y i * W i i) / (∑ i in Finset.range N, W i i)) *
            W i i := by
  unfold CalculateTSS
  have hs : forLoop 0 N (fun i (s : K × K) => (s.1 + y i * W i i, s.2 + W i i)) (0, 0)
      = (∑ i in Finset.range N, y i * W i i, ∑ i in Finset.range N, W i i) := by
    refine forLoop_inv
      (fun i (t : K × K) =>
        t = (∑ i' in Finset.range i, y i' * W i' i', ∑ i' in Finset.range i, W i' i'))
      0 N _ _ (Nat.zero_le _) ?_ ?_
    · simp
    · intro i t _ _ ht
      rw [ht, Finset.sum_range_succ, Finset.sum_range_succ]
  simp only [Bool.false_eq_true, if_false, hs]
  rw [accAdd_eq N (fun i =>
    (y i - (∑ i in Finset.range N, y i * W i i) / (∑ i in Finset.range N, W i i)) *
      (y i - (∑ i in Finset.range N, y i * W i i) / (∑ i in Finset.range N, W i i)) * W i i) 0,
    zero_add]

/-- Exact data, unit weights, non-singular Gram matrix: `PolyFit` returns the
generating coefficients, with a zero residual sum of squares. -/
theorem exact_recovery_unit (x y : Vec K) (n k : Nat) (hk : k + 1 < 2 ^ 64) (c0 : K)
    (beta0 cgen : Vec K) (W inv0 : Mat K)
    (hW : ∀ i j, i < n → j < n → W i j = if i = j then 1 else 0)
    (hy : ∀ i, i < n → y i = ∑ j in Finset.range (k + 1), cgen j * x i ^ j)
    (hdet : ((vandermondeX x n k).transpose * vandermondeX x n k).det ≠ 0) :
    (∀ j, j < k + 1 → (PolyFit x y n k false c0 beta0 W inv0).1 j = cgen j) ∧
      CalculateRSS x y (PolyFit x y n k false c0 beta0 W inv0).1 W n (k + 1) = 0 := by
  have hone : toMatrix W n n = 1 := by
    ext i j
    simp only [toMatrix, Matrix.of_apply, Matrix.one_apply]
    rw [hW i j i.2 j.2]
    simp only [Fin.ext_iff]
  have hdet2 : ((vandermondeX x n k).transpose * toMatrix W n n * vandermondeX x n k).det ≠ 0 := by
    rw [hone, Matrix.mul_one]
    exact hdet
  have hb := exact_recovery_core x y n k hk c0 beta0 cgen W inv0 hy hdet2
  refine ⟨fun j hj => congrFun hb ⟨j, hj⟩, ?_⟩
  rw [CalculateRSS_congr x y _ cgen W n k hb]
  exact CalculateRSS_exact x y cgen W n k hy

/-! ## The fit with as many coefficients as points -/

theorem PolyFit_fst_true (x y : Vec K) (n k : Nat) (c : K) (beta0 : Vec K)
    (W inv0 : Mat K) (j : Nat) :
    (PolyFit x y n k true c beta0 W inv0).1 j
      = if j = 0 then c
        else MatVectMul (k + 1) (k + 1) (cofactor (gramMatrix x n k true W).1 inv0 (k + 1)).1
          (MatVectMul (k + 1) n (gramMatrix x n k true W).2
            (fun m => if m < n then y m - c else 0) (fun _ => 0))
          beta0 j := by
  rw [PolyFit_fst]
  simp

/-- A square system: if `Inv` is a left inverse of `A * X`, the vector
`Inv * (A * y)` solves `X * b = y`. -/
theorem square_solve {m : Nat} (A X Inv : Matrix (Fin m) (Fin m) K) (h : Inv * (A * X) = 1)
    (yv : Fin m → K) : X.mulVec (Inv.mulVec (A.mulVec yv)) = yv := by
  have h1 : Inv * A * X = 1 := by
    rw [Matrix.mul_assoc]
    exact h
  have h2 : X * (Inv * A) = 1 := Matrix.mul_eq_one_comm.mp h1
  rw [Matrix.mulVec_mulVec, Matrix.mulVec_mulVec, Matrix.mul_assoc, h2, Matrix.one_mulVec]

/-- With `N = k + 1` points and an adjustable intercept, a Gram matrix of
non-zero determinant gives a fit through every point. -/
theorem exact_fit_adjustable (x y : Vec K) (k : Nat) (hk : k + 1 < 2 ^ 64) (c0 : K)
    (beta0 : Vec K) (W inv0 : Mat K)
    (hdet : (toMatrix (gramMatrix x (k + 1) k false W).1 (k + 1) (k + 1)).det ≠ 0) :
    CalculateRSS x y (PolyFit x y (k + 1) k false c0 beta0 W inv0).1 W (k + 1) (k + 1) = 0 := by
  have hinv := cofactor_mul (gramMatrix x (k + 1) k false W).1 inv0 (k + 1) (by omega) hk hdet
  rw [gram_false_eq] at hinv
  have hsol := square_solve
    ((vandermondeX x (k + 1) k).transpose * toMatrix W (k + 1) (k + 1))
    (vandermondeX x (k + 1) k)
    (toMatrix (cofactor (gramMatrix x (k + 1) k false W).1 inv0 (k + 1)).1 (k + 1) (k + 1))
    hinv (toVector y (k + 1))
  rw [CalculateRSS_toVector, PolyFit_false_toVector, hsol]
  simp

/-- The vector that `PolyFit` computes before the intercept is overwritten. -/
theorem fitVector_eq (x : Vec K) (n k : Nat) (fixedinter : Bool) (Yf beta0 : Vec K)
    (W inv0 : Mat K) :
    toVector (MatVectMul (k + 1) (k + 1)
        (cofactor (gramMatrix x n k fixedinter W).1 inv0 (k + 1)).1
        (MatVectMul (k + 1) n (gramMatrix x n k fixedinter W).2 Yf (fun _ => 0)) beta0) (k + 1)
      = (toMatrix (cofactor (gramMatrix x n k fixedinter W).1 inv0 (k + 1)).1
          (k + 1) (k + 1)).mulVec
        (((toMatrix (designMatrix x n k fixedinter) n (k + 1)).transpose
          * toMatrix W n n).mulVec (toVector Yf n)) := by
  rw [MatVectMul_toVector, MatVectMul_toVector, gramMatrix_snd]

/-- The matrix that `PolyFit` inverts when the intercept is fixed: `XTWX` with
the entry `[0][0]` replaced by `1`. -/
theorem gramMatrix_fst_true (x : Vec K) (n k : Nat) (W : Mat K) (l m : Fin (k + 1)) :
    toMatrix (gramMatrix x n k true W).1 (k + 1) (k + 1) l m
      = if l = 0 ∧ m = 0 then 1
        else ((toMatrix (designMatrix x n k true) n (k + 1)).transpose * toMatrix W n n
          * toMatrix (designMatrix x n k true) n (k + 1)) l m := by
  have h : ∀ l m : Fin (k + 1),
      MatMul (k + 1) n (k + 1)
        (MatMul (k + 1) n n (MatTrans (designMatrix x n k true) n (k + 1)) W)
        (designMatrix x n k true) l m
      = ((toMatrix (designMatrix x n k true) n (k + 1)).transpose * toMatrix W n n
          * toMatrix (designMatrix x n k true) n (k + 1)) l m := by
    intro l m
    rw [← MatTrans_toMatrix, ← MatMul_toMatrix, ← MatMul_toMatrix]
    rfl
  unfold gramMatrix
  simp only [if_true, toMatrix, Matrix.of_apply, setEntry]
  by_cases hlm : l = 0 ∧ m = 0
  · rw [if_pos hlm, if_pos]
    rw [hlm.1, hlm.2]
    exact ⟨rfl, rfl⟩
  · rw [if_neg hlm, if_neg]
    · exact h l m
    · intro e
      exact hlm ⟨Fin.ext e.1, Fin.ext e.2⟩

/-- With `N = k` points and a fixed intercept, a modified Gram matrix of
non-zero determinant gives a fit through every point. -/
theorem exact_fit_fixed (x y : Vec K) (k : Nat) (hk : k + 1 < 2 ^ 64) (c : K)
    (beta0 : Vec K) (W inv0 : Mat K)
    (hdet : (toMatrix (gramMatrix x k k true W).1 (k + 1) (k + 1)).det ≠ 0) :
    CalculateRSS x y (PolyFit x y k k true c beta0 W inv0).1 W k (k + 1) = 0 := by
  have hinv := cofactor_mul (gramMatrix x k k true W).1 inv0 (k + 1) (by omega) hk hdet
  -- the design matrix, whose column 0 is left at zero
  have hX0 : ∀ i : Fin k, toMatrix (designMatrix x k k true) k (k + 1) i 0 = 0 := by
    intro i
    simp only [toMatrix, Matrix.of_apply, Fin.val_zero]
    rw [designMatrix_apply, if_neg]
    simp
  have hXs : ∀ (i : Fin k) (j : Fin k),
      toMatrix (designMatrix x k k true) k (k + 1) i j.succ = x i ^ ((j : Nat) + 1) := by
    intro i j
    simp only [toMatrix, Matrix.of_apply, Fin.val_succ]
    rw [designMatrix_apply, if_pos ⟨i.2, by simp, by omega⟩]
  -- the system enlarged by one row and one column
  have hfac : toMatrix (gramMatrix x k k true W).1 (k + 1) (k + 1)
      = (Matrix.of fun (l : Fin (k + 1)) (i : Fin (k + 1)) =>
            Fin.cases (if l = 0 then (1 : K) else 0)
              (fun i' => ((toMatrix (designMatrix x k k true) k (k + 1)).transpose
                * toMatrix W k k) l i') i)
        * (Matrix.of fun (i : Fin (k + 1)) (m : Fin (k + 1)) =>
            Fin.cases (if m = 0 then (1 : K) else 0)
              (fun i' => toMatrix (designMatrix x k k true) k (k + 1) i' m) i) := by
    ext l m
    have hAX : (((toMatrix (designMatrix x k k true) k (k + 1)).transpose * toMatrix W k k)
          * toMatrix (designMatrix x k k true) k (k + 1)) l m
        = ∑ i' : Fin k,
            ((toMatrix (designMatrix x k k true) k (k + 1)).transpose * toMatrix W k k) l i'
              * toMatrix (designMatrix x k k true) k (k + 1) i' m := rfl
    rw [gramMatrix_fst_true, hAX]
    conv_rhs => rw [Matrix.mul_apply, Fin.sum_univ_succ]
    simp only [Matrix.of_apply, Fin.cases_zero, Fin.cases_succ]
    by_cases hlm : l = 0 ∧ m = 0
    · rw [if_pos hlm, if_pos hlm.1, if_pos hlm.2, hlm.2]
      simp [hX0]
    · rw [if_neg hlm]
      by_cases hl : l = 0
      · have hm : ¬ m = 0 := fun e => hlm ⟨hl, e⟩
        simp [hl, hm]
      · simp [hl]
  rw [hfac] at hinv
  have hsol := square_solve _ _ _ hinv
    (Fin.cases (0 : K) (fun i' : Fin k => y i' - c))
  -- the right-hand side of the enlarged system is the one of the program
  have hrhs : (Matrix.of fun (l : Fin (k + 1)) (i : Fin (k + 1)) =>
        Fin.cases (if l = 0 then (1 : K) else 0)
          (fun i' => ((toMatrix (designMatrix x k k true) k (k + 1)).transpose
            * toMatrix W k k) l i') i).mulVec
        (Fin.cases (0 : K) (fun i' : Fin k => y i' - c))
      = ((toMatrix (designMatrix x k k true) k (k + 1)).transpose * toMatrix W k k).mulVec
          (toVector (fun m => if m < k then y m - c else 0) k) := by
    funext l
    simp only [Matrix.mulVec, Matrix.dotProduct]
    rw [Fin.sum_univ_succ]
    simp only [Matrix.of_apply, Fin.cases_zero, Fin.cases_succ, mul_zero, zero_add]
    refine Finset.sum_congr rfl (fun i _ => ?_)
    simp [toVector, i.2]
  rw [hrhs, ← fitVector_eq x k k true _ beta0 W inv0] at hsol
  -- every residual is zero
  rw [CalculateRSS_eq]
  refine Finset.sum_eq_zero (fun i hi => ?_)
  have hik : i < k := Finset.mem_range.mp hi
  have hrow := congrFun hsol (Fin.succ ⟨i, hik⟩)
  simp only [Matrix.mulVec, Matrix.dotProduct, Matrix.of_apply, Fin.cases_succ] at hrow
  rw [Fin.sum_univ_succ] at hrow
  simp only [hX0, zero_mul, zero_add, hXs, toVector, Fin.val_succ] at hrow
  have hsum : ∑ j in Finset.range (k + 1),
      (PolyFit x y k k true c beta0 W inv0).1 j * x i ^ j = y i := by
    rw [Finset.sum_range_succ', PolyFit_fst_true, if_pos rfl, pow_zero, mul_one,
      Finset.sum_range]
    have e : ∀ j : Fin k,
        (PolyFit x y k k true c beta0 W inv0).1 ((j : Nat) + 1) * x i ^ ((j : Nat) + 1)
          = x i ^ ((j : Nat) + 1) *
            MatVectMul (k + 1) (k + 1) (cofactor (gramMatrix x k k true W).1 inv0 (k + 1)).1
              (MatVectMul (k + 1) k (gramMatrix x k k true W).2
                (fun m => if m < k then y m - c else 0) (fun _ => 0))
              beta0 ((j : Nat) + 1) := by
      intro j
      rw [PolyFit_fst_true, if_neg (by omega), mul_comm]
    rw [Finset.sum_congr rfl (fun j _ => e j), hrow]
    ring
  rw [hsum, sub_self, zero_mul, zero_mul]

/-! ## Weights, standard errors and the guards of `main` -/

/-- The value that `CalculateWeights` stores on the diagonal at index `i`. -/
theorem CalculateWeights_apply (erry : Vec K) (W0 : Mat K) (n : Nat) (type : Int)
    (r c : Nat) :
    CalculateWeights erry W0 n type r c
      = if r = c ∧ r < n ∧ (type = 0 ∨ type = 1 ∨ type = 2) then
          (if type = 0 then 1 else if type = 1 then erry r
            else if erry r > 0 then 1 / (erry r * erry r) else 0)
        else W0 r c := by
  unfold CalculateWeights
  refine forLoop_inv
    (fun i (t : Mat K) => ∀ r c, t r c =
      if r = c ∧ r < i ∧ (type = 0 ∨ type = 1 ∨ type = 2) then
        (if type = 0 then 1 else if type = 1 then erry r
          else if erry r > 0 then 1 / (erry r * erry r) else 0)
      else W0 r c)
    0 n _ _ (Nat.zero_le _) ?_ ?_ r c
  · intro r c
    rw [if_neg (by omega)]
  · intro i t _ _ ht r c
    by_cases hty : type = 0 ∨ type = 1 ∨ type = 2
    · have hstep : (if type = 0 then setEntry t i i 1
          else if type = 1 then setEntry t i i (erry i)
          else if type = 2 then
            if erry i > 0 then setEntry t i i (1 / (erry i * erry i)) else setEntry t i i 0
          else t)
          = setEntry t i i (if type = 0 then 1 else if type = 1 then erry i
              else if erry i > 0 then 1 / (erry i * erry i) else 0) := by
        rcases hty with h | h | h
        · simp [h]
        · simp [h]
        · by_cases he : erry i > 0 <;> simp [h, he]
      show (if type = 0 then setEntry t i i 1
          else if type = 1 then setEntry t i i (erry i)
          else if type = 2 then
            if erry i > 0 then setEntry t i i (1 / (erry i * erry i)) else setEntry t i i 0
          else t) r c = _
      rw [hstep]
      unfold setEntry
      by_cases hrc : r = i ∧ c = i
      · have hc : r = c ∧ r < i + 1 ∧ (type = 0 ∨ type = 1 ∨ type = 2) :=
          ⟨by omega, by omega, hty⟩
        rw [if_pos hrc, if_pos hc, hrc.1]
      · rw [if_neg hrc, ht r c]
        have : (r = c ∧ r < i ∧ (type = 0 ∨ type = 1 ∨ type = 2)) ↔
            (r = c ∧ r < i + 1 ∧ (type = 0 ∨ type = 1 ∨ type = 2)) := by
          constructor
          · rintro ⟨h1, h2, h3⟩
            exact ⟨h1, by omega, h3⟩
          · rintro ⟨h1, h2, h3⟩
            refine ⟨h1, ?_, h3⟩
            have : r ≠ i := fun e => hrc ⟨e, by omega⟩
            omega
        simp only [this]
    · have h0 : ¬ type = 0 := fun e => hty (Or.inl e)
      have h1 : ¬ type = 1 := fun e => hty (Or.inr (Or.inl e))
      have h2 : ¬ type = 2 := fun e => hty (Or.inr (Or.inr e))
      show (if type = 0 then setEntry t i i 1
          else if type = 1 then setEntry t i i (erry i)
          else if type = 2 then
            if erry i > 0 then setEntry t i i (1 / (erry i * erry i)) else setEntry t i i 0
          else t) r c = _
      rw [if_neg h0, if_neg h1, if_neg h2, ht r c, if_neg (fun h => hty h.2.2),
        if_neg (fun h => hty h.2.2)]

theorem CalculateSERRBeta_apply (sqrt : K → K) (fixedinter : Bool) (SE : K) (k : Nat)
    (serbeta : Vec K) (XTWXInv : Mat K) (i : Nat) :
    CalculateSERRBeta sqrt fixedinter SE k serbeta XTWXInv i
      = if (if fixedinter then 1 else 0) ≤ i ∧ i < k + 1 then SE * sqrt (XTWXInv i i)
        else if i = 0 then 0 else serbeta i := by
  unfold CalculateSERRBeta
  rw [fill1_apply _ _ (fun i => SE * sqrt (XTWXInv i i)) _ (fun _ _ => rfl)]
  rfl

/-- The determinant of a diagonal matrix with a zero on its diagonal. -/
theorem determinant_diag_zero (W : Mat K) (n : Nat)
    (hdiag : ∀ i j, i < n → j < n → i ≠ j → W i j = 0) (i : Nat) (hi : i < n)
    (hz : W i i = 0) : (determinant W n).1 = 0 := by
  rw [determinant_fst]
  have e : (Matrix.of fun r c : Fin n => W r c) = Matrix.diagonal (fun r : Fin n => W r r) :=
    toMatrix_diagonal W n hdiag
  rw [e, Matrix.det_diagonal]
  exact Finset.prod_eq_zero (Finset.mem_univ (⟨i, hi⟩ : Fin n)) hz

/-- On a non-empty data set the order guard of `main` rejects exactly the
orders above `N - 1` (adjustable intercept) or `N` (fixed intercept). -/
theorem order_guard_nonempty (sqrt : K → K) (tValueStudent : K → K → K) (x y erry : Vec K)
    (n k : Nat) (hn1 : 1 ≤ n) (hn : n < 2 ^ 64) (fixedinter : Bool) (wtype : Int)
    (c alpha : K) :
    mainRun sqrt tValueStudent x y erry n k fixedinter wtype c alpha = Outcome.orderTooHigh
      ↔ k > (if fixedinter then n else n - 1) := by
  have hsub : subSize n 1 = n - 1 := subSize_eq n 1 hn1 hn
  unfold mainRun nstarOf
  cases fixedinter
  · simp only [Bool.false_eq_true, if_false]
    rw [hsub]
    by_cases hk : k > n - 1
    · rw [if_pos hk]
      exact ⟨fun _ => hk, fun _ => rfl⟩
    · rw [if_neg hk]
      refine ⟨fun h => ?_, fun h => absurd h hk⟩
      by_cases hd : (determinant (CalculateWeights erry (Make2DArray n n) n wtype) n).1 = 0
      · rw [if_pos hd] at h
        exact Outcome.noConfusion h
      · rw [if_neg hd] at h
        exact Outcome.noConfusion h
  · simp only [if_true]
    by_cases hk : k > n
    · rw [if_pos hk]
      exact ⟨fun _ => hk, fun _ => rfl⟩
    · rw [if_neg hk]
      refine ⟨fun h => ?_, fun h => absurd h hk⟩
      by_cases hd : (determinant (CalculateWeights erry (Make2DArray n n) n wtype) n).1 = 0
      · rw [if_pos hd] at h
        exact Outcome.noConfusion h
      · rw [if_neg hd] at h
        exact Outcome.noConfusion h

/-! ## Adjusted R², bands and the fit with a fixed intercept -/

theorem calculatePoly_eq (x : K) (a : Vec K) (n : Nat) :
    calculatePoly x a n = ∑ i in Finset.range (n + 1), a i * x ^ i := by
  unfold calculatePoly
  rw [accAdd_eq (n + 1) (fun i => a i * x ^ i) 0, zero_add]

theorem WriteCIBands_spec (sqrt : K → K) (x coefbeta : Vec K) (XTXInv : Mat K)
    (tstudentval SE : K) (n k : Nat) :
    WriteCIBands sqrt x coefbeta XTXInv tstudentval SE n k
      = (List.range 101).map (fun i => bandRow sqrt x coefbeta XTXInv tstudentval SE n k i) := by
  unfold WriteCIBands
  refine forLoop_inv
    (fun i (rows : List (BandRow K)) => rows
      = (List.range i).map (fun i => bandRow sqrt x coefbeta XTXInv tstudentval SE n k i))
    0 101 _ _ (Nat.zero_le _) ?_ ?_
  · rfl
  · intro i t _ _ ht
    rw [ht, List.range_succ, List.map_append]
    rfl

theorem PolyFit_uses_responseVector (x y : Vec K) (n k : Nat) (fixedinter : Bool) (c : K)
    (beta0 : Vec K) (W inv0 : Mat K) :
    PolyFit x y n k fixedinter c beta0 W inv0
      = (let XTWXInv := (cofactor (gramMatrix x n k fixedinter W).1 inv0 (k + 1)).1
         let XTWY := MatVectMul (k + 1) n (gramMatrix x n k fixedinter W).2
           (responseVector y n fixedinter c) (fun _ => 0)
         let beta := MatVectMul (k + 1) (k + 1) XTWXInv XTWY beta0
         (if fixedinter then setVec beta 0 c else beta, XTWXInv)) := rfl

theorem responseVector_apply (y : Vec K) (n : Nat) (fixedinter : Bool) (c : K) (m : Nat) :
    responseVector y n fixedinter c m
      = if m < n then (if fixedinter then y m - c else y m) else 0 := by
  unfold responseVector
  rw [responseLoop_eq]

theorem CalculateR2Adj_eq (x y a : Vec K) (W : Mat K) (fixed : Bool) (N k : Nat)
    (hN : k + 1 ≤ N) (hN64 : N < 2 ^ 64) :
    CalculateR2Adj x y a W fixed N (k + 1)
      = 1 - ((if fixed then (N : K) else (N : K) - 1)
            / (if fixed then (N : K) - (k : K) else (N : K) - ((k : K) + 1)))
          * CalculateRSS x y a W N (k + 1) / CalculateTSS y W fixed N := by
  unfold CalculateR2Adj
  simp only []
  rw [subSize_eq N (k + 1) hN hN64, subSize_eq N 1 (by omega) hN64]
  have h1 : ((N - (k + 1) : Nat) : K) = (N : K) - ((k : K) + 1) := by
    rw [Nat.cast_sub hN]
    push_cast
    ring
  have h2 : ((N - 1 : Nat) : K) = (N : K) - 1 := by
    rw [Nat.cast_sub (by omega)]
    simp
  rw [h1, h2]
  cases fixed
  · simp
  · simp only [if_true]
    have e1 : (N : K) - ((k : K) + 1) + 1 = (N : K) - (k : K) := by ring
    have e2 : (N : K) - 1 + 1 = (N : K) := by ring
    rw [e1, e2]

/-- The design matrix of `PolyFit` as a matrix over `Fin`. -/
theorem designMatrix_true_zero (x : Vec K) (n k : Nat) (i : Fin n) :
    toMatrix (designMatrix x n k true) n (k + 1) i 0 = 0 := by
  simp only [toMatrix, Matrix.of_apply, Fin.val_zero]
  rw [designMatrix_apply, if_neg]
  simp

theorem designMatrix_true_succ (x : Vec K) (n k : Nat) (i : Fin n) (j : Fin k) :
    toMatrix (designMatrix x n k true) n (k + 1) i j.succ = x i ^ ((j : Nat) + 1) := by
  simp only [toMatrix, Matrix.of_apply, Fin.val_succ]
  rw [designMatrix_apply, if_pos ⟨i.2, by simp, by omega⟩]

/-- Row 0 of `XTW` is zero when the intercept is fixed. -/
theorem XTW_true_row_zero (x : Vec K) (n k : Nat) (W : Mat K) (i : Fin n) :
    ((toMatrix (designMatrix x n k true) n (k + 1)).transpose * toMatrix W n n) 0 i = 0 := by
  rw [Matrix.mul_apply]
  refine Finset.sum_eq_zero (fun j _ => ?_)
  rw [Matrix.transpose_apply, designMatrix_true_zero, zero_mul]

/-- Row 0 of the matrix that `PolyFit` inverts when the intercept is fixed. -/
theorem gram_true_row_zero (x : Vec K) (n k : Nat) (W : Mat K) (m : Fin (k + 1)) :
    toMatrix (gramMatrix x n k true W).1 (k + 1) (k + 1) 0 m = if m = 0 then 1 else 0 := by
  rw [gramMatrix_fst_true]
  by_cases hm : m = 0
  · rw [if_pos ⟨rfl, hm⟩, if_pos hm]
  · rw [if_neg (fun h => hm h.2), if_neg hm, Matrix.mul_apply]
    refine Finset.sum_eq_zero (fun j _ => ?_)
    rw [XTW_true_row_zero, zero_mul]

/-- The vector that `PolyFit` computes with a fixed intercept, before
`beta[0]` is overwritten. -/
theorem fitVector_true (x y : Vec K) (n k : Nat) (c : K) (beta0 : Vec K) (W inv0 : Mat K) :
    toVector (MatVectMul (k + 1) (k + 1)
        (cofactor (gramMatrix x n k true W).1 inv0 (k + 1)).1
        (MatVectMul (k + 1) n (gramMatrix x n k true W).2
          (fun m => if m < n then y m - c else 0) (fun _ => 0)) beta0) (k + 1)
      = (toMatrix (cofactor (gramMatrix x n k true W).1 inv0 (k + 1)).1
          (k + 1) (k + 1)).mulVec
        (((toMatrix (designMatrix x n k true) n (k + 1)).transpose
          * toMatrix W n n).mulVec (fun i : Fin n => y i - c)) := by
  rw [fitVector_eq]
  have h : toVector (fun m => if m < n then y m - c else 0) n = fun i : Fin n => y i - c := by
    funext i
    simp [toVector, i.2]
  rw [h]

/-- The normal equations of the fit with a fixed intercept. -/
theorem normal_equations_fixed (x y : Vec K) (n k : Nat) (hk : k + 1 < 2 ^ 64) (c : K)
    (beta0 : Vec K) (W inv0 : Mat K)
    (hdet : (toMatrix (gramMatrix x n k true W).1 (k + 1) (k + 1)).det ≠ 0) :
    ((toMatrix (designMatrix x n k true) n (k + 1)).transpose * toMatrix W n n).mulVec
      ((fun i : Fin n => y i - c) - (toMatrix (designMatrix x n k true) n (k + 1)).mulVec
        (toVector (MatVectMul (k + 1) (k + 1)
          (cofactor (gramMatrix x n k true W).1 inv0 (k + 1)).1
          (MatVectMul (k + 1) n (gramMatrix x n k true W).2
            (fun m => if m < n then y m - c else 0) (fun _ => 0)) beta0) (k + 1))) = 0 := by
  have hinv := cofactor_mul (gramMatrix x n k true W).1 inv0 (k + 1) (by omega) hk hdet
  have hinv2 := (Matrix.mul_eq_one_comm).mp hinv
  rw [fitVector_true]
  -- the product of the modified Gram matrix and the fitted vector
  have hG : (toMatrix (gramMatrix x n k true W).1 (k + 1) (k + 1)).mulVec
      ((toMatrix (cofactor (gramMatrix x n k true W).1 inv0 (k + 1)).1 (k + 1) (k + 1)).mulVec
        (((toMatrix (designMatrix x n k true) n (k + 1)).transpose
          * toMatrix W n n).mulVec (fun i : Fin n => y i - c)))
      = ((toMatrix (designMatrix x n k true) n (k + 1)).transpose
          * toMatrix W n n).mulVec (fun i : Fin n => y i - c) := by
    rw [Matrix.mulVec_mulVec, hinv2, Matrix.one_mulVec]
  generalize (toMatrix (cofactor (gramMatrix x n k true W).1 inv0 (k + 1)).1 (k + 1)
    (k + 1)).mulVec (((toMatrix (designMatrix x n k true) n (k + 1)).transpose
          * toMatrix W n n).mulVec (fun i : Fin n => y i - c)) = bt at hG ⊢
  rw [Matrix.mulVec_sub, Matrix.mulVec_mulVec]
  funext l
  rw [Pi.sub_apply, Pi.zero_apply, sub_eq_zero]
  by_cases hl : l = 0
  · rw [hl]
    simp only [Matrix.mulVec, Matrix.dotProduct]
    rw [Finset.sum_eq_zero (fun i _ => by rw [XTW_true_row_zero, zero_mul])]
    refine (Finset.sum_eq_zero (fun m _ => ?_)).symm
    rw [Matrix.mul_apply, Finset.sum_eq_zero (fun i _ => by rw [XTW_true_row_zero, zero_mul]),
      zero_mul]
  · have h := congrFun hG l
    rw [← h]
    simp only [Matrix.mulVec, Matrix.dotProduct]
    refine Finset.sum_congr rfl (fun m _ => ?_)
    rw [gramMatrix_fst_true, if_neg (fun e => hl e.1)]

/-- With a fixed intercept the residuals only involve the columns `1 .. k`
of the design matrix. -/
theorem CalculateRSS_fixed (x y a : Vec K) (W : Mat K) (n k : Nat) (c : K) (ha : a 0 = c) :
    CalculateRSS x y a W n (k + 1)
      = ∑ i : Fin n,
          ((fun i : Fin n => y i - c) i
              - (toMatrix (designMatrix x n k true) n (k + 1)).mulVec (toVector a (k + 1)) i) *
            ((fun i : Fin n => y i - c) i
              - (toMatrix (designMatrix x n k true) n (k + 1)).mulVec (toVector a (k + 1)) i) *
            W i i := by
  rw [CalculateRSS_eq, Finset.sum_range]
  refine Finset.sum_congr rfl (fun i _ => ?_)
  have h : ∑ j in Finset.range (k + 1), a j * x i ^ j
      = c + (toMatrix (designMatrix x n k true) n (k + 1)).mulVec (toVector a (k + 1)) i := by
    rw [Finset.sum_range_succ', ha, pow_zero, mul_one, Finset.sum_range]
    simp only [Matrix.mulVec, Matrix.dotProduct]
    rw [Fin.sum_univ_succ, designMatrix_true_zero, zero_mul, zero_add, add_comm]
    congr 1
    refine Finset.sum_congr rfl (fun j _ => ?_)
    rw [designMatrix_true_succ, mul_comm]
    rfl
  rw [h]
  simp only []
  ring

/-- With a fixed intercept the product of the design matrix and a
coefficient vector does not depend on the coefficient of index 0. -/
theorem mulVec_fixed_congr (x : Vec K) (n k : Nat) (u v : Fin (k + 1) → K)
    (h : ∀ j : Fin k, u j.succ = v j.succ) :
    (toMatrix (designMatrix x n k true) n (k + 1)).mulVec u
      = (toMatrix (designMatrix x n k true) n (k + 1)).mulVec v := by
  funext i
  simp only [Matrix.mulVec, Matrix.dotProduct]
  rw [Fin.sum_univ_succ, Fin.sum_univ_succ, designMatrix_true_zero, zero_mul, zero_mul]
  congr 1
  exact Finset.sum_congr rfl (fun j _ => by rw [h j])

/-! ## The incomplete beta function and its inverse -/

theorem incbeta_out_of_range (lgamma exp log : K → K) (a b x : K) (h : x < 0 ∨ x > 1) :
    incbeta lgamma exp log a b x = Dbl.pinf := by
  rw [incbeta, dif_pos h]
  simp [Dbl.div, Dbl.infTimes]

theorem incbeta_nonpos (lgamma exp log : K → K) (a b x : K) (h0 : 0 ≤ x) (h1 : x ≤ 1)
    (hab : a ≤ 0 ∨ b ≤ 0) : incbeta lgamma exp log a b x = Dbl.fin 0 := by
  have hx : ¬ (x < 0 ∨ x > 1) := by
    rintro (h | h)
    · exact absurd h (not_lt.mpr h0)
    · exact absurd h (not_lt.mpr h1)
  rw [incbeta, dif_neg hx]
  by_cases ha : a ≤ 0
  · rw [dif_pos ha]
  · rw [dif_neg ha]
    rcases hab with h | h
    · exact absurd h ha
    · rw [dif_pos h]

theorem incbeta_reflect (lgamma exp log : K → K) (a b x : K) (h0 : 0 ≤ x) (h1 : x ≤ 1)
    (ha : 0 < a) (hb : 0 < b) (h : x > (a + 1) / (a + b + 2)) :
    incbeta lgamma exp log a b x
      = Dbl.sub (Dbl.fin 1) (incbeta lgamma exp log b a (1 - x)) := by
  have hx : ¬ (x < 0 ∨ x > 1) := by
    rintro (h | h)
    · exact absurd h (not_lt.mpr h0)
    · exact absurd h (not_lt.mpr h1)
  rw [incbeta, dif_neg hx, dif_neg (not_le.mpr ha), dif_neg (not_le.mpr hb), dif_pos h]

theorem incbeta_direct (lgamma exp log : K → K) (a b x : K) (h0 : 0 ≤ x) (h1 : x ≤ 1)
    (ha : 0 < a) (hb : 0 < b) (h : ¬ x > (a + 1) / (a + b + 2)) :
    incbeta lgamma exp log a b x
      = lentzLoop a b x (incbetaFront lgamma exp log a b x) 201 0 1 1 0 := by
  have hx : ¬ (x < 0 ∨ x > 1) := by
    rintro (h | h)
    · exact absurd h (not_lt.mpr h0)
    · exact absurd h (not_lt.mpr h1)
  rw [incbeta, dif_neg hx, dif_neg (not_le.mpr ha), dif_neg (not_le.mpr hb), dif_neg h]

/-- The threshold `(a + 1) / (a + b + 2)` lies strictly between 0 and 1. -/
theorem threshold_bounds (a b : K) (ha : 0 < a) (hb : 0 < b) :
    0 < (a + 1) / (a + b + 2) ∧ (a + 1) / (a + b + 2) < 1 := by
  have hpos : 0 < a + b + 2 := by linarith
  constructor
  · exact div_pos (by linarith) hpos
  · rw [div_lt_one hpos]
    linarith

/-- The factor `front` is finite for `0 ≤ x < 1`, and is `0` at `x = 0`:
`log(0.)` is `-inf` and `exp(-inf)` is `0`. -/
theorem incbetaFront_fin (lgamma exp log : K → K) (a b x : K) (ha : 0 < a) (h0 : 0 ≤ x)
    (h1 : x < 1) :
    ∃ v, incbetaFront lgamma exp log a b x = Dbl.fin v ∧ (x = 0 → v = 0) := by
  have h1x : ¬ (1 - x < 0) := by linarith
  have h1x0 : ¬ (1 - x = 0) := by
    intro h
    linarith
  have ha0 : a ≠ 0 := ne_of_gt ha
  have hl1 : Dbl.log log (1 - x) = Dbl.fin (log (1 - x)) := by
    unfold Dbl.log
    rw [if_neg h1x, if_neg h1x0]
  unfold incbetaFront
  simp only []
  rw [hl1]
  by_cases hx : x = 0
  · have hl0 : Dbl.log log x = Dbl.ninf := by
      unfold Dbl.log
      rw [if_neg (not_lt.mpr h0), if_pos hx]
    have hm : Dbl.mul (Dbl.ninf : Dbl K) (Dbl.fin a) = Dbl.ninf := by
      simp [Dbl.mul, Dbl.infTimes, ha]
    refine ⟨0 / a, ?_, fun _ => zero_div a⟩
    rw [hl0, hm]
    simp [Dbl.mul, Dbl.add, Dbl.sub, Dbl.neg, Dbl.exp, Dbl.div, ha0]
  · have hl0 : Dbl.log log x = Dbl.fin (log x) := by
      unfold Dbl.log
      rw [if_neg (not_lt.mpr h0), if_neg hx]
    refine ⟨exp (log x * a + log (1 - x) * b + -(lgamma a + lgamma b - lgamma (a + b))) / a,
      ?_, fun h => absurd h hx⟩
    rw [hl0]
    simp [Dbl.mul, Dbl.add, Dbl.sub, Dbl.neg, Dbl.exp, Dbl.div, ha0]

/-- The continued fraction loop returns `+inf` or a finite value when `front`
is finite. -/
theorem lentzLoop_fin_or_pinf (a b x v : K) :
    ∀ (rem i : Nat) (f c d : K),
      lentzLoop a b x (Dbl.fin v) rem i f c d = Dbl.pinf ∨
        ∃ u, lentzLoop a b x (Dbl.fin v) rem i f c d = Dbl.fin u := by
  intro rem
  induction rem with
  | zero =>
    intro i f c d
    left
    simp [lentzLoop, Dbl.div, Dbl.infTimes]
  | succ rem ih =>
    intro i f c d
    rw [lentzLoop]
    split_ifs <;> first | exact Or.inr ⟨_, rfl⟩ | exact ih _ _ _ _

/-- At `x = 0` the continued fraction loop stops at `i = 1` with `f = 2`. -/
theorem lentzLoop_zero (a b : K) (front : Dbl K) :
    lentzLoop a b 0 front 201 0 1 1 0 = Dbl.mul front (Dbl.fin 1) := by
  have hT1 : ¬ |(1 : K)| < TINY := by
    unfold TINY
    rw [abs_one]
    norm_num
  have hT2 : ¬ |(2 : K)| < TINY := by
    unfold TINY
    rw [abs_two]
    norm_num
  have hS1 : ¬ |(1 : K) - 2| < STOP := by
    unfold STOP
    have : |(1 : K) - 2| = 1 := by
      rw [show (1 : K) - 2 = -1 by norm_num, abs_neg, abs_one]
    rw [this]
    norm_num
  have hS2 : |(1 : K) - 1| < STOP := by
    unfold STOP
    rw [sub_self, abs_zero]
    norm_num
  have hn0 : lentzNumerator a b 0 0 = 1 := by simp [lentzNumerator]
  have hn1 : lentzNumerator a b 0 1 = 0 := by simp [lentzNumerator]
  rw [show (201 : Nat) = 199 + 1 + 1 from rfl, lentzLoop]
  simp only [hn0, mul_zero, add_zero, one_mul, div_one, hT1, if_false]
  have e2 : (1 : K) + 1 = 2 := by norm_num
  rw [e2]
  simp only [hT2, if_false, mul_one, hS1]
  rw [lentzLoop]
  simp only [hn1, zero_mul, add_zero, zero_div, hT1, if_false, div_one, mul_one, hS2, if_true]
  have e3 : (2 : K) - 1 = 1 := by norm_num
  rw [e3]

theorem incbeta_zero (lgamma exp log : K → K) (a b : K) (ha : 0 < a) (hb : 0 < b) :
    incbeta lgamma exp log a b 0 = Dbl.fin 0 := by
  have hthr := threshold_bounds a b ha hb
  rw [incbeta_direct lgamma exp log a b 0 (le_refl _) zero_le_one ha hb
    (not_lt.mpr (le_of_lt hthr.1)), lentzLoop_zero]
  obtain ⟨v, hv, hv0⟩ := incbetaFront_fin lgamma exp log a b 0 ha (le_refl _) zero_lt_one
  rw [hv, hv0 rfl]
  simp [Dbl.mul]

theorem incbeta_one (lgamma exp log : K → K) (a b : K) (ha : 0 < a) (hb : 0 < b) :
    incbeta lgamma exp log a b 1 = Dbl.fin 1 := by
  have hthr := threshold_bounds a b ha hb
  rw [incbeta_reflect lgamma exp log a b 1 zero_le_one (le_refl _) ha hb hthr.2, sub_self,
    incbeta_zero lgamma exp log b a hb ha]
  simp [Dbl.sub, Dbl.neg, Dbl.add]

/-- On its domain `incbeta` returns a finite value or an infinity, never NaN. -/
theorem incbeta_not_nan (lgamma exp log : K → K) (a b x : K) (ha : 0 < a) (hb : 0 < b)
    (h0 : 0 ≤ x) (h1 : x ≤ 1) :
    incbeta lgamma exp log a b x = Dbl.pinf ∨ incbeta lgamma exp log a b x = Dbl.ninf ∨
      ∃ u, incbeta lgamma exp log a b x = Dbl.fin u := by
  have hdirect : ∀ (a b x : K), 0 < a → 0 < b → 0 ≤ x → x ≤ 1 → ¬ x > (a + 1) / (a + b + 2) →
      incbeta lgamma exp log a b x = Dbl.pinf ∨
        ∃ u, incbeta lgamma exp log a b x = Dbl.fin u := by
    intro a b x ha hb h0 h1 h
    have hthr := threshold_bounds a b ha hb
    have hx1 : x < 1 := lt_of_le_of_lt (not_lt.mp h) hthr.2
    obtain ⟨v, hv, _⟩ := incbetaFront_fin lgamma exp log a b x ha h0 hx1
    rw [incbeta_direct lgamma exp log a b x h0 h1 ha hb h, hv]
    exact lentzLoop_fin_or_pinf a b x v 201 0 1 1 0
  by_cases h : x > (a + 1) / (a + b + 2)
  · rw [incbeta_reflect lgamma exp log a b x h0 h1 ha hb h]
    have hpos : 0 < a + b + 2 := by linarith
    have e : (b + 1) / (b + a + 2) = 1 - (a + 1) / (a + b + 2) := by
      field_simp
      ring
    have hn : ¬ (1 - x) > (b + 1) / (b + a + 2) := by
      rw [e]
      intro h'
      linarith
    rcases hdirect b a (1 - x) hb ha (by linarith) (by linarith) hn with h' | ⟨u, h'⟩
    · right
      left
      rw [h']
      simp [Dbl.sub, Dbl.neg, Dbl.add]
    · right
      right
      rw [h']
      exact ⟨1 + -u, by simp [Dbl.sub, Dbl.neg, Dbl.add]⟩
  · rcases hdirect a b x ha hb h0 h1 h with h' | h'
    · exact Or.inl h'
    · exact Or.inr (Or.inr h')

/-- The `while` loop of `invincbeta` keeps `x` in `[0, 1]` and ends with the
negation of its condition. -/
theorem bisection_post (incb : K → Dbl K) (y p : K) :
    ∀ (fuel : Nat) (x a b : K) (bcur : Dbl K) (r : K),
      0 ≤ a → a ≤ x → x ≤ b → b ≤ 1 → bcur = incb x →
      bisection incb y p fuel x a b bcur = some r →
      0 ≤ r ∧ r ≤ 1 ∧ Dbl.absGt (Dbl.sub (incb r) (Dbl.fin y)) p = false := by
  intro fuel
  induction fuel with
  | zero =>
    intro x a b bcur r _ _ _ _ _ h
    simp [bisection] at h
  | succ fuel ih =>
    intro x a b bcur r ha hax hxb hb hcur h
    rw [bisection] at h
    by_cases hc : Dbl.absGt (Dbl.sub bcur (Dbl.fin y)) p = true
    · rw [if_pos hc] at h
      have h05 : (0.5 : K) = 1 / 2 := by norm_num
      by_cases hl : Dbl.ltZero (Dbl.sub bcur (Dbl.fin y)) = true
      · simp only [hl, if_true] at h
        refine ih _ _ _ _ r (by linarith) ?_ ?_ hb rfl h
        · rw [h05]
          linarith
        · rw [h05]
          linarith
      · have hl2 : Dbl.ltZero (Dbl.sub bcur (Dbl.fin y)) = false := by simpa using hl
        simp only [hl2, Bool.false_eq_true, if_false] at h
        refine ih _ _ _ _ r ha ?_ ?_ (by linarith) rfl h
        · rw [h05]
          linarith
        · rw [h05]
          linarith
    · rw [if_neg hc] at h
      have hr : x = r := Option.some.inj h
      rw [← hr, ← hcur]
      exact ⟨by linarith, by linarith, by simpa using hc⟩

/-! ## Reflection, checked reads and the bands -/

/-- After a reflection the argument `1 - x` is strictly below the threshold
`(b + 1) / (b + a + 2)` of the reflected call. -/
theorem reflected_below_threshold (a b x : K) (ha : 0 < a) (hb : 0 < b)
    (h : x > (a + 1) / (a + b + 2)) : 1 - x < (b + 1) / (b + a + 2) := by
  have hpos : 0 < a + b + 2 := by linarith
  have e : (b + 1) / (b + a + 2) = 1 - (a + 1) / (a + b + 2) := by
    field_simp
    ring
  rw [e]
  linarith

/-- A read past the end of the array makes the checked evaluation fail. -/
theorem calculatePolyChecked_none (x : K) (a : List K) (n : Nat) (h : a.length ≤ n) :
    calculatePolyChecked x a n = none := by
  unfold calculatePolyChecked
  rw [forLoop_succ 0 n _ _ (Nat.zero_le _)]
  have e : a[n]? = none := List.getElem?_eq_none h
  rw [e]
  cases forLoop 0 n (fun i poly =>
    match poly, a[i]? with
    | some p, some ai => some (p + ai * x ^ i)
    | _, _ => none) (some 0) <;> rfl

/-- When every index of the loop is below the length of the array, the
checked evaluation succeeds with the value of `calculatePoly`. -/
theorem calculatePolyChecked_some (x : K) (a : List K) (n : Nat) (h : n < a.length) :
    calculatePolyChecked x a n = some (calculatePoly x (listVec a) n) := by
  unfold calculatePolyChecked calculatePoly
  have key : ∀ m, m ≤ n + 1 →
      forLoop 0 m (fun i poly =>
        match poly, a[i]? with
        | some p, some ai => some (p + ai * x ^ i)
        | _, _ => none) (some 0)
        = some (forLoop 0 m (fun i poly => poly + listVec a i * x ^ i) 0) := by
    intro m
    induction m with
    | zero =>
      intro _
      rw [forLoop_of_le _ _ _ _ (le_refl _), forLoop_of_le _ _ _ _ (le_refl _)]
    | succ m ih =>
      intro hm
      rw [forLoop_succ 0 m _ _ (Nat.zero_le _), forLoop_succ 0 m _ _ (Nat.zero_le _),
        ih (by omega)]
      have hlt : m < a.length := by omega
      have e : a[m]? = some (listVec a m) := by
        rw [List.getElem?_eq_getElem hlt]
        simp [listVec, List.getD, List.getElem?_eq_getElem hlt]
      rw [e]
  exact key (n + 1) (le_refl _)

/-- The coefficients of `PolyFit` with an adjustable intercept give the least
residual sum of squares. -/
theorem PolyFit_rss_le (x y : Vec K) (n k : Nat) (hk : k + 1 < 2 ^ 64) (c0 : K)
    (beta0 : Vec K) (W inv0 : Mat K)
    (hdiag : ∀ i j, i < n → j < n → i ≠ j → W i j = 0)
    (hpos : ∀ i, i < n → 0 < W i i)
    (hdet : ((vandermondeX x n k).transpose * toMatrix W n n * vandermondeX x n k).det ≠ 0)
    (b : Vec K) :
    CalculateRSS x y (PolyFit x y n k false c0 beta0 W inv0).1 W n (k + 1)
      ≤ CalculateRSS x y b W n (k + 1) := by
  rw [CalculateRSS_toVector, CalculateRSS_toVector]
  have hne := normal_equations x y n k hk c0 beta0 W inv0 hdet
  rw [toMatrix_diagonal W n hdiag] at hne
  exact wls_min (vandermondeX x n k) (fun i : Fin n => W i i)
    (fun i => le_of_lt (hpos i i.2)) (toVector y n) _ (toVector b (k + 1)) hne

/-- The residual sum of squares is non-negative when the weights are. -/
theorem CalculateRSS_nonneg (x y a : Vec K) (W : Mat K) (N n : Nat)
    (hpos : ∀ i, i < N → 0 ≤ W i i) : 0 ≤ CalculateRSS x y a W N n := by
  rw [CalculateRSS_eq]
  refine Finset.sum_nonneg (fun i hi => ?_)
  exact mul_nonneg (mul_self_nonneg _) (hpos i (Finset.mem_range.mp hi))

/-- The total sum of squares of the adjustable case is the residual sum of
squares of the constant polynomial whose value is the weighted mean. -/
theorem CalculateTSS_eq_RSS_const (x y : Vec K) (W : Mat K) (N k : Nat) :
    CalculateTSS y W false N
      = CalculateRSS x y
          (fun j => if j = 0 then
            (∑ i in Finset.range N, y i * W i i) / (∑ i in Finset.range N, W i i) else 0)
          W N (k + 1) := by
  rw [CalculateTSS_false_eq, CalculateRSS_eq]
  refine Finset.sum_congr rfl (fun i _ => ?_)
  have h : ∑ j in Finset.range (k + 1),
      (if j = 0 then
        (∑ i in Finset.range N, y i * W i i) / (∑ i in Finset.range N, W i i) else 0) * x i ^ j
      = (∑ i in Finset.range N, y i * W i i) / (∑ i in Finset.range N, W i i) := by
    rw [Finset.sum_eq_single 0]
    · simp
    · intro j _ hj
      rw [if_neg hj, zero_mul]
    · intro h0
      exact absurd (Finset.mem_range.mpr (Nat.succ_pos k)) h0
  rw [h]

/-! ## Rounding to `double` -/

/-- The value of `binary64` at a positive number `q` of the binade of
exponent `e`: the multiple `m * 2 ^ e` within half a unit of `q`, an even `m`
when `q` is half way. -/
theorem binary64_eq (q : ℚ) (m e : ℤ) (he : -1074 ≤ e)
    (hlo : (2 : ℚ) ^ (52 : ℤ) * 2 ^ e ≤ q) (hhi : q < (2 : ℚ) ^ (53 : ℤ) * 2 ^ e)
    (hlow : ((m : ℚ) - 1 / 2) * 2 ^ e ≤ q) (hupp : q ≤ ((m : ℚ) + 1 / 2) * 2 ^ e)
    (htie : q = ((m : ℚ) - 1 / 2) * 2 ^ e ∨ q = ((m : ℚ) + 1 / 2) * 2 ^ e → m % 2 = 0) :
    binary64 q = (m : ℚ) * 2 ^ e := by
  have h2e : (0 : ℚ) < 2 ^ e := zpow_pos (by norm_num) e
  have hq : 0 < q := lt_of_lt_of_le (mul_pos (by positivity) h2e) hlo
  have hlog : Int.log 2 q = e + 52 := by
    apply le_antisymm
    · have h : Int.log 2 q < e + 53 := by
        apply (Int.lt_zpow_iff_log_lt (by norm_num) hq).mp
        rw [add_comm, zpow_add₀ (by norm_num)]
        exact_mod_cast hhi
      omega
    · apply (Int.zpow_le_iff_le_log (by norm_num) hq).mp
      rw [add_comm, zpow_add₀ (by norm_num)]
      exact_mod_cast hlo
  have hs1 : (m : ℚ) - 1 / 2 ≤ q / 2 ^ e := by
    rw [le_div_iff₀ h2e]
    exact hlow
  have hs2 : q / 2 ^ e ≤ (m : ℚ) + 1 / 2 := by
    rw [div_le_iff₀ h2e]
    exact hupp
  have htie2 : q / 2 ^ e = (m : ℚ) - 1 / 2 ∨ q / 2 ^ e = (m : ℚ) + 1 / 2 → m % 2 = 0 := by
    intro h
    apply htie
    rcases h with h | h
    · left
      rw [← h, div_mul_cancel₀ _ (ne_of_gt h2e)]
    · right
      rw [← h, div_mul_cancel₀ _ (ne_of_gt h2e)]
  have key : (if q / 2 ^ e - ((⌊q / 2 ^ e⌋ : ℤ) : ℚ) < 1 / 2 then ⌊q / 2 ^ e⌋
      else if q / 2 ^ e - ((⌊q / 2 ^ e⌋ : ℤ) : ℚ) > 1 / 2 then ⌊q / 2 ^ e⌋ + 1
      else if ⌊q / 2 ^ e⌋ % 2 = 0 then ⌊q / 2 ^ e⌋ else ⌊q / 2 ^ e⌋ + 1) = m := by
    rcases lt_or_le (q / 2 ^ e) (m : ℚ) with hsm | hsm
    · have hf : ⌊q / 2 ^ e⌋ = m - 1 := by
        rw [Int.floor_eq_iff]
        push_cast
        constructor <;> linarith
      rw [hf]
      push_cast
      rw [if_neg (by linarith)]
      by_cases hgt : q / 2 ^ e - ((m : ℚ) - 1) > 1 / 2
      · rw [if_pos hgt]
        ring
      · rw [if_neg hgt]
        have hm := htie2 (Or.inl (by linarith))
        rw [if_neg (by omega)]
        ring
    · have hf : ⌊q / 2 ^ e⌋ = m := by
        rw [Int.floor_eq_iff]
        constructor <;> linarith
      rw [hf]
      by_cases hlt : q / 2 ^ e - (m : ℚ) < 1 / 2
      · rw [if_pos hlt]
      · rw [if_neg hlt, if_neg (by linarith)]
        have hm := htie2 (Or.inr (by linarith))
        rw [if_pos hm]
  have hmax : max (e + 52 - 52) (-1074) = e := by
    rw [add_sub_cancel_right]
    exact max_eq_left he
  unfold binary64
  rw [if_neg (ne_of_gt hq), abs_of_pos hq, hlog]
  simp only [hmax]
  rw [key, if_neg (not_lt.mpr (le_of_lt hq)), one_mul]

theorem binary64_zero : binary64 0 = 0 := by
  unfold binary64
  rw [if_pos rfl]

/-- Rounding keeps the sign of a non-negative number. -/
theorem binary64_nonneg (q : ℚ) (hq : 0 ≤ q) : 0 ≤ binary64 q := by
  unfold binary64
  by_cases h0 : q = 0
  · rw [if_pos h0]
  · rw [if_neg h0, if_neg (not_lt.mpr hq)]
    simp only [one_mul]
    have hs : 0 ≤ |q| / 2 ^ max (Int.log 2 |q| - 52) (-1074) :=
      div_nonneg (abs_nonneg q) (le_of_lt (zpow_pos (by norm_num) _))
    have hn : (0 : ℤ) ≤ ⌊|q| / 2 ^ max (Int.log 2 |q| - 52) (-1074)⌋ := Int.floor_nonneg.mpr hs
    apply mul_nonneg _ (le_of_lt (zpow_pos (by norm_num) _))
    split_ifs
    · exact_mod_cast hn
    · exact_mod_cast (by omega : (0 : ℤ) ≤ ⌊|q| / 2 ^ max (Int.log 2 |q| - 52) (-1074)⌋ + 1)
    · exact_mod_cast hn
    · exact_mod_cast (by omega : (0 : ℤ) ≤ ⌊|q| / 2 ^ max (Int.log 2 |q| - 52) (-1074)⌋ + 1)

/-- The `double` written `0.1`. -/
theorem binary64_tenth :
    binary64 (1 / 10)
      = 3602879701896397 / 36028797018963968 := by
  rw [binary64_eq (1 / 10)
    7205759403792794 (-56) (by norm_num) (by norm_num) (by norm_num) (by norm_num)
    (by norm_num) (fun _ => by norm_num)]
  norm_num

/-- The `double` written `2.2`. -/
theorem binary64_two_two :
    binary64 (11 / 5)
      = 2476979795053773 / 1125899906842624 := by
  rw [binary64_eq (11 / 5)
    4953959590107546 (-51) (by norm_num) (by norm_num) (by norm_num) (by norm_num)
    (by norm_num) (fun _ => by norm_num)]
  norm_num

/-- The `double` written `0.2558139534883721`. -/
theorem binary64_x_loop :
    binary64 (2558139534883721 / 10000000000000000)
      = 576041812803203 / 2251799813685248 := by
  rw [binary64_eq (2558139534883721 / 10000000000000000)
    4608334502425624 (-54) (by norm_num) (by norm_num) (by norm_num) (by norm_num)
    (by norm_num) (fun _ => by norm_num)]
  norm_num

theorem loop_a_plus_one :
    binary64 ((3602879701896397 / 36028797018963968) + 1)
      = 2476979795053773 / 2251799813685248 := by
  rw [binary64_eq ((3602879701896397 / 36028797018963968) + 1)
    4953959590107546 (-52) (by norm_num) (by norm_num) (by norm_num) (by norm_num)
    (by norm_num) (fun _ => by norm_num)]
  norm_num

theorem loop_a_plus_b :
    binary64 ((3602879701896397 / 36028797018963968) +
        (2476979795053773 / 1125899906842624))
      = 5179139571476071 / 2251799813685248 := by
  rw [binary64_eq ((3602879701896397 / 36028797018963968) +
        (2476979795053773 / 1125899906842624))
    5179139571476071 (-51) (by norm_num) (by norm_num) (by norm_num) (by norm_num)
    (by norm_num) (fun h => by rcases h with h | h <;> norm_num at h)]
  norm_num

theorem loop_sum_plus_two :
    binary64 ((5179139571476071 / 2251799813685248) + 2)
      = 1210342399855821 / 281474976710656 := by
  rw [binary64_eq ((5179139571476071 / 2251799813685248) + 2)
    4841369599423284 (-50) (by norm_num) (by norm_num) (by norm_num) (by norm_num)
    (by norm_num) (fun _ => by norm_num)]
  norm_num

theorem loop_threshold :
    binary64 ((2476979795053773 / 2251799813685248) /
        (1210342399855821 / 281474976710656))
      = 4608334502425623 / 18014398509481984 := by
  rw [binary64_eq ((2476979795053773 / 2251799813685248) /
        (1210342399855821 / 281474976710656))
    4608334502425623 (-54) (by norm_num) (by norm_num) (by norm_num) (by norm_num)
    (by norm_num) (fun h => by rcases h with h | h <;> norm_num at h)]
  norm_num

theorem loop_one_minus_x :
    binary64 (1 - (576041812803203 / 2251799813685248))
      = 1675758000882045 / 2251799813685248 := by
  rw [binary64_eq (1 - (576041812803203 / 2251799813685248))
    6703032003528180 (-53) (by norm_num) (by norm_num) (by norm_num) (by norm_num)
    (by norm_num) (fun _ => by norm_num)]
  norm_num

theorem loop_b_plus_one :
    binary64 ((2476979795053773 / 1125899906842624) + 1)
      = 3602879701896397 / 1125899906842624 := by
  rw [binary64_eq ((2476979795053773 / 1125899906842624) + 1)
    7205759403792794 (-51) (by norm_num) (by norm_num) (by norm_num) (by norm_num)
    (by norm_num) (fun _ => by norm_num)]
  norm_num

theorem loop_b_plus_a :
    binary64 ((2476979795053773 / 1125899906842624) +
        (3602879701896397 / 36028797018963968))
      = 5179139571476071 / 2251799813685248 := by
  rw [binary64_eq ((2476979795053773 / 1125899906842624) +
        (3602879701896397 / 36028797018963968))
    5179139571476071 (-51) (by norm_num) (by norm_num) (by norm_num) (by norm_num)
    (by norm_num) (fun h => by rcases h with h | h <;> norm_num at h)]
  norm_num

theorem loop_threshold_back :
    binary64 ((3602879701896397 / 1125899906842624) /
        (1210342399855821 / 281474976710656))
      = 6703032003528179 / 9007199254740992 := by
  rw [binary64_eq ((3602879701896397 / 1125899906842624) /
        (1210342399855821 / 281474976710656))
    6703032003528179 (-53) (by norm_num) (by norm_num) (by norm_num) (by norm_num)
    (by norm_num) (fun h => by rcases h with h | h <;> norm_num at h)]
  norm_num

theorem loop_back :
    binary64 (1 - (1675758000882045 / 2251799813685248))
      = 576041812803203 / 2251799813685248 := by
  rw [binary64_eq (1 - (1675758000882045 / 2251799813685248))
    4608334502425624 (-54) (by norm_num) (by norm_num) (by norm_num) (by norm_num)
    (by norm_num) (fun _ => by norm_num)]
  norm_num

theorem big_a_plus_one :
    binary64 (10 ^ 17 + 1)
      = 10 ^ 17 := by
  rw [binary64_eq (10 ^ 17 + 1)
    6250000000000000 (4) (by norm_num) (by norm_num) (by norm_num) (by norm_num)
    (by norm_num) (fun _ => by norm_num)]
  norm_num

theorem big_a_plus_half :
    binary64 (10 ^ 17 + 1 / 2)
      = 10 ^ 17 := by
  rw [binary64_eq (10 ^ 17 + 1 / 2)
    6250000000000000 (4) (by norm_num) (by norm_num) (by norm_num) (by norm_num)
    (by norm_num) (fun _ => by norm_num)]
  norm_num

theorem big_a_plus_two :
    binary64 (10 ^ 17 + 2)
      = 10 ^ 17 := by
  rw [binary64_eq (10 ^ 17 + 2)
    6250000000000000 (4) (by norm_num) (by norm_num) (by norm_num) (by norm_num)
    (by norm_num) (fun _ => by norm_num)]
  norm_num

theorem big_quotient :
    binary64 (10 ^ 17 / 10 ^ 17)
      = 1 := by
  rw [binary64_eq (10 ^ 17 / 10 ^ 17)
    4503599627370496 (-52) (by norm_num) (by norm_num) (by norm_num) (by norm_num)
    (by norm_num) (fun _ => by norm_num)]
  norm_num

theorem big_df :
    binary64 (0 + (2 * 10 ^ 17))
      = 2 * 10 ^ 17 := by
  rw [binary64_eq (0 + (2 * 10 ^ 17))
    6250000000000000 (5) (by norm_num) (by norm_num) (by norm_num) (by norm_num)
    (by norm_num) (fun _ => by norm_num)]
  norm_num

theorem big_df_quotient :
    binary64 ((2 * 10 ^ 17) /
        (2 * 10 ^ 17))
      = 1 := by
  rw [binary64_eq ((2 * 10 ^ 17) /
        (2 * 10 ^ 17))
    4503599627370496 (-52) (by norm_num) (by norm_num) (by norm_num) (by norm_num)
    (by norm_num) (fun _ => by norm_num)]
  norm_num

theorem big_df_half :
    binary64 (1 / 2 * (2 * 10 ^ 17))
      = 10 ^ 17 := by
  rw [binary64_eq (1 / 2 * (2 * 10 ^ 17))
    6250000000000000 (4) (by norm_num) (by norm_num) (by norm_num) (by norm_num)
    (by norm_num) (fun _ => by norm_num)]
  norm_num

theorem binary64_one :
    binary64 (1)
      = 1 := by
  rw [binary64_eq (1)
    4503599627370496 (-52) (by norm_num) (by norm_num) (by norm_num) (by norm_num)
    (by norm_num) (fun _ => by norm_num)]
  norm_num

theorem one_df_sum :
    binary64 (0 + 1)
      = 1 := by
  rw [binary64_eq (0 + 1)
    4503599627370496 (-52) (by norm_num) (by norm_num) (by norm_num) (by norm_num)
    (by norm_num) (fun _ => by norm_num)]
  norm_num

theorem one_df_quotient :
    binary64 (1 / 1)
      = 1 := by
  rw [binary64_eq (1 / 1)
    4503599627370496 (-52) (by norm_num) (by norm_num) (by norm_num) (by norm_num)
    (by norm_num) (fun _ => by norm_num)]
  norm_num

theorem one_df_half :
    binary64 (1 / 2 * 1)
      = 1 / 2 := by
  rw [binary64_eq (1 / 2 * 1)
    4503599627370496 (-53) (by norm_num) (by norm_num) (by norm_num) (by norm_num)
    (by norm_num) (fun _ => by norm_num)]
  norm_num

theorem one_df_a_plus_one :
    binary64 (1 / 2 + 1)
      = 3 / 2 := by
  rw [binary64_eq (1 / 2 + 1)
    6755399441055744 (-52) (by norm_num) (by norm_num) (by norm_num) (by norm_num)
    (by norm_num) (fun _ => by norm_num)]
  norm_num

theorem one_df_a_plus_b :
    binary64 (1 / 2 + 1 / 2)
      = 1 := by
  rw [binary64_eq (1 / 2 + 1 / 2)
    4503599627370496 (-52) (by norm_num) (by norm_num) (by norm_num) (by norm_num)
    (by norm_num) (fun _ => by norm_num)]
  norm_num

theorem one_df_sum_plus_two :
    binary64 (1 + 2)
      = 3 := by
  rw [binary64_eq (1 + 2)
    6755399441055744 (-51) (by norm_num) (by norm_num) (by norm_num) (by norm_num)
    (by norm_num) (fun _ => by norm_num)]
  norm_num

theorem one_df_threshold :
    binary64 ((3 / 2) / 3)
      = 1 / 2 := by
  rw [binary64_eq ((3 / 2) / 3)
    4503599627370496 (-53) (by norm_num) (by norm_num) (by norm_num) (by norm_num)
    (by norm_num) (fun _ => by norm_num)]
  norm_num


/-! ## The control flow of `incbeta` under rounding -/

theorem incbetaRounded_reflect (fl lgamma exp log : K → K) (depth : Nat) (a b x : K)
    (h0 : 0 ≤ x) (h1 : x ≤ 1) (ha : 0 < a) (hb : 0 < b)
    (h : x > fl (fl (a + 1) / fl (fl (a + b) + 2))) :
    incbetaRounded fl lgamma exp log (depth + 1) a b x
      = Option.map (fun v => Dbl.sub (Dbl.fin 1) v)
          (incbetaRounded fl lgamma exp log depth b a (fl (1 - x))) := by
  have hx : ¬ (x < 0 ∨ x > 1) := by
    rintro (h2 | h2)
    · exact absurd h2 (not_lt.mpr h0)
    · exact absurd h2 (not_lt.mpr h1)
  rw [incbetaRounded, if_neg hx, if_neg (not_le.mpr ha), if_neg (not_le.mpr hb), if_pos h]

theorem incbetaRounded_direct (fl lgamma exp log : K → K) (depth : Nat) (a b x : K)
    (h0 : 0 ≤ x) (h1 : x ≤ 1) (ha : 0 < a) (hb : 0 < b)
    (h : ¬ x > fl (fl (a + 1) / fl (fl (a + b) + 2))) :
    incbetaRounded fl lgamma exp log (depth + 1) a b x
      = some (lentzLoop a b x (incbetaFront lgamma exp log a b x) 201 0 1 1 0) := by
  have hx : ¬ (x < 0 ∨ x > 1) := by
    rintro (h2 | h2)
    · exact absurd h2 (not_lt.mpr h0)
    · exact absurd h2 (not_lt.mpr h1)
  rw [incbetaRounded, if_neg hx, if_neg (not_le.mpr ha), if_neg (not_le.mpr hb), if_neg h]

/-- When `(a, b, x)` and the reflected `(b, a, fl (1 - x))` both pass the
test of the reflection and the second reflection gives `x` back, the calls
nest without end: no depth is enough. -/
theorem incbetaRounded_cycle (fl lgamma exp log : K → K) (a b x : K) (ha : 0 < a) (hb : 0 < b)
    (hx0 : 0 ≤ x) (hx1 : x ≤ 1) (hy0 : 0 ≤ fl (1 - x)) (hy1 : fl (1 - x) ≤ 1)
    (hg1 : x > fl (fl (a + 1) / fl (fl (a + b) + 2)))
    (hg2 : fl (1 - x) > fl (fl (b + 1) / fl (fl (b + a) + 2)))
    (hback : fl (1 - fl (1 - x)) = x) :
    ∀ depth, incbetaRounded fl lgamma exp log depth a b x = none ∧
      incbetaRounded fl lgamma exp log depth b a (fl (1 - x)) = none := by
  intro depth
  induction depth with
  | zero => exact ⟨rfl, rfl⟩
  | succ depth ih =>
    constructor
    · rw [incbetaRounded_reflect fl lgamma exp log depth a b x hx0 hx1 ha hb hg1, ih.2]
      rfl
    · rw [incbetaRounded_reflect fl lgamma exp log depth b a (fl (1 - x)) hy0 hy1 hb ha hg2,
        hback, ih.1]
      rfl

/-- In exact arithmetic two nested calls are enough for every input, and the
result is the value of `incbeta`. -/
theorem incbetaRounded_exact (lgamma exp log : K → K) (depth : Nat) (a b x : K) :
    incbetaRounded (fun v => v) lgamma exp log (depth + 2) a b x
      = some (incbeta lgamma exp log a b x) := by
  by_cases hx : x < 0 ∨ x > 1
  · rw [incbetaRounded, if_pos hx, incbeta_out_of_range lgamma exp log a b x hx]
    simp [Dbl.div, Dbl.infTimes]
  · have h0 : 0 ≤ x := not_lt.mp (fun h => hx (Or.inl h))
    have h1 : x ≤ 1 := not_lt.mp (fun h => hx (Or.inr h))
    by_cases ha : a ≤ 0
    · rw [incbetaRounded, if_neg hx, if_pos ha,
        incbeta_nonpos lgamma exp log a b x h0 h1 (Or.inl ha)]
    · by_cases hb : b ≤ 0
      · rw [incbetaRounded, if_neg hx, if_neg ha, if_pos hb,
          incbeta_nonpos lgamma exp log a b x h0 h1 (Or.inr hb)]
      · have ha2 : 0 < a := not_le.mp ha
        have hb2 : 0 < b := not_le.mp hb
        by_cases h : x > (a + 1) / (a + b + 2)
        · rw [incbetaRounded_reflect (fun v => v) lgamma exp log (depth + 1) a b x h0 h1 ha2 hb2 h,
            incbetaRounded_direct (fun v => v) lgamma exp log depth b a (1 - x) (by linarith)
              (by linarith) hb2 ha2
              (not_lt.mpr (le_of_lt (reflected_below_threshold a b x ha2 hb2 h))),
            incbeta_reflect lgamma exp log a b x h0 h1 ha2 hb2 h,
            incbeta_direct lgamma exp log b a (1 - x) (by linarith) (by linarith) hb2 ha2
              (not_lt.mpr (le_of_lt (reflected_below_threshold a b x ha2 hb2 h)))]
          rfl
        · rw [incbetaRounded_direct (fun v => v) lgamma exp log (depth + 1) a b x h0 h1 ha2 hb2 h,
            incbeta_direct lgamma exp log a b x h0 h1 ha2 hb2 h]

/-- With `front = 0` the continued fraction loop returns `0` or the
sentinel. -/
theorem lentzLoop_front_zero (a b x : K) :
    ∀ (rem i : Nat) (f c d : K),
      lentzLoop a b x (Dbl.fin 0) rem i f c d = Dbl.pinf ∨
        lentzLoop a b x (Dbl.fin 0) rem i f c d = Dbl.fin 0 := by
  intro rem
  induction rem with
  | zero =>
    intro i f c d
    left
    simp [lentzLoop, Dbl.div, Dbl.infTimes]
  | succ rem ih =>
    intro i f c d
    rw [lentzLoop]
    split_ifs <;> first | exact ih _ _ _ _ | exact Or.inr (by simp [Dbl.mul])

/-- At `x = 1` the factor `front` is `0`: `log(1.0 - x)` is `-inf`. -/
theorem incbetaFront_one (lgamma exp log : K → K) (a b : K) (ha : 0 < a) (hb : 0 < b) :
    incbetaFront lgamma exp log a b 1 = Dbl.fin 0 := by
  have hl1 : Dbl.log log (1 : K) = Dbl.fin (log 1) := by
    unfold Dbl.log
    rw [if_neg (by norm_num), if_neg (by norm_num)]
  have hl0 : Dbl.log log ((1 : K) - 1) = Dbl.ninf := by
    unfold Dbl.log
    rw [sub_self, if_neg (lt_irrefl _), if_pos rfl]
  have hm : Dbl.mul (Dbl.ninf : Dbl K) (Dbl.fin b) = Dbl.ninf := by
    simp [Dbl.mul, Dbl.infTimes, hb]
  unfold incbetaFront
  simp only []
  rw [hl1, hl0, hm]
  simp [Dbl.mul, Dbl.add, Dbl.sub, Dbl.neg, Dbl.exp, Dbl.div, ne_of_gt ha]

/-- When the test of the reflection fails at `x = 1`, the call returns `0` or
the sentinel. -/
theorem incbetaRounded_one_direct (fl lgamma exp log : K → K) (depth : Nat) (a b : K)
    (ha : 0 < a) (hb : 0 < b) (h : ¬ (1 : K) > fl (fl (a + 1) / fl (fl (a + b) + 2))) :
    incbetaRounded fl lgamma exp log (depth + 1) a b 1 = some (Dbl.fin 0) ∨
      incbetaRounded fl lgamma exp log (depth + 1) a b 1 = some Dbl.pinf := by
  rw [incbetaRounded_direct fl lgamma exp log depth a b 1 zero_le_one (le_refl _) ha hb h,
    incbetaFront_one lgamma exp log a b ha hb]
  rcases lentzLoop_front_zero a b 1 201 0 1 1 0 with h2 | h2
  · right
    rw [h2]
  · left
    rw [h2]

/-- At `x = 0` a non-negative threshold means no reflection, and the call
returns `0`. -/
theorem incbetaRounded_zero (fl lgamma exp log : K → K) (depth : Nat) (a b : K)
    (ha : 0 < a) (hb : 0 < b) (h : 0 ≤ fl (fl (a + 1) / fl (fl (a + b) + 2))) :
    incbetaRounded fl lgamma exp log (depth + 1) a b 0 = some (Dbl.fin 0) := by
  rw [incbetaRounded_direct fl lgamma exp log depth a b 0 (le_refl _) zero_le_one ha hb
    (not_lt.mpr h), lentzLoop_zero]
  obtain ⟨v, hv, hv0⟩ := incbetaFront_fin lgamma exp log a b 0 ha (le_refl _) zero_lt_one
  rw [hv, hv0 rfl]
  simp [Dbl.mul]

/-- A rounding that keeps `0` and the sign gives a non-negative threshold. -/
theorem threshold_rounded_nonneg (fl : K → K) (hnn : ∀ q, 0 ≤ q → 0 ≤ fl q) (a b : K)
    (ha : 0 ≤ a) (hb : 0 ≤ b) : 0 ≤ fl (fl (a + 1) / fl (fl (a + b) + 2)) := by
  apply hnn
  apply div_nonneg
  · exact hnn _ (by linarith)
  · apply hnn
    have := hnn (a + b) (by linarith)
    linarith

/-- When the threshold rounds below `1`, the call at `x = 1` is reflected to
`x = 0` and returns `1`. -/
theorem incbetaRounded_one_reflect (fl lgamma exp log : K → K) (h0 : fl 0 = 0)
    (hnn : ∀ q, 0 ≤ q → 0 ≤ fl q) (depth : Nat) (a b : K) (ha : 0 < a) (hb : 0 < b)
    (h : fl (fl (a + 1) / fl (fl (a + b) + 2)) < 1) :
    incbetaRounded fl lgamma exp log (depth + 2) a b 1 = some (Dbl.fin 1) := by
  rw [incbetaRounded_reflect fl lgamma exp log (depth + 1) a b 1 zero_le_one (le_refl _) ha hb h,
    sub_self, h0,
    incbetaRounded_zero fl lgamma exp log depth b a hb ha
      (threshold_rounded_nonneg fl hnn b a (le_of_lt hb) (le_of_lt ha))]
  simp [Dbl.sub, Dbl.neg, Dbl.add]

/-- The value of `cdfStudent(df, 0)` when `0.5 * df` is positive and the
threshold of the call `incbeta(0.5 * df, 0.5, 1.0)` rounds below `1`. -/
theorem cdfStudentRounded_zero (fl lgamma exp log : K → K) (depth : Nat) (df : K)
    (hdf : 0 < df) (h0 : fl 0 = 0) (h1 : fl 1 = 1) (hnn : ∀ q, 0 ≤ q → 0 ≤ fl q)
    (hdfr : fl df = df) (ha : 0 < fl (0.5 * df))
    (hthr : fl (fl (fl (0.5 * df) + 1) / fl (fl (fl (0.5 * df) + 0.5) + 2)) < 1) :
    cdfStudentRounded fl lgamma exp log (depth + 2) df 0 = some (Dbl.fin 0) := by
  unfold cdfStudentRounded
  simp only []
  rw [mul_zero, h0, zero_add, hdfr, div_self (ne_of_gt hdf), h1,
    incbetaRounded_one_reflect fl lgamma exp log h0 hnn depth (fl (0.5 * df)) 0.5 ha
      (by norm_num) hthr]
  simp [Dbl.sub, Dbl.neg, Dbl.add]

/-- The `double` arithmetic of `cdfStudent(1, 0)`: `0.5 * df` is positive. -/
theorem one_df_positive : (0 : ℚ) < binary64 (0.5 * 1) := by
  rw [show (0.5 : ℚ) * 1 = 1 / 2 * 1 by norm_num, one_df_half]
  norm_num

/-- The `double` arithmetic of `cdfStudent(1, 0)`: the threshold is `0.5`. -/
theorem one_df_below :
    binary64 (binary64 (binary64 (0.5 * 1) + 1)
        / binary64 (binary64 (binary64 (0.5 * 1) + 0.5) + 2))
      < 1 := by
  rw [show (0.5 : ℚ) * 1 = 1 / 2 * 1 by norm_num, one_df_half, show (0.5 : ℚ) = 1 / 2 by norm_num,
    one_df_a_plus_one, one_df_a_plus_b, one_df_sum_plus_two, one_df_threshold]
  norm_num

/-- At `a = 1e17`, `b = 0.5` the threshold of the reflection is `1`. -/
theorem big_threshold :
    binary64 (binary64 (10 ^ 17 + 1) / binary64 (binary64 (10 ^ 17 + 1 / 2) + 2)) = 1 := by
  rw [big_a_plus_one, big_a_plus_half, big_a_plus_two, big_quotient]

/-- The first test of the reflection at `(0.1, 2.2, 0.2558139534883721)`:
`x` is above the threshold, which rounds to `0.25581395348837205`. -/
theorem refl_first_test :
    reflX > binary64 (binary64 (reflA + 1) / binary64 (binary64 (reflA + reflB) + 2)) := by
  unfold reflA reflB reflX
  rw [loop_a_plus_one, loop_a_plus_b, loop_sum_plus_two, loop_threshold]
  norm_num

/-- The reflected argument `1.0 - x` is in `[0, 1]`. -/
theorem refl_argument : 0 ≤ binary64 (1 - reflX) ∧ binary64 (1 - reflX) ≤ 1 := by
  unfold reflX
  rw [loop_one_minus_x]
  norm_num

/-- The test of the reflected call: `1.0 - x` is above its threshold, which
rounds to `0.7441860465116278`. -/
theorem refl_second_test :
    binary64 (1 - reflX)
      > binary64 (binary64 (reflB + 1) / binary64 (binary64 (reflB + reflA) + 2)) := by
  unfold reflA reflB reflX
  rw [loop_one_minus_x, loop_b_plus_one, loop_b_plus_a, loop_sum_plus_two,
    loop_threshold_back]
  norm_num

/-- The second reflection gives `x` back. -/
theorem refl_back : binary64 (1 - binary64 (1 - reflX)) = reflX := by
  unfold reflX
  rw [loop_one_minus_x, loop_back]

/-- For `df = 2e17` the call `incbeta(1e17, 0.5, 1.0)` of `cdfStudent(df, 0)`
is not reflected, and the value is `1` (or `-inf`). -/
theorem cdfStudentRounded_big (lgamma exp log : ℚ → ℚ) (depth : Nat) :
    cdfStudentRounded binary64 lgamma exp log (depth + 1) (2 * 10 ^ 17) 0
        = some (Dbl.fin 1) ∨
      cdfStudentRounded binary64 lgamma exp log (depth + 1) (2 * 10 ^ 17) 0
        = some Dbl.ninf := by
  have hno : ¬ (1 : ℚ)
      > binary64 (binary64 (10 ^ 17 + 1) / binary64 (binary64 (10 ^ 17 + 1 / 2) + 2)) := by
    rw [big_threshold]
    exact lt_irrefl _
  have h := incbetaRounded_one_direct binary64 lgamma exp log depth (10 ^ 17) (1 / 2)
    (by norm_num) (by norm_num) hno
  unfold cdfStudentRounded
  simp only []
  rw [mul_zero, binary64_zero, big_df, big_df_quotient,
    show (0.5 : ℚ) * (2 * 10 ^ 17) = 1 / 2 * (2 * 10 ^ 17) by norm_num, big_df_half,
    show (0.5 : ℚ) = 1 / 2 by norm_num]
  rcases h with h | h
  · left
    rw [h]
    simp [Dbl.sub, Dbl.neg, Dbl.add]
  · right
    rw [h]
    simp [Dbl.sub, Dbl.neg, Dbl.add]

/-- In exact arithmetic the hypotheses on the rounding hold for every
`df > 0`: `cdfStudent(df, 0)` is `0`. -/
theorem cdfStudentRounded_zero_exact (lgamma exp log : K → K) (depth : Nat) (df : K)
    (hdf : 0 < df) :
    cdfStudentRounded (fun v => v) lgamma exp log (depth + 2) df 0 = some (Dbl.fin 0) := by
  have h05 : (0 : K) < 0.5 := by norm_num
  have ha : 0 < 0.5 * df := mul_pos h05 hdf
  exact cdfStudentRounded_zero (fun v => v) lgamma exp log depth df hdf rfl rfl
    (fun _ h => h) rfl ha (threshold_bounds (0.5 * df) 0.5 ha h05).2

end FieldLemmas

/-! ## The claims -/

section Claims

variable {K : Type} [LinearOrderedField K]

/-- C1: for a diagonal weight matrix `W` with a strictly positive diagonal
such that `XᵗWX` (`X[i][j] = x_i ^ j`, `j = 0 .. k`) has a non-zero
determinant, the coefficients written by `PolyFit` with `fixedinter = false`
minimise the weighted residual sum of squares `CalculateRSS` over all
coefficient vectors `b`. -/
theorem polyfit_minimises_rss (x y : Vec K) (n k : Nat) (hk : k + 1 < 2 ^ 64) (c0 : K)
    (beta0 : Vec K) (W inv0 : Mat K)
    (hdiag : ∀ i j, i < n → j < n → i ≠ j → W i j = 0)
    (hpos : ∀ i, i < n → 0 < W i i)
    (hdet : ((vandermondeX x n k).transpose * toMatrix W n n * vandermondeX x n k).det ≠ 0)
    (b : Vec K) :
    CalculateRSS x y (PolyFit x y n k false c0 beta0 W inv0).1 W n (k + 1)
      ≤ CalculateRSS x y b W n (k + 1) := by
  rw [CalculateRSS_toVector, CalculateRSS_toVector]
  have hne := normal_equations x y n k hk c0 beta0 W inv0 hdet
  rw [toMatrix_diagonal W n hdiag] at hne
  exact wls_min (vandermondeX x n k) (fun i : Fin n => W i i)
    (fun i => le_of_lt (hpos i i.2)) (toVector y n) _ (toVector b (k + 1)) hne

/-- A witness of C1: two points, degree one, unit weights. -/
theorem polyfit_minimises_rss_witness :
    CalculateRSS (listVec [0, 1]) (listVec [1, 3])
        (PolyFit (listVec [0, 1]) (listVec [1, 3]) 2 1 false (0 : ℚ) (fun _ => 0)
          unitWeights (Make2DArray 2 2)).1 unitWeights 2 (1 + 1)
      ≤ CalculateRSS (listVec [0, 1]) (listVec [1, 3]) (fun _ => 7) unitWeights 2 (1 + 1) :=
  polyfit_minimises_rss (listVec [0, 1]) (listVec [1, 3]) 2 1 (by norm_num) 0 (fun _ => 0)
    unitWeights (Make2DArray 2 2)
    (fun i j _ _ h => by simp [unitWeights, h])
    (fun i _ => by simp [unitWeights])
    (by
      simp [Matrix.det_fin_two, Matrix.mul_apply, Fin.sum_univ_two, vandermondeX, toMatrix,
        listVec, unitWeights])
    (fun _ => 7)

/-- C2: for `x = [0,1,2,3]`, `y = [1,3,5,7]`, degree `k = 1`, the weights of
mode 0 and an adjustable intercept, `PolyFit` returns the coefficients
`[1, 2]`, `CalculateRSS` of those coefficients is `0` and `CalculateR2COD` is
`1` (with `CalculateTSS = 20`). -/
theorem end_to_end_example (erry beta0 : Vec ℚ) (inv0 : Mat ℚ) :
    (PolyFit (listVec [0, 1, 2, 3]) (listVec [1, 3, 5, 7]) 4 1 false 0 beta0
        (CalculateWeights erry (Make2DArray 4 4) 4 0) inv0).1 0 = 1 ∧
      (PolyFit (listVec [0, 1, 2, 3]) (listVec [1, 3, 5, 7]) 4 1 false 0 beta0
        (CalculateWeights erry (Make2DArray 4 4) 4 0) inv0).1 1 = 2 ∧
      CalculateRSS (listVec [0, 1, 2, 3]) (listVec [1, 3, 5, 7])
        (PolyFit (listVec [0, 1, 2, 3]) (listVec [1, 3, 5, 7]) 4 1 false 0 beta0
          (CalculateWeights erry (Make2DArray 4 4) 4 0) inv0).1
        (CalculateWeights erry (Make2DArray 4 4) 4 0) 4 (1 + 1) = 0 ∧
      CalculateTSS (listVec [1, 3, 5, 7]) (CalculateWeights erry (Make2DArray 4 4) 4 0)
        false 4 = 20 ∧
      CalculateR2COD (listVec [0, 1, 2, 3]) (listVec [1, 3, 5, 7])
        (PolyFit (listVec [0, 1, 2, 3]) (listVec [1, 3, 5, 7]) 4 1 false 0 beta0
          (CalculateWeights erry (Make2DArray 4 4) 4 0) inv0).1
        (CalculateWeights erry (Make2DArray 4 4) 4 0) false 4 (1 + 1) = 1 := by
  have hW : ∀ i j, i < 4 → j < 4 →
      CalculateWeights erry (Make2DArray 4 4) 4 0 i j = if i = j then (1 : ℚ) else 0 := by
    intro i j hi _
    rw [CalculateWeights_apply]
    by_cases h : i = j
    · rw [if_pos ⟨h, hi, Or.inl rfl⟩, if_pos rfl, if_pos h]
    · rw [if_neg (fun e => h e.1), if_neg h]
      rfl
  have hy : ∀ i, i < 4 → listVec [1, 3, 5, 7] i
      = ∑ j in Finset.range (1 + 1), listVec [(1 : ℚ), 2] j * listVec [0, 1, 2, 3] i ^ j := by
    intro i hi
    interval_cases i <;> norm_num [listVec, Finset.sum_range_succ]
  have hdet : ((vandermondeX (listVec [(0 : ℚ), 1, 2, 3]) 4 1).transpose
      * vandermondeX (listVec [(0 : ℚ), 1, 2, 3]) 4 1).det ≠ 0 := by
    simp [Matrix.det_fin_two, Matrix.mul_apply, Fin.sum_univ_four, vandermondeX, listVec,
      Fin.coe_ofNat_eq_mod]
    norm_num
  obtain ⟨hb, hrss⟩ := exact_recovery_unit (listVec [0, 1, 2, 3]) (listVec [1, 3, 5, 7]) 4 1
    (by norm_num) 0 beta0 (listVec [1, 2]) (CalculateWeights erry (Make2DArray 4 4) 4 0) inv0
    hW hy hdet
  have htss : CalculateTSS (listVec [1, 3, 5, 7])
      (CalculateWeights erry (Make2DArray 4 4) 4 0) false 4 = 20 := by
    rw [CalculateTSS_false_eq]
    simp [Finset.sum_range_succ, hW, listVec]
    norm_num
  refine ⟨?_, ?_, hrss, htss, ?_⟩
  · rw [hb 0 (by norm_num)]
    simp [listVec]
  · rw [hb 1 (by norm_num)]
    simp [listVec]
  · unfold CalculateR2COD
    simp only []
    rw [hrss, htss]
    norm_num

/-- C3, as amended: for points `(x_i, y_i)`, `i < N`, `N ≥ k + 1`, that lie on
a polynomial with coefficients `c` of degree `k`, unit weights, a Gram matrix
`XᵗX` of non-zero determinant and `CalculateTSS ≠ 0`, `PolyFit` with an
adjustable intercept returns `beta = c`, `CalculateRSS` of `beta` is `0` and
`CalculateR2COD` is `1`. -/
theorem exact_recovery (x y : Vec K) (n k : Nat) (hk : k + 1 < 2 ^ 64) (hn : k + 1 ≤ n)
    (c0 : K) (beta0 cgen : Vec K) (W inv0 : Mat K)
    (hW : ∀ i j, i < n → j < n → W i j = if i = j then 1 else 0)
    (hy : ∀ i, i < n → y i = ∑ j in Finset.range (k + 1), cgen j * x i ^ j)
    (hdet : ((vandermondeX x n k).transpose * vandermondeX x n k).det ≠ 0)
    (hTSS : CalculateTSS y W false n ≠ 0) :
    (∀ j, j < k + 1 → (PolyFit x y n k false c0 beta0 W inv0).1 j = cgen j) ∧
      CalculateRSS x y (PolyFit x y n k false c0 beta0 W inv0).1 W n (k + 1) = 0 ∧
      CalculateR2COD x y (PolyFit x y n k false c0 beta0 W inv0).1 W false n (k + 1) = 1 := by
  obtain ⟨hb, hrss⟩ := exact_recovery_unit x y n k hk c0 beta0 cgen W inv0 hW hy hdet
  refine ⟨hb, hrss, ?_⟩
  unfold CalculateR2COD
  simp only []
  rw [hrss, zero_div, sub_zero]

/-- A witness of C3 as amended: the points `(0, 1)`, `(1, 3)` on `y = 1 + 2x`. -/
theorem exact_recovery_witness :
    (PolyFit (listVec [0, 1]) (listVec [1, 3]) 2 1 false (0 : ℚ) (fun _ => 0)
        unitWeights (Make2DArray 2 2)).1 1 = listVec [1, 2] 1 :=
  (exact_recovery (listVec [0, 1]) (listVec [1, 3]) 2 1 (by norm_num) (by norm_num) 0
    (fun _ => 0) (listVec [1, 2]) unitWeights (Make2DArray 2 2)
    (fun i j _ _ => rfl)
    (fun i hi => by
      interval_cases i <;> norm_num [listVec, Finset.sum_range_succ])
    (by
      simp [Matrix.det_fin_two, Matrix.mul_apply, Fin.sum_univ_two, vandermondeX, listVec])
    (by
      rw [CalculateTSS_false_eq]
      simp [Finset.sum_range_succ, unitWeights, listVec]
      norm_num)).1 1 (by norm_num)

/-- C3 fails as stated: the two points `(1, 1)`, `(1, 1)` lie on `y = 1` and on
`y = x`, both of degree at most `k = 1` with `N = 2 ≥ k + 1`, so `PolyFit`
cannot return the generating coefficients of both; here `CalculateTSS` is `0`
as well, so that `CalculateR2COD` divides by zero. -/
theorem exact_recovery_counterexample :
    ¬ (∀ cgen : Vec ℚ,
        (∀ i, i < 2 → listVec [1, 1] i
          = ∑ j in Finset.range (1 + 1), cgen j * listVec [1, 1] i ^ j) →
        ∀ j, j < 1 + 1 →
          (PolyFit (listVec [1, 1]) (listVec [1, 1]) 2 1 false 0 (fun _ => 0)
            unitWeights (Make2DArray 2 2)).1 j = cgen j) ∧
      CalculateTSS (listVec [(1 : ℚ), 1]) unitWeights false 2 = 0 := by
  constructor
  · intro h
    have h1 := h (listVec [1, 0])
      (fun i hi => by interval_cases i <;> simp [listVec, Finset.sum_range_succ]) 0 (by norm_num)
    have h2 := h (listVec [0, 1])
      (fun i hi => by interval_cases i <;> simp [listVec, Finset.sum_range_succ]) 0 (by norm_num)
    rw [h1] at h2
    simp [listVec] at h2
  · rw [CalculateTSS_false_eq]
    simp [Finset.sum_range_succ, unitWeights, listVec]

/-- C4: for every size `1 ≤ f` (a `size_t`) and every matrix `A` whose
determinant is not zero, the matrix written into `inverse` by
`cofactor(A, inverse, f)`, multiplied by `A` as it was on entry with `MatMul`,
is the identity matrix of size `f`. -/
theorem cofactor_inverse_roundtrip (f : Nat) (hf : 1 ≤ f) (hf64 : f < 2 ^ 64)
    (A inverse : Mat K) (hdet : (toMatrix A f f).det ≠ 0) :
    toMatrix (MatMul f f f (cofactor A inverse f).1 A) f f = 1 := by
  rw [MatMul_toMatrix]
  exact cofactor_mul A inverse f hf hf64 hdet

/-- A witness of C4: the matrix with rows `(2, 1)` and `(1, 1)`. -/
theorem cofactor_inverse_roundtrip_witness :
    (1 ≤ 2 ∧ 2 < 2 ^ 64) ∧
      toMatrix (MatMul 2 2 2
        (cofactor (fun i j => if i = 0 ∧ j = 0 then (2 : ℚ) else 1) (Make2DArray 2 2) 2).1
        (fun i j => if i = 0 ∧ j = 0 then (2 : ℚ) else 1)) 2 2 = 1 :=
  ⟨⟨by norm_num, by norm_num⟩,
    cofactor_inverse_roundtrip 2 (by norm_num) (by norm_num)
      (fun i j => if i = 0 ∧ j = 0 then (2 : ℚ) else 1) (Make2DArray 2 2)
      (by simp [Matrix.det_fin_two, toMatrix]; norm_num)⟩

/-- C5: for every `n` and every matrix `a`, the value returned by
`determinant(a, n)` is the (Leibniz) determinant of the `n` by `n` matrix
`a` as it was on entry; it is `0` exactly when that matrix is singular
(not invertible). -/
theorem determinant_correct (a : Mat K) (n : Nat) :
    (determinant a n).1 = (toMatrix a n n).det ∧
      ((determinant a n).1 = 0 ↔ ¬ IsUnit (toMatrix a n n)) := by
  have h : (determinant a n).1 = (toMatrix a n n).det := determinant_fst a n
  refine ⟨h, ?_⟩
  rw [h, Matrix.isUnit_iff_isUnit_det, isUnit_iff_ne_zero, not_not]

/-- C6: when `PolyFit` is called with `fixedinter = true` and the fixed value
`c`, the returned `beta[0]` is `c`, and `CalculateSERRBeta` with
`fixedinter = true` writes `serbeta[0] = 0`, whatever `SE` and the Gram
inverse are. -/
theorem fixed_intercept_pinned (sqrt : K → K) (x y : Vec K) (n k : Nat) (c : K)
    (beta0 : Vec K) (W inv0 : Mat K) (SE : K) (serbeta0 : Vec K) (XTWXInv : Mat K) :
    (PolyFit x y n k true c beta0 W inv0).1 0 = c ∧
      CalculateSERRBeta sqrt true SE k serbeta0 XTWXInv 0 = 0 := by
  constructor
  · rw [PolyFit_fst, if_pos ⟨rfl, rfl⟩]
  · rw [CalculateSERRBeta_apply, if_neg (by simp), if_pos rfl]

/-- C7: for `i < n`, `CalculateWeights` sets `Weights[i][i]` to `1` in mode 0,
to `erry[i]` in mode 1, and in mode 2 to `1 / erry[i]²` when `erry[i] > 0`
and to `0` when `erry[i] ≤ 0`; it writes no off-diagonal entry, so a
zero-initialised matrix stays diagonal. -/
theorem weights_construction (n : Nat) (erry : Vec K) (W0 : Mat K) (i : Nat) (hi : i < n) :
    CalculateWeights erry W0 n 0 i i = 1 ∧
      CalculateWeights erry W0 n 1 i i = erry i ∧
      (erry i > 0 → CalculateWeights erry W0 n 2 i i = 1 / (erry i) ^ 2) ∧
      (erry i ≤ 0 → CalculateWeights erry W0 n 2 i i = 0) ∧
      (∀ (type : Int) (r c : Nat), r ≠ c → CalculateWeights erry W0 n type r c = W0 r c) ∧
      (∀ (type : Int) (r c : Nat), r ≠ c →
        CalculateWeights erry (Make2DArray n n) n type r c = 0) := by
  refine ⟨?_, ?_, ?_, ?_, ?_, ?_⟩
  · rw [CalculateWeights_apply, if_pos ⟨rfl, hi, Or.inl rfl⟩, if_pos rfl]
  · rw [CalculateWeights_apply, if_pos ⟨rfl, hi, Or.inr (Or.inl rfl)⟩]
    simp
  · intro he
    rw [CalculateWeights_apply, if_pos ⟨rfl, hi, Or.inr (Or.inr rfl)⟩]
    simp [he, pow_two]
  · intro he
    rw [CalculateWeights_apply, if_pos ⟨rfl, hi, Or.inr (Or.inr rfl)⟩]
    simp [not_lt.mpr he]
  · intro type r c hrc
    rw [CalculateWeights_apply, if_neg (fun h => hrc h.1)]
  · intro type r c hrc
    rw [CalculateWeights_apply, if_neg (fun h => hrc h.1)]
    rfl

/-- A witness of C7: one point with error `2`. -/
theorem weights_construction_witness :
    (0 < 1) ∧ CalculateWeights (fun _ => (2 : ℚ)) (Make2DArray 1 1) 1 2 0 0 = 1 / 2 ^ 2 :=
  ⟨by norm_num,
    (weights_construction 1 (fun _ => (2 : ℚ)) (Make2DArray 1 1) 0 (by norm_num)).2.2.1
      (by norm_num)⟩

/-- C8: when a point `i < n` has an error `erry[i] ≤ 0`, the weight matrix
that `CalculateWeights` builds in mode 2 has `determinant(Weights, n) = 0`;
`main` then stops with `return -1` before `PolyFit`, at the singular-weight
guard whenever the order guard has let the run pass. -/
theorem singular_weight_guard (n : Nat) (erry : Vec K) (i : Nat) (hi : i < n)
    (he : erry i ≤ 0) :
    (determinant (CalculateWeights erry (Make2DArray n n) n 2) n).1 = 0 ∧
      ∀ (sqrt : K → K) (tValueStudent : K → K → K) (x y : Vec K) (k : Nat)
        (fixedinter : Bool) (c alpha : K),
        (mainRun sqrt tValueStudent x y erry n k fixedinter 2 c alpha = Outcome.orderTooHigh ∨
          mainRun sqrt tValueStudent x y erry n k fixedinter 2 c alpha
            = Outcome.singularWeights) ∧
        (¬ k > nstarOf n fixedinter →
          mainRun sqrt tValueStudent x y erry n k fixedinter 2 c alpha
            = Outcome.singularWeights) := by
  have hdet : (determinant (CalculateWeights erry (Make2DArray n n) n 2) n).1 = 0 := by
    apply determinant_diag_zero _ n _ i hi
    · rw [CalculateWeights_apply, if_pos ⟨rfl, hi, Or.inr (Or.inr rfl)⟩]
      simp [not_lt.mpr he]
    · intro r c _ _ hrc
      rw [CalculateWeights_apply, if_neg (fun h => hrc h.1)]
      rfl
  refine ⟨hdet, ?_⟩
  intro sqrt tValueStudent x y k fixedinter c alpha
  unfold mainRun
  by_cases hk : k > nstarOf n fixedinter
  · simp [hk]
  · simp [hk, hdet]

/-- A witness of C8: a single point whose error is `0`. -/
theorem singular_weight_guard_witness :
    (0 < 1 ∧ (0 : ℚ) ≤ 0) ∧
      (determinant (CalculateWeights (fun _ => (0 : ℚ)) (Make2DArray 1 1) 1 2) 1).1 = 0 :=
  ⟨⟨by norm_num, le_refl _⟩,
    (singular_weight_guard 1 (fun _ => (0 : ℚ)) 0 (by norm_num) (le_refl _)).1⟩

/-- C9, the run on an empty data set: with `N = 0`, an adjustable intercept
and order `k = 4`, `nstar = n - 1` wraps to `2 ^ 64 - 1`, the order guard
`k > nstar` does not reject, and `main` goes on to the fit. -/
theorem empty_data_not_rejected (sqrt : K → K) (tValueStudent : K → K → K)
    (x y erry : Vec K) (c alpha : K) :
    nstarOf 0 false = 2 ^ 64 - 1 ∧
      ∃ r, mainRun sqrt tValueStudent x y erry 0 4 false 0 c alpha = Outcome.fitted r := by
  have hn : nstarOf 0 false = 2 ^ 64 - 1 := by
    simp [nstarOf, subSize, sizeMod]
  refine ⟨hn, ?_⟩
  unfold mainRun
  rw [hn]
  simp [determinant, detLoop]

/-- C10: when the degree `k` equals `nstar` (`N = k + 1` points with an
adjustable intercept, `N = k` points with a fixed one) and the matrix that
`PolyFit` inverts has a non-zero determinant, the fitted coefficients give
`CalculateRSS = 0`, and `main` leaves `SE` and the critical t value at their
initial value `0`: the test `(nstar - k) > 0` fails, so that neither
`RSS / (nstar - k)` nor the Student quantile is evaluated. -/
theorem degenerate_exact_fit (sqrt : K → K) (tValueStudent : K → K → K) (x y : Vec K)
    (n k : Nat) (hk : k + 1 < 2 ^ 64) (fixedinter : Bool) (c alphaval : K)
    (beta0 : Vec K) (W inv0 : Mat K)
    (hn : n = if fixedinter then k else k + 1)
    (hdet : (toMatrix (gramMatrix x n k fixedinter W).1 (k + 1) (k + 1)).det ≠ 0) :
    nstarOf n fixedinter = k ∧
      CalculateRSS x y (PolyFit x y n k fixedinter c beta0 W inv0).1 W n (k + 1) = 0 ∧
      (∀ RSS : K,
        standardError sqrt tValueStudent RSS alphaval (nstarOf n fixedinter) k = (0, 0)) ∧
      (∀ (erry : Vec K) (wtype : Int) (r : Report K),
        mainRun sqrt tValueStudent x y erry n k fixedinter wtype c alphaval = Outcome.fitted r →
          r.SE = 0 ∧ r.tstudentval = 0) := by
  have hns : nstarOf n fixedinter = k := by
    unfold nstarOf
    cases fixedinter
    · simp only [Bool.false_eq_true, if_false] at hn ⊢
      rw [hn, subSize_eq (k + 1) 1 (by omega) hk]
      omega
    · simp only [if_true] at hn ⊢
      exact hn
  have hse : ∀ RSS : K,
      standardError sqrt tValueStudent RSS alphaval (nstarOf n fixedinter) k = (0, 0) := by
    intro RSS
    unfold standardError
    rw [hns, subSize_eq k k (le_refl _) (by omega), if_neg (by omega)]
  refine ⟨hns, ?_, hse, ?_⟩
  · cases fixedinter
    · simp only [Bool.false_eq_true, if_false] at hn
      subst hn
      exact exact_fit_adjustable x y k hk c beta0 W inv0 hdet
    · simp only [if_true] at hn
      subst hn
      exact exact_fit_fixed x y n hk c beta0 W inv0 hdet
  · intro erry wtype r h
    unfold mainRun at h
    simp only [] at h
    split_ifs at h
    injection h with h
    rw [← h]
    simp only []
    rw [hse]
    exact ⟨rfl, rfl⟩

/-- A witness of C10: two points and a line, adjustable intercept. -/
theorem degenerate_exact_fit_witness :
    CalculateRSS (listVec [0, 1]) (listVec [1, 3])
        (PolyFit (listVec [0, 1]) (listVec [1, 3]) 2 1 false (0 : ℚ) (fun _ => 0)
          unitWeights (Make2DArray 2 2)).1 unitWeights 2 (1 + 1) = 0 :=
  (degenerate_exact_fit (fun v => v) (fun _ _ => 0) (listVec [0, 1]) (listVec [1, 3]) 2 1
    (by norm_num) false (0 : ℚ) 0 (fun _ => 0) unitWeights (Make2DArray 2 2) rfl
    (by
      rw [gram_false_eq]
      simp [Matrix.det_fin_two, Matrix.mul_apply, Fin.sum_univ_two, vandermondeX, toMatrix,
        listVec, unitWeights])).2.1

/-- C11, as amended: for `N ≥ k + 1` points, the adjusted R² that `main`
obtains from `CalculateR2Adj` (called with `n = k + 1`) is
`1 - (dftot / dferr) * RSS / TSS` with `dferr = N - (k + 1)` and
`dftot = N - 1` when the intercept is adjustable, and `dferr = N - k` and
`dftot = N` when it is fixed. -/
theorem adjusted_r2 (x y a : Vec K) (W : Mat K) (fixed : Bool) (N k : Nat)
    (hN : k + 1 ≤ N) (hN64 : N < 2 ^ 64) :
    CalculateR2Adj x y a W fixed N (k + 1)
      = 1 - ((if fixed then (N : K) else (N : K) - 1)
            / (if fixed then (N : K) - (k : K) else (N : K) - ((k : K) + 1)))
          * CalculateRSS x y a W N (k + 1) / CalculateTSS y W fixed N :=
  CalculateR2Adj_eq x y a W fixed N k hN hN64

/-- A witness of C11 as amended: three points, degree one. -/
theorem adjusted_r2_witness :
    (1 + 1 ≤ 3 ∧ 3 < 2 ^ 64) ∧
      CalculateR2Adj (listVec [0, 1, 2]) (listVec [1, -1, 0]) (fun _ => (0 : ℚ)) unitWeights
          false 3 (1 + 1)
        = 1 - ((if false then ((3 : Nat) : ℚ) else ((3 : Nat) : ℚ) - 1)
              / (if false then ((3 : Nat) : ℚ) - ((1 : Nat) : ℚ)
                  else ((3 : Nat) : ℚ) - (((1 : Nat) : ℚ) + 1)))
            * CalculateRSS (listVec [0, 1, 2]) (listVec [1, -1, 0]) (fun _ => (0 : ℚ))
                unitWeights 3 (1 + 1)
            / CalculateTSS (listVec [1, -1, 0]) unitWeights false 3 :=
  ⟨⟨by norm_num, by norm_num⟩,
    adjusted_r2 (listVec [0, 1, 2]) (listVec [1, -1, 0]) (fun _ => (0 : ℚ)) unitWeights false
      3 1 (by norm_num) (by norm_num)⟩

/-- C11 fails as stated: for `N = 3` points, degree `k = 1` and an adjustable
intercept, with `RSS = TSS = 2`, `CalculateR2Adj` returns
`1 - (2 / 1) * 2 / 2 = -1`, and not `1 - (2 / 2) * 2 / 2 = 0`, the value for
`dferr = N - k`. -/
theorem adjusted_r2_counterexample :
    CalculateR2Adj (listVec [0, 1, 2]) (listVec [1, -1, 0]) (fun _ => (0 : ℚ)) unitWeights
        false 3 (1 + 1) = -1 ∧
      1 - (((3 : ℚ) - 1) / ((3 : ℚ) - 1))
          * CalculateRSS (listVec [0, 1, 2]) (listVec [1, -1, 0]) (fun _ => (0 : ℚ))
              unitWeights 3 (1 + 1)
          / CalculateTSS (listVec [1, -1, 0]) unitWeights false 3 = 0 := by
  have hrss : CalculateRSS (listVec [0, 1, 2]) (listVec [1, -1, 0]) (fun _ => (0 : ℚ))
      unitWeights 3 (1 + 1) = 2 := by
    rw [CalculateRSS_eq]
    simp [Finset.sum_range_succ, unitWeights, listVec]
    norm_num
  have htss : CalculateTSS (listVec [(1 : ℚ), -1, 0]) unitWeights false 3 = 2 := by
    rw [CalculateTSS_false_eq]
    simp [Finset.sum_range_succ, unitWeights, listVec]
    norm_num
  constructor
  · rw [CalculateR2Adj_eq _ _ _ _ _ 3 1 (by norm_num) (by norm_num), hrss, htss]
    norm_num
  · rw [hrss, htss]
    norm_num

/-- C12, the grid that the code writes: `WriteCIBands` writes 101 lines, and
the abscissa of line `i` is `x[0] + (x[n - 1] - x[0]) / 100 * i`: the grid
runs from the first to the last sample, whatever their order. For
`x = [3, 1, 2]` it starts at `3` and ends at `2`, while the smallest and the
largest sample are `1` and `3`. -/
theorem band_grid_first_to_last (sqrt : K → K) (x coefbeta : Vec K) (XTXInv : Mat K)
    (tstudentval SE : K) (n k : Nat) :
    (WriteCIBands sqrt x coefbeta XTXInv tstudentval SE n k).length = 101 ∧
      (WriteCIBands sqrt x coefbeta XTXInv tstudentval SE n k).map BandRow.x
        = (List.range 101).map
            (fun i => x 0 + (x (subSize n 1) - x 0) / 100 * (i : K)) ∧
      ((WriteCIBands (fun v => v) (listVec [3, 1, 2]) (fun _ => (0 : ℚ)) (fun _ _ => 0) 0 0
          3 0).map BandRow.x).head? = some 3 ∧
      ((WriteCIBands (fun v => v) (listVec [3, 1, 2]) (fun _ => (0 : ℚ)) (fun _ _ => 0) 0 0
          3 0).map BandRow.x).getLast? = some 2 := by
  refine ⟨?_, ?_, ?_, ?_⟩
  · rw [WriteCIBands_spec]
    simp
  · rw [WriteCIBands_spec, List.map_map]
    rfl
  · rw [WriteCIBands_spec, List.map_map, show (101 : Nat) = 100 + 1 from rfl,
      List.range_succ_eq_map, List.map_cons, List.head?_cons]
    have h : subSize 3 1 = 2 := subSize_eq 3 1 (by norm_num) (by norm_num)
    simp [bandRow, h, listVec]
  · rw [WriteCIBands_spec, List.map_map, List.range_succ]
    have h : subSize 3 1 = 2 := subSize_eq 3 1 (by norm_num) (by norm_num)
    simp [bandRow, h, listVec]

/-- C13, the value that the code writes: the predicted value of a line of
`WriteCIBands` is `calculatePoly(x1, coefbeta, k + 1)`, the sum of
`coefbeta[j] * x1 ^ j` for `j = 0 .. k + 1`: it reads `coefbeta[k + 1]`, one
entry past the `k + 1` coefficients. For `k = 0`, `coefbeta = [2]` followed
in memory by `1`, and `x1 = 1`, it is `3`, not `2`. -/
theorem band_prediction_reads_past_end (sqrt : K → K) (x coefbeta : Vec K) (XTXInv : Mat K)
    (tstudentval SE : K) (n k i : Nat) :
    (bandRow sqrt x coefbeta XTXInv tstudentval SE n k i).y
        = (∑ j in Finset.range (k + 1),
            coefbeta j * (bandRow sqrt x coefbeta XTXInv tstudentval SE n k i).x ^ j)
          + coefbeta (k + 1)
            * (bandRow sqrt x coefbeta XTXInv tstudentval SE n k i).x ^ (k + 1) ∧
      calculatePoly (1 : ℚ) (listVec [2, 1]) (0 + 1) = 3 := by
  constructor
  · show calculatePoly _ coefbeta (k + 1) = _
    rw [calculatePoly_eq, Finset.sum_range_succ]
    rfl
  · rw [calculatePoly_eq]
    simp [Finset.sum_range_succ, listVec]
    norm_num

/-- C14, as amended: the design matrix that `PolyFit` builds has
`X[i][j] = x_i ^ j` for `j = begin .. k`, with `begin = 1` when the intercept
is fixed and `0` otherwise; when `fixedinter = true` column 0 of `X` is left
at `0`, and the fixed value is removed from the response vector
(`Y[i] = y[i] - fixedinterval`). -/
theorem design_matrix_fixed (x y : Vec K) (n k : Nat) (fixedinter : Bool) (c : K)
    (i j : Nat) (hi : i < n) (hj : j < k + 1) :
    designMatrix x n k fixedinter i j
        = (if fixedinter = true ∧ j = 0 then 0 else x i ^ j) ∧
      responseVector y n fixedinter c i = (if fixedinter then y i - c else y i) := by
  constructor
  · rw [designMatrix_apply]
    cases fixedinter
    · simp [hi, hj]
    · by_cases h0 : j = 0
      · simp [h0]
      · have h1 : 1 ≤ j := by omega
        simp [hi, hj, h0, h1]
  · rw [responseVector_apply, if_pos hi]

/-- A witness of C14 as amended: one point, degree one, fixed intercept. -/
theorem design_matrix_fixed_witness :
    (0 < 1 ∧ 1 < 1 + 1) ∧
      designMatrix (fun _ => (2 : ℚ)) 1 1 true 0 1
        = (if true = true ∧ 1 = 0 then 0 else (2 : ℚ) ^ 1) :=
  ⟨⟨by norm_num, by norm_num⟩,
    (design_matrix_fixed (fun _ => (2 : ℚ)) (fun _ => (0 : ℚ)) 1 1 true 0 0 1
      (by norm_num) (by norm_num)).1⟩

/-- C14 fails as stated: with a fixed intercept, one point `x_0 = 2` and
degree `1`, the entry `X[0][0]` is `0` and not `x_0 ^ 0 = 1`. -/
theorem design_matrix_fixed_counterexample :
    designMatrix (fun _ => (2 : ℚ)) 1 1 true 0 0 = 0 ∧ (2 : ℚ) ^ 0 = 1 := by
  constructor
  · rw [designMatrix_apply]
    simp
  · norm_num

/-- C15: when `PolyFit` is called with `fixedinter = true` and the modified
Gram matrix (`XTWX` with the entry `[0][0]` set to `1`, `X` being the design
matrix that `PolyFit` builds) has a non-zero determinant, the matrix
`XTWXInv` returned is the inverse of that matrix, and its entry `[0][0]` is
`1`. -/
theorem gram_inverse_fixed (x y : Vec K) (n k : Nat) (hk : k + 1 < 2 ^ 64) (c : K)
    (beta0 : Vec K) (W inv0 : Mat K)
    (hdet : (toMatrix (gramMatrix x n k true W).1 (k + 1) (k + 1)).det ≠ 0) :
    (∀ l m : Fin (k + 1), toMatrix (gramMatrix x n k true W).1 (k + 1) (k + 1) l m
        = if l = 0 ∧ m = 0 then 1
          else ((toMatrix (designMatrix x n k true) n (k + 1)).transpose * toMatrix W n n
            * toMatrix (designMatrix x n k true) n (k + 1)) l m) ∧
      toMatrix (PolyFit x y n k true c beta0 W inv0).2 (k + 1) (k + 1)
        * toMatrix (gramMatrix x n k true W).1 (k + 1) (k + 1) = 1 ∧
      toMatrix (gramMatrix x n k true W).1 (k + 1) (k + 1)
        * toMatrix (PolyFit x y n k true c beta0 W inv0).2 (k + 1) (k + 1) = 1 ∧
      (PolyFit x y n k true c beta0 W inv0).2 0 0 = 1 := by
  have hinv := cofactor_mul (gramMatrix x n k true W).1 inv0 (k + 1) (by omega) hk hdet
  have hinv2 := (Matrix.mul_eq_one_comm).mp hinv
  rw [PolyFit_snd]
  refine ⟨fun l m => gramMatrix_fst_true x n k W l m, hinv, hinv2, ?_⟩
  have h := congrFun (congrFun hinv2 0) 0
  rw [Matrix.mul_apply, Matrix.one_apply_eq, Fin.sum_univ_succ, gram_true_row_zero,
    if_pos rfl, one_mul] at h
  rw [Finset.sum_eq_zero, add_zero] at h
  · exact h
  · intro m _
    rw [gram_true_row_zero, if_neg (Fin.succ_ne_zero m), zero_mul]

/-- A witness of C15: two points `x = [1, 2]`, degree one, unit weights. -/
theorem gram_inverse_fixed_witness :
    (PolyFit (listVec [1, 2]) (listVec [1, 3]) 2 1 true (0 : ℚ) (fun _ => 0) unitWeights
      (Make2DArray 2 2)).2 0 0 = 1 :=
  (gram_inverse_fixed (listVec [1, 2]) (listVec [1, 3]) 2 1 (by norm_num) (0 : ℚ)
    (fun _ => 0) unitWeights (Make2DArray 2 2)
    (by
      rw [Matrix.det_fin_two]
      simp only [gramMatrix_fst_true]
      simp [Matrix.mul_apply, Fin.sum_univ_two, toMatrix, designMatrix_apply, listVec,
        unitWeights]
      norm_num)).2.2.2

/-- C20: for a diagonal weight matrix `W` with a strictly positive diagonal
such that the modified Gram matrix has a non-zero determinant, the vector
`beta` written by `PolyFit` with `fixedinter = true` and fixed value `c`
minimises `CalculateRSS(x, y, b, W, n, k + 1)` over all coefficient vectors
`b` with `b[0] = c` (and has `beta[0] = c` itself). -/
theorem polyfit_fixed_minimises_rss (x y : Vec K) (n k : Nat) (hk : k + 1 < 2 ^ 64) (c : K)
    (beta0 : Vec K) (W inv0 : Mat K)
    (hdiag : ∀ i j, i < n → j < n → i ≠ j → W i j = 0)
    (hpos : ∀ i, i < n → 0 < W i i)
    (hdet : (toMatrix (gramMatrix x n k true W).1 (k + 1) (k + 1)).det ≠ 0)
    (b : Vec K) (hb : b 0 = c) :
    (PolyFit x y n k true c beta0 W inv0).1 0 = c ∧
      CalculateRSS x y (PolyFit x y n k true c beta0 W inv0).1 W n (k + 1)
        ≤ CalculateRSS x y b W n (k + 1) := by
  have h0 : (PolyFit x y n k true c beta0 W inv0).1 0 = c := by
    rw [PolyFit_fst_true, if_pos rfl]
  refine ⟨h0, ?_⟩
  rw [CalculateRSS_fixed x y _ W n k c h0, CalculateRSS_fixed x y b W n k c hb]
  have hne := normal_equations_fixed x y n k hk c beta0 W inv0 hdet
  rw [toMatrix_diagonal W n hdiag] at hne
  have hcongr := mulVec_fixed_congr x n k
    (toVector (PolyFit x y n k true c beta0 W inv0).1 (k + 1))
    (toVector (MatVectMul (k + 1) (k + 1)
      (cofactor (gramMatrix x n k true W).1 inv0 (k + 1)).1
      (MatVectMul (k + 1) n (gramMatrix x n k true W).2
        (fun m => if m < n then y m - c else 0) (fun _ => 0)) beta0) (k + 1))
    (fun j => by
      simp only [toVector, Fin.val_succ]
      rw [PolyFit_fst_true, if_neg (by omega)])
  rw [hcongr]
  exact wls_min (toMatrix (designMatrix x n k true) n (k + 1)) (fun i : Fin n => W i i)
    (fun i => le_of_lt (hpos i i.2)) (fun i : Fin n => y i - c) _ (toVector b (k + 1)) hne

/-- A witness of C20: three points, degree one, unit weights, intercept `0`. -/
theorem polyfit_fixed_minimises_rss_witness :
    CalculateRSS (listVec [1, 2, 3]) (listVec [1, 3, 2])
        (PolyFit (listVec [1, 2, 3]) (listVec [1, 3, 2]) 3 1 true (0 : ℚ) (fun _ => 0)
          unitWeights (Make2DArray 2 2)).1 unitWeights 3 (1 + 1)
      ≤ CalculateRSS (listVec [1, 2, 3]) (listVec [1, 3, 2]) (listVec [0, 5]) unitWeights 3
          (1 + 1) :=
  (polyfit_fixed_minimises_rss (listVec [1, 2, 3]) (listVec [1, 3, 2]) 3 1 (by norm_num)
    (0 : ℚ) (fun _ => 0) unitWeights (Make2DArray 2 2)
    (fun i j _ _ h => by simp [unitWeights, h])
    (fun i _ => by simp [unitWeights])
    (by
      rw [Matrix.det_fin_two]
      simp only [gramMatrix_fst_true]
      simp [Matrix.mul_apply, Fin.sum_univ_three, Fin.sum_univ_two, toMatrix,
        designMatrix_apply, listVec, unitWeights]
      norm_num)
    (listVec [0, 5]) (by simp [listVec])).2

/-- C16, the value that the code returns at `a = 1e17`, `b = 0.5`: in `double`
arithmetic `a + 1.0`, `a + b` and `a + b + 2.0` all round to `a`, so the
threshold `(a + 1.0) / (a + b + 2.0)` is `1` and `x = 1` is not reflected;
the factor `front` is `exp(-inf) / a = 0` and the call returns `0` (or the
sentinel), not `1`. At `x = 0` the call returns `0`. -/
theorem incbeta_boundary_rounding (lgamma exp log : ℚ → ℚ) (depth : Nat) :
    binary64 (binary64 (10 ^ 17 + 1) / binary64 (binary64 (10 ^ 17 + 1 / 2) + 2)) = 1 ∧
      (incbetaRounded binary64 lgamma exp log (depth + 1) (10 ^ 17) (1 / 2) 1
          = some (Dbl.fin 0) ∨
        incbetaRounded binary64 lgamma exp log (depth + 1) (10 ^ 17) (1 / 2) 1
          = some Dbl.pinf) ∧
      incbetaRounded binary64 lgamma exp log (depth + 1) (10 ^ 17) (1 / 2) 1
        ≠ some (Dbl.fin 1) ∧
      incbetaRounded binary64 lgamma exp log (depth + 1) (10 ^ 17) (1 / 2) 0
        = some (Dbl.fin 0) := by
  have hno : ¬ (1 : ℚ)
      > binary64 (binary64 (10 ^ 17 + 1) / binary64 (binary64 (10 ^ 17 + 1 / 2) + 2)) := by
    rw [big_threshold]
    exact lt_irrefl _
  have h := incbetaRounded_one_direct binary64 lgamma exp log depth (10 ^ 17) (1 / 2)
    (by norm_num) (by norm_num) hno
  refine ⟨big_threshold, h, ?_, ?_⟩
  · rcases h with h | h
    · rw [h]
      intro e
      have := Dbl.fin.inj (Option.some.inj e)
      norm_num at this
    · rw [h]
      intro e
      exact Dbl.noConfusion (Option.some.inj e)
  · apply incbetaRounded_zero binary64 lgamma exp log depth (10 ^ 17) (1 / 2)
      (by norm_num) (by norm_num)
    rw [big_threshold]
    norm_num

/-- C17, as amended: `cdfStudent(df, 0)` is `0` for every `df > 0` (a
`double`) such that `0.5 * df` is positive and the threshold
`(a + 1.0) / (a + 0.5 + 2.0)` of the call `incbeta(a, 0.5, 1.0)`,
`a = 0.5 * df`, rounds below `1`; `fl` is the rounding of the arithmetic,
which keeps `0`, `1` and the sign. In exact arithmetic these are all
`df > 0`. -/
theorem cdfStudent_zero (fl lgamma exp log : K → K) (depth : Nat) (df : K)
    (hdf : 0 < df) (h0 : fl 0 = 0) (h1 : fl 1 = 1) (hnn : ∀ q, 0 ≤ q → 0 ≤ fl q)
    (hdfr : fl df = df) (ha : 0 < fl (0.5 * df))
    (hthr : fl (fl (fl (0.5 * df) + 1) / fl (fl (fl (0.5 * df) + 0.5) + 2)) < 1) :
    cdfStudentRounded fl lgamma exp log (depth + 2) df 0 = some (Dbl.fin 0) :=
  cdfStudentRounded_zero fl lgamma exp log depth df hdf h0 h1 hnn hdfr ha hthr

/-- A witness of C17 as amended: one degree of freedom in `double`
arithmetic. -/
theorem cdfStudent_zero_witness :
    ((0 : ℚ) < 1 ∧ binary64 0 = 0 ∧ binary64 1 = 1 ∧ (0 : ℚ) < binary64 (0.5 * 1)) ∧
      cdfStudentRounded binary64 (fun v => v) (fun v => v) (fun v => v) (0 + 2) 1 0
        = some (Dbl.fin 0) :=
  ⟨⟨by norm_num, binary64_zero, binary64_one, one_df_positive⟩,
    (cdfStudent_zero binary64 (fun v => v) (fun v => v) (fun v => v) 0 1 (by norm_num)
      binary64_zero binary64_one binary64_nonneg binary64_one one_df_positive one_df_below)⟩

/-- C17 fails as stated: with one degree of freedom `cdfStudent(1, 0)` is `0`
in `double` arithmetic, for every choice of the library functions, and `0`
is not `0.5`. -/
theorem cdfStudent_zero_counterexample :
    (∀ lgamma exp log : ℚ → ℚ,
        cdfStudentRounded binary64 lgamma exp log 2 1 0 = some (Dbl.fin 0)) ∧
      (Dbl.fin (0 : ℚ) ≠ Dbl.fin 0.5) := by
  constructor
  · intro lgamma exp log
    exact cdfStudentRounded_zero binary64 lgamma exp log 0 1 (by norm_num) binary64_zero
      binary64_one binary64_nonneg binary64_one one_df_positive one_df_below
  · intro h
    have := Dbl.fin.inj h
    norm_num at this

/-- C18, as amended: for `x` outside `[0, 1]`, `incbeta` returns the sentinel
`1.0 / 0.0 = +inf`, whatever `a` and `b` are; for `x` in `[0, 1]` and `a ≤ 0`
or `b ≤ 0` it returns the ordinary value `0` (after a printed warning). -/
theorem incbeta_domain (lgamma exp log : K → K) (a b x : K) :
    ((x < 0 ∨ x > 1) → incbeta lgamma exp log a b x = Dbl.pinf) ∧
      (0 ≤ x → x ≤ 1 → (a ≤ 0 ∨ b ≤ 0) → incbeta lgamma exp log a b x = Dbl.fin 0) :=
  ⟨incbeta_out_of_range lgamma exp log a b x, incbeta_nonpos lgamma exp log a b x⟩

/-- A witness of C18 as amended: `x = 2` is out of range. -/
theorem incbeta_domain_witness :
    ((2 : ℚ) < 0 ∨ (2 : ℚ) > 1) ∧
      incbeta (fun v => v) (fun v => v) (fun v => v) (1 : ℚ) 1 2 = Dbl.pinf :=
  ⟨Or.inr (by norm_num),
    (incbeta_domain (fun v => v) (fun v => v) (fun v => v) (1 : ℚ) 1 2).1
      (Or.inr (by norm_num))⟩

/-- C18 fails as stated: `incbeta(0, 1, 0.5)`, a call with `x` in `[0, 1]` and
`a ≤ 0`, returns `0`, the value that the valid call `incbeta(1, 1, 0)` returns
too. -/
theorem incbeta_domain_counterexample :
    (∀ lgamma exp log : ℚ → ℚ, incbeta lgamma exp log 0 1 0.5 = Dbl.fin 0) ∧
      (∀ lgamma exp log : ℚ → ℚ, incbeta lgamma exp log 1 1 0 = Dbl.fin 0) := by
  constructor
  · intro lgamma exp log
    exact incbeta_nonpos lgamma exp log 0 1 0.5 (by norm_num) (by norm_num)
      (Or.inl (le_refl _))
  · intro lgamma exp log
    exact incbeta_zero lgamma exp log 1 1 (by norm_num) (by norm_num)

/-- C19: for `alpha > 0` and `beta > 0`, a value `r` returned by `invincbeta`
for the target `y` is `0` if `y ≤ 0`, `1` if `y ≥ 1`, and otherwise lies in
`[0, 1]` with `incbeta(alpha, beta, r)` finite and
`|incbeta(alpha, beta, r) - y| ≤ 1e-8`. -/
theorem invincbeta_post (lgamma exp log : K → K) (fuel : Nat) (y alpha beta r : K)
    (ha : 0 < alpha) (hb : 0 < beta)
    (h : invincbeta lgamma exp log fuel y alpha beta = some r) :
    (y ≤ 0 → r = 0) ∧ (1 ≤ y → r = 1) ∧
      (0 < y → y < 1 → 0 ≤ r ∧ r ≤ 1 ∧
        ∃ u, incbeta lgamma exp log alpha beta r = Dbl.fin u ∧ |u - y| ≤ 1 / 10 ^ 8) := by
  unfold invincbeta at h
  refine ⟨?_, ?_, ?_⟩
  · intro hy
    rw [if_pos hy] at h
    exact (Option.some.inj h).symm
  · intro hy
    rw [if_neg (by linarith), if_pos hy] at h
    exact (Option.some.inj h).symm
  · intro hy0 hy1
    rw [if_neg (not_le.mpr hy0), if_neg (not_le.mpr hy1), if_neg (not_le.mpr ha),
      if_neg (not_le.mpr hb)] at h
    have h05 : (0.5 : K) = 1 / 2 := by norm_num
    obtain ⟨hr0, hr1, hex⟩ := bisection_post (incbeta lgamma exp log alpha beta) y
      (1 / 10 ^ 8) fuel 0.5 0 1 _ r (le_refl _) (by rw [h05]; norm_num)
      (by rw [h05]; norm_num) (le_refl _) rfl h
    refine ⟨hr0, hr1, ?_⟩
    rcases incbeta_not_nan lgamma exp log alpha beta r ha hb hr0 hr1 with hp | hn | ⟨u, hu⟩
    · rw [hp] at hex
      simp [Dbl.sub, Dbl.neg, Dbl.add, Dbl.absGt] at hex
    · rw [hn] at hex
      simp [Dbl.sub, Dbl.neg, Dbl.add, Dbl.absGt] at hex
    · refine ⟨u, hu, ?_⟩
      rw [hu] at hex
      simpa [Dbl.sub, Dbl.neg, Dbl.add, Dbl.absGt, sub_eq_add_neg] using hex

/-- A witness of C19: with `alpha = beta = 1`, where `front` is `1 / 4` at
`x = 0.5`, the first midpoint already has `incbeta(1, 1, 0.5) = 0.5`, and
`invincbeta(0.5, 1, 1)` returns `0.5`. -/
theorem invincbeta_post_witness :
    ((0 : ℚ) < 1 ∧
      invincbeta (fun v => v) (fun _ => 1 / 4) (fun v => v) 1 (1 / 2) (1 : ℚ) 1
        = some (1 / 2)) ∧
      (0 ≤ (1 / 2 : ℚ) ∧ (1 / 2 : ℚ) ≤ 1 ∧
        ∃ u, incbeta (fun v => v) (fun _ => 1 / 4) (fun v => v) (1 : ℚ) 1 (1 / 2) = Dbl.fin u ∧
          |u - 1 / 2| ≤ 1 / 10 ^ 8) := by
  have hinc : incbeta (fun v => v) (fun _ => 1 / 4) (fun v => v) (1 : ℚ) 1 0.5
      = Dbl.fin (1 / 2) := by
    rw [incbeta_direct _ _ _ _ _ _ (by norm_num) (by norm_num) (by norm_num) (by norm_num)
      (by norm_num)]
    have hf : incbetaFront (fun v => v) (fun _ => 1 / 4) (fun v => v) (1 : ℚ) 1 0.5
        = Dbl.fin (1 / 4) := by
      unfold incbetaFront
      norm_num [Dbl.log, Dbl.mul, Dbl.add, Dbl.sub, Dbl.neg, Dbl.exp, Dbl.div]
    have hl : ∀ rem : Nat,
        lentzLoop (1 : ℚ) 1 0.5 (Dbl.fin (1 / 4)) (rem + 1 + 1 + 1) 0 1 1 0
          = Dbl.fin (1 / 2) := by
      intro rem
      rw [lentzLoop]
      norm_num [lentzNumerator, TINY, STOP, abs_lt]
      rw [lentzLoop]
      norm_num [lentzNumerator, TINY, STOP, abs_lt]
      rw [lentzLoop]
      norm_num [lentzNumerator, TINY, STOP, abs_lt, Dbl.mul]
    rw [hf]
    exact hl 198
  have hrun : invincbeta (fun v => v) (fun _ => 1 / 4) (fun v => v) 1 (1 / 2) (1 : ℚ) 1
      = some (1 / 2) := by
    unfold invincbeta
    rw [if_neg (by norm_num), if_neg (by norm_num), if_neg (by norm_num),
      if_neg (by norm_num), hinc]
    norm_num [bisection, Dbl.sub, Dbl.neg, Dbl.add, Dbl.absGt]
  have h05 : (0.5 : ℚ) = 1 / 2 := by norm_num
  exact ⟨⟨by norm_num, hrun⟩,
    (invincbeta_post (fun v => v) (fun _ => 1 / 4) (fun v => v) 1 (1 / 2) (1 : ℚ) 1 (1 / 2)
      (by norm_num) (by norm_num) hrun).2.2 (by norm_num) (by norm_num)⟩

/-- C21, the recursion that the code makes at `a = 0.1`, `b = 2.2`,
`x = 0.2558139534883721` (the `double`s `reflA`, `reflB`, `reflX`): in
`double` arithmetic `x` is above the threshold `(a + 1.0) / (a + b + 2.0)`,
the reflected argument `1.0 - x` is above the threshold
`(b + 1.0) / (b + a + 2.0)` of the reflected call, and `1.0 - (1.0 - x)` is
`x` again, so the calls nest without end: whatever the depth allowed,
`incbeta` does not return. -/
theorem incbeta_reflection_loops (lgamma exp log : ℚ → ℚ) (depth : Nat) :
    binary64 (1 / 10) = reflA ∧ binary64 (11 / 5) = reflB ∧
      binary64 (2558139534883721 / 10000000000000000) = reflX ∧
      reflX > binary64 (binary64 (reflA + 1) / binary64 (binary64 (reflA + reflB) + 2)) ∧
      binary64 (1 - reflX)
        > binary64 (binary64 (reflB + 1) / binary64 (binary64 (reflB + reflA) + 2)) ∧
      binary64 (1 - binary64 (1 - reflX)) = reflX ∧
      incbetaRounded binary64 lgamma exp log depth reflA reflB reflX = none := by
  refine ⟨binary64_tenth, binary64_two_two, binary64_x_loop, refl_first_test, refl_second_test,
    refl_back, ?_⟩
  exact (incbetaRounded_cycle binary64 lgamma exp log reflA reflB reflX (by norm_num [reflA])
    (by norm_num [reflB]) (by norm_num [reflX]) (by norm_num [reflX])
    refl_argument.1 refl_argument.2 refl_first_test refl_second_test refl_back depth).1

/-- C23, as amended: for `1 ≤ n < 2 ^ 64` points the order guard of `main`
lets the order `k` through exactly when `k ≤ n - 1` with an adjustable
intercept and `k ≤ n` with a fixed one; the two bounds are the other way
round in the message printed on rejection. -/
theorem max_order_accepted (sqrt : K → K) (tValueStudent : K → K → K) (x y erry : Vec K)
    (n k : Nat) (hn1 : 1 ≤ n) (hn : n < 2 ^ 64) (fixedinter : Bool) (wtype : Int)
    (c alpha : K) :
    mainRun sqrt tValueStudent x y erry n k fixedinter wtype c alpha ≠ Outcome.orderTooHigh
      ↔ k ≤ (if fixedinter then n else n - 1) := by
  rw [Ne, order_guard_nonempty sqrt tValueStudent x y erry n k hn1 hn fixedinter wtype c alpha]
  exact not_lt

/-- A witness of C23 as amended: with two points and an adjustable intercept
the order `1` is accepted. -/
theorem max_order_accepted_witness :
    (1 ≤ 2 ∧ 2 < 2 ^ 64) ∧
      (mainRun (fun v => v) (fun _ _ => 0) (listVec [0, 1]) (listVec [1, 3]) (fun _ => (1 : ℚ))
          2 1 false 0 0 (1 / 20) ≠ Outcome.orderTooHigh
        ↔ 1 ≤ (if false = true then 2 else 2 - 1)) :=
  ⟨⟨by norm_num, by norm_num⟩,
    max_order_accepted (fun v => v) (fun _ _ => 0) (listVec [0, 1]) (listVec [1, 3])
      (fun _ => (1 : ℚ)) 2 1 (by norm_num) (by norm_num) false 0 0 (1 / 20)⟩

/-- C23 as stated fails: with `n = 2` points the order `k = 2 = n` is
rejected when the intercept is adjustable, and it is not rejected when the
intercept is fixed, although `n - 1 = 1` would then be the largest order. -/
theorem max_order_accepted_counterexample :
    mainRun (fun v => v) (fun _ _ => 0) (listVec [0, 1]) (listVec [1, 3]) (fun _ => (1 : ℚ))
        2 2 false 0 0 (1 / 20) = Outcome.orderTooHigh ∧
      mainRun (fun v => v) (fun _ _ => 0) (listVec [0, 1]) (listVec [1, 3]) (fun _ => (1 : ℚ))
        2 2 true 0 0 (1 / 20) ≠ Outcome.orderTooHigh := by
  constructor
  · rw [order_guard_nonempty _ _ _ _ _ 2 2 (by norm_num) (by norm_num)]
    simp
  · rw [Ne, order_guard_nonempty _ _ _ _ _ 2 2 (by norm_num) (by norm_num)]
    simp

/-- C24, the read that the code makes: `WriteCIBands` calls
`calculatePoly(x1, coefbeta, k + 1)`, whose loop runs `i` from `0` to `k + 1`
included; on a coefficient array of length `k + 1` the read `coefbeta[k + 1]`
is out of bounds, so the checked evaluation is `none` for every `x1`, while
the call with last argument `k` stays in bounds. For `coefbeta = [2]` and
`k = 0` the checked call of `WriteCIBands` is `none`. -/
theorem band_poly_read_out_of_bounds (x1 c0 : K) (rest : List K) :
    calculatePolyChecked x1 (c0 :: rest) (rest.length + 1) = none ∧
      calculatePolyChecked x1 (c0 :: rest) rest.length
        = some (calculatePoly x1 (listVec (c0 :: rest)) rest.length) ∧
      (∀ (sqrt : K → K) (x coefbeta : Vec K) (XTXInv : Mat K) (tstudentval SE : K)
        (n k i : Nat),
        (bandRow sqrt x coefbeta XTXInv tstudentval SE n k i).y
          = calculatePoly (bandRow sqrt x coefbeta XTXInv tstudentval SE n k i).x coefbeta
              (k + 1)) ∧
      calculatePolyChecked (1 : ℚ) [2] (0 + 1) = none := by
  refine ⟨?_, ?_, ?_, ?_⟩
  · exact calculatePolyChecked_none x1 (c0 :: rest) (rest.length + 1) (by simp)
  · exact calculatePolyChecked_some x1 (c0 :: rest) rest.length (by simp)
  · intro sqrt x coefbeta XTXInv tstudentval SE n k i
    rfl
  · exact calculatePolyChecked_none 1 [2] 1 (by simp)

/-- C25: for a fit with an adjustable intercept, a diagonal weight matrix
with a strictly positive diagonal, a Gram matrix `XᵗWX` of non-zero
determinant and `CalculateTSS > 0`, the coefficients returned by `PolyFit`
satisfy `0 ≤ CalculateRSS ≤ CalculateTSS`, hence `0 ≤ CalculateR2COD ≤ 1`. -/
theorem r2_range (x y : Vec K) (n k : Nat) (hk : k + 1 < 2 ^ 64) (c0 : K)
    (beta0 : Vec K) (W inv0 : Mat K)
    (hdiag : ∀ i j, i < n → j < n → i ≠ j → W i j = 0)
    (hpos : ∀ i, i < n → 0 < W i i)
    (hdet : ((vandermondeX x n k).transpose * toMatrix W n n * vandermondeX x n k).det ≠ 0)
    (hTSS : 0 < CalculateTSS y W false n) :
    0 ≤ CalculateRSS x y (PolyFit x y n k false c0 beta0 W inv0).1 W n (k + 1) ∧
      CalculateRSS x y (PolyFit x y n k false c0 beta0 W inv0).1 W n (k + 1)
        ≤ CalculateTSS y W false n ∧
      0 ≤ CalculateR2COD x y (PolyFit x y n k false c0 beta0 W inv0).1 W false n (k + 1) ∧
      CalculateR2COD x y (PolyFit x y n k false c0 beta0 W inv0).1 W false n (k + 1) ≤ 1 := by
  have h0 : 0 ≤ CalculateRSS x y (PolyFit x y n k false c0 beta0 W inv0).1 W n (k + 1) :=
    CalculateRSS_nonneg x y _ W n (k + 1) (fun i hi => le_of_lt (hpos i hi))
  have h1 : CalculateRSS x y (PolyFit x y n k false c0 beta0 W inv0).1 W n (k + 1)
      ≤ CalculateTSS y W false n := by
    rw [CalculateTSS_eq_RSS_const x y W n k]
    exact PolyFit_rss_le x y n k hk c0 beta0 W inv0 hdiag hpos hdet _
  refine ⟨h0, h1, ?_, ?_⟩
  · unfold CalculateR2COD
    have := (div_le_one hTSS).mpr h1
    simp only
    linarith
  · unfold CalculateR2COD
    have := div_nonneg h0 (le_of_lt hTSS)
    simp only
    linarith

/-- A witness of C25: the points `(0, 1)`, `(1, 3)`, `(2, 4)`, degree one and
unit weights. -/
theorem r2_range_witness :
    (0 : ℚ) < CalculateTSS (listVec [1, 3, 4]) unitWeights false 3 ∧
      CalculateRSS (listVec [0, 1, 2]) (listVec [1, 3, 4])
          (PolyFit (listVec [0, 1, 2]) (listVec [1, 3, 4]) 3 1 false (0 : ℚ) (fun _ => 0)
            unitWeights (Make2DArray 2 2)).1 unitWeights 3 (1 + 1)
        ≤ CalculateTSS (listVec [1, 3, 4]) unitWeights false 3 :=
  have hT : (0 : ℚ) < CalculateTSS (listVec [1, 3, 4]) unitWeights false 3 := by
    rw [CalculateTSS_false_eq]
    simp [Finset.sum_range_succ, listVec, unitWeights]
    norm_num
  ⟨hT,
    (r2_range (listVec [0, 1, 2]) (listVec [1, 3, 4]) 3 1 (by norm_num) 0 (fun _ => 0)
      unitWeights (Make2DArray 2 2)
      (fun i j _ _ h => by simp [unitWeights, h])
      (fun i _ => by simp [unitWeights])
      (by
        have e : toMatrix (unitWeights : Mat ℚ) 3 3 = 1 := by
          ext i j
          simp [toMatrix, unitWeights, Matrix.one_apply, Fin.ext_iff]
        rw [e, Matrix.mul_one]
        simp [Matrix.det_fin_two, Matrix.mul_apply, Fin.sum_univ_three, vandermondeX, listVec]
        norm_num)
      hT).2.1⟩

/-- C28: `cdfStudent(nu, t)` equals `cdfStudent(nu, -t)` and
`1 - incbeta(nu / 2, 1 / 2, nu / (t² + nu))`: it depends on `t` through
`t * t` only, and so does the value `1. - cdfStudent(nu, t)` that
`DisplayCoefs` prints. -/
theorem cdfStudent_even (lgamma exp log : K → K) (nu t : K) :
    cdfStudent lgamma exp log nu t = cdfStudent lgamma exp log nu (-t) ∧
      cdfStudent lgamma exp log nu t
        = Dbl.sub (Dbl.fin 1) (incbeta lgamma exp log (nu / 2) (1 / 2) (nu / (t ^ 2 + nu))) ∧
      Dbl.sub (Dbl.fin 1) (cdfStudent lgamma exp log nu t)
        = Dbl.sub (Dbl.fin 1) (cdfStudent lgamma exp log nu (-t)) := by
  have e : cdfStudent lgamma exp log nu t = cdfStudent lgamma exp log nu (-t) := by
    unfold cdfStudent
    rw [neg_mul_neg]
  refine ⟨e, ?_, by rw [e]⟩
  unfold cdfStudent
  have h1 : (0.5 : K) * nu = nu / 2 := by
    norm_num
    ring
  have h2 : (0.5 : K) = 1 / 2 := by norm_num
  have h3 : t * t = t ^ 2 := by ring
  simp only [h1, h3]
  rw [h2]

end Claims

end Polyfit
